import Mathlib

/-!
# IEEE-754 codec over exact fractions

A shallow embedding of `Fraction.js`, `IEEE.js` and the arithmetic of `code.js`:
exact fractions over unbounded integers, the encoder `updateBits`, the decoder
`fromBits`, the decimal formatter and the text parser. JavaScript `BigInt` is `Int`,
bit arrays are `List Bool`, thrown exceptions and exhausted loop budgets are the two
constructors of `Failure`.
-/

namespace Ieee754

/-! ## Fraction.js -/

/-- How a call can fail: a thrown JavaScript exception (a `TypeError` in all the cases
met here), or a `while` loop of the model that used up its iteration budget. -/
inductive Failure where
  | typeError
  | outOfFuel
deriving DecidableEq, Repr

deriving instance DecidableEq for Except

/-- The helper `abs = x => x < 0 ? - x : x`. -/
def abs (x : Int) : Int := if x < 0 then -x else x

/-- The loop `while (b != 0) [a,b] = [b,a%b]` of `gcd`, with an iteration budget. -/
def gcdLoop : Nat → Nat → Nat → Nat
  | 0, a, _ => a
  | fuel + 1, a, b => if b = 0 then a else gcdLoop fuel b (a % b)

/-- The function `gcd(a,b)` on non-negative arguments; the second component of the loop
state decreases strictly, so `b + 1` iterations are enough. -/
def gcd (a b : Nat) : Nat :=
  if a = 0 then b else if b = 0 then a else gcdLoop (b + 1) a b

/-- A `Fraction` object: numerator and denominator, both `BigInt`. -/
structure Fraction where
  num : Int
  den : Int
deriving DecidableEq, Repr

/-- JavaScript `a << k` on `BigInt` (a right shift when `k` is negative). -/
def shl (a k : Int) : Int :=
  if 0 ≤ k then a * (2 ^ k.toNat : Nat) else a / (2 ^ (-k).toNat : Nat)

namespace Fraction

/-- The method `cancel`: divide by the gcd of the absolute values, then make the
denominator non-negative. The denominator of a constructed fraction is never `0`
(the constructor replaces `0` by `1`), so the gcd is positive where the source calls it. -/
def cancel (f : Fraction) : Fraction :=
  let g : Int := gcd (abs f.num).toNat (abs f.den).toNat
  let num := f.num.tdiv g
  let den := f.den.tdiv g
  if den < 0 then ⟨-num, -den⟩ else ⟨num, den⟩

/-- The constructor `new Fraction(num, den)`: `den || 1`, then `cancel` unless the
denominator or the numerator is `1`. -/
def new (num den : Int) : Fraction :=
  let den := if den = 0 then 1 else den
  if den ≠ 1 ∧ num ≠ 1 then cancel ⟨num, den⟩ else ⟨num, den⟩

/-- The constructor with one argument, `new Fraction(num)`: the denominator is `1`. -/
def ofInt (num : Int) : Fraction := new num 1

def add (f summand : Fraction) : Fraction :=
  new (f.num * summand.den + f.den * summand.num) (f.den * summand.den)

def sub (f subtrahend : Fraction) : Fraction :=
  new (f.num * subtrahend.den - f.den * subtrahend.num) (f.den * subtrahend.den)

/-- The in-place `subInt(k)`, returning the updated fraction. -/
def subInt (f : Fraction) (k : Int) : Fraction :=
  cancel ⟨f.num - k * f.den, f.den⟩

def mult (f factor : Fraction) : Fraction :=
  new (f.num * factor.num) (f.den * factor.den)

/-- The in-place `multTen()`, returning the updated fraction. -/
def multTen (f : Fraction) : Fraction :=
  cancel ⟨f.num * 10, f.den⟩

def eq (f other : Fraction) : Bool :=
  f.num * other.den == f.den * other.num

def gt (f other : Fraction) : Bool :=
  if 0 < f.num ∧ other.num ≤ 0 then true
  else if f.num ≤ 0 ∧ 0 < other.num then false
  else decide (f.den * other.num < f.num * other.den)

def ge (f other : Fraction) : Bool := f.gt other || f.eq other

def lt (f other : Fraction) : Bool := other.gt f

def le (f other : Fraction) : Bool := f.lt other || f.eq other

def isPositive (f : Fraction) : Bool := decide (0 < f.num)

def isNegative (f : Fraction) : Bool := decide (f.num < 0)

def isZero (f : Fraction) : Bool := decide (f.num = 0)

/-- The method `abs` of a fraction (a new object). -/
def abs (f : Fraction) : Fraction := new (Ieee754.abs f.num) f.den

/-- The method `floor`: the truncating `BigInt` quotient. -/
def floor (f : Fraction) : Int := f.num.tdiv f.den

def ZERO : Fraction := new 0 1
def ONE : Fraction := new 1 1
def MINUSONE : Fraction := new (-1) 1
def TWO : Fraction := new 2 1
def HALF : Fraction := new 1 2

/-- The rational number that a fraction stands for. -/
def toRat (f : Fraction) : ℚ := (f.num : ℚ) / (f.den : ℚ)

end Fraction

/-- The helper `fractionTimesPower10(val, exp)`. -/
def fractionTimesPower10 (val exp : Int) : Fraction :=
  if 0 ≤ exp then
    let pow : Int := (10 ^ exp.toNat : Nat)
    Fraction.ofInt (if val ≠ 1 then val * pow else pow)
  else Fraction.new val (10 ^ (-exp).toNat : Nat)

/-- The helper `fractionTimesPower2(val, exp)`. -/
def fractionTimesPower2 (val exp : Int) : Fraction :=
  if 0 ≤ exp then
    let pow : Int := shl 1 exp
    Fraction.ofInt (if val ≠ 1 then val * pow else pow)
  else Fraction.new val (shl 1 (-exp))

/-- The least `j` from the start value on with `n < base ^ 2 ^ j`. -/
def digitSpan (base n : Nat) : Nat → Nat → Nat
  | 0, j => j
  | fuel + 1, j => if n < base ^ 2 ^ j then j else digitSpan base n fuel (j + 1)

/-- The number of digits of an `n < base ^ 2 ^ j` by bisection (`0` for `n = 0`). -/
def digitBisect (base : Nat) : Nat → Nat → Nat
  | 0, n => if n = 0 then 0 else 1
  | j + 1, n =>
    if n < base ^ 2 ^ j then digitBisect base j n
    else 2 ^ j + digitBisect base j (n / base ^ 2 ^ j)

/-- The number of digits of `n` in a base, the length of `n.toString(base)`: the least
`k ≥ 1` with `n < base ^ k`. -/
def digitCount (base n : Nat) : Nat :=
  if n = 0 then 1 else digitBisect base (digitSpan base n n 0) n

/-- The length of `n.toString(base)` for a `BigInt` (a minus sign counts). -/
def strLength (base : Nat) (n : Int) : Int :=
  if n < 0 then digitCount base n.natAbs + 1 else digitCount base n.toNat

/-- The helper `intLog2(n) = n.toString(2).length`. -/
def intLog2 (n : Int) : Int := strLength 2 n

/-- The method `log2`. -/
def Fraction.log2 (f : Fraction) : Int := intLog2 f.num - intLog2 f.den

/-- The start value `Math.ceil(intLog10(this.num)-intLog10(this.den)) - 2` of the search in
`log10`. The source computes it in floating point, which is not modelled: `intLog10(n)`
lies between `len - 1` and `len` for `len` the number of decimal digits of `n`, so the
ceiling is `len(num) - len(den)` or one more or less. The value taken here is the
smallest of these, minus `2`; the loop of `log10` adds what is missing. -/
def log10Seed (f : Fraction) : Int := strLength 10 f.num - strLength 10 f.den - 1 - 2

/-- The loop `while (fractionTimesPower10(1n, cand).lt(this)) cand++` of `log10`. -/
def log10Loop : Nat → Int → Fraction → Option Int
  | 0, _, _ => none
  | fuel + 1, cand, f =>
    if (fractionTimesPower10 1 cand).lt f then log10Loop fuel (cand + 1) f else some cand

/-- The method `log10`, with an iteration budget for its loop. -/
def Fraction.log10 (fuel : Nat) (f : Fraction) : Option Int := log10Loop fuel (log10Seed f) f

/-! ## IEEE.js -/

/-- The helper `allZeros`. -/
def allZeros (L : List Bool) : Bool := L.all (fun x => x == false)

/-- The static fields of `IEEE` that `switchBitSize` sets; the two regular expressions
`binRegex` and `hexRegex` are kept as the largest number of digits they accept. -/
structure Format where
  numberOfBits : Nat
  NaNExp : Int
  mantissaLen : Nat
  binDigits : Nat
  hexDigits : Nat
  smallestPositiveHalved : Fraction
deriving DecidableEq, Repr

/-- The assignments of one `case` of `switchBitSize`, with the last line of the function. -/
def formatOf (size : Nat) (nanExp : Int) (mantissaLen binDigits hexDigits : Nat) : Format :=
  { numberOfBits := size, NaNExp := nanExp, mantissaLen := mantissaLen,
    binDigits := binDigits, hexDigits := hexDigits,
    smallestPositiveHalved := fractionTimesPower2 1 (-(mantissaLen : Int) - nanExp + 1) }

/-- The function `IEEE.switchBitSize(size)`. -/
def switchBitSize (size : Nat) : Format :=
  let size := if size = 0 then 64 else size
  if size = 16 then formatOf size 16 10 16 4
  else if size = 32 then formatOf size 128 23 32 8
  else if size = 128 then formatOf size 16384 112 128 32
  else formatOf size 1024 52 64 16

/-- An `IEEE` object. The fields `exp` and `mantissa` do not exist until `updateBits`
or a parser of bit strings has set them. -/
structure IEEE where
  val : Fraction
  minus : Bool
  nan : Bool
  inf : Bool
  exp : Option Int
  mantissa : Option (List Bool)
deriving DecidableEq, Repr

namespace IEEE

/-- The constructor `new IEEE(val)` for a fraction. -/
def new (cfg : Format) (val : Fraction) : IEEE :=
  let minus := val.isNegative
  let val := if val.isNegative then val.abs else val
  let val := if !val.isZero && val.le cfg.smallestPositiveHalved then Fraction.ofInt 0 else val
  { val := val, minus := minus, nan := false, inf := false, exp := none, mantissa := none }

/-- The constructor `new IEEE(n)` for an integer. -/
def ofInt (cfg : Format) (n : Int) : IEEE := new cfg (Fraction.ofInt n)

def isZero (x : IEEE) : Bool := !x.nan && !x.inf && x.val.isZero

def newNegZero (cfg : Format) : IEEE := { ofInt cfg 0 with minus := true }

def newNaN (cfg : Format) : IEEE := { ofInt cfg 0 with nan := true }

def newInf (cfg : Format) (minus : Bool) : IEEE := { ofInt cfg 0 with inf := true, minus := minus }

end IEEE

/-- The method `eq` of `IEEE`. The flags are compared first; the mantissas are looked at
only when the flags agree, and a missing `mantissa` field then makes the call throw. An
index beyond the other mantissa gives `undefined`, which equals no bit. -/
def IEEE.eq (x other : IEEE) : Except Failure Bool :=
  if x.nan == other.nan && x.inf == other.inf && x.minus == other.minus then
    match x.mantissa, other.mantissa with
    | some mantissa, some otherMantissa =>
      .ok ((List.range mantissa.length).all (fun i => mantissa[i]? == otherMantissa[i]?))
    | some mantissa, none => if mantissa = [] then .ok true else .error .typeError
    | none, _ => .error .typeError
  else .ok false

/-- The loop `while (val.ge(Fraction.TWO))` of `updateBits`. -/
def halveLoop : Nat → Fraction → Int → Option (Fraction × Int)
  | 0, _, _ => none
  | fuel + 1, val, exp =>
    if val.ge Fraction.TWO then halveLoop fuel { val with den := shl val.den 1 } (exp + 1)
    else some (val, exp)

/-- The loop `while (val.lt(Fraction.ONE))` of `updateBits`. -/
def doubleLoop : Nat → Fraction → Int → Option (Fraction × Int)
  | 0, _, _ => none
  | fuel + 1, val, exp =>
    if val.lt Fraction.ONE then doubleLoop fuel { val with num := shl val.num 1 } (exp - 1)
    else some (val, exp)

/-- The loop of `updateBits` that fills the mantissa bit by bit; the first argument is
the number of iterations left, `IEEE.mantissaLen - count`. -/
def fillBits : Nat → Fraction → List Bool → Fraction × List Bool
  | 0, val, mantissa => (val, mantissa)
  | n + 1, val, mantissa =>
    let val := val.mult Fraction.TWO
    if val.ge Fraction.ONE then fillBits n (val.sub Fraction.ONE) (mantissa ++ [true])
    else fillBits n val (mantissa ++ [false])

/-- The carry loop `while (count >= 0)` of `updateBits`; the first argument is `count + 1`. -/
def carryLoop : Nat → List Bool → List Bool
  | 0, mantissa => mantissa
  | count + 1, mantissa =>
    if mantissa[count]? = some false then mantissa.set count true
    else carryLoop count (mantissa.set count false)

/-- The branch of `updateBits` for an infinity (also entered through `this.inf = true;
this.updateBits()`). -/
def infBits (cfg : Format) (x : IEEE) : IEEE :=
  { x with inf := true, exp := some cfg.NaNExp,
           mantissa := some (List.replicate cfg.mantissaLen false) }

/-- The part of `updateBits` that adjusts `val` so that it is between one and two, and
`exp` correspondingly: the estimate by `log2`, the two loops and `val.cancel()`. -/
def normalize (fuel : Nat) (val : Fraction) : Option (Fraction × Int) :=
  let lg := val.log2
  let start : Fraction × Int :=
    if 1 < lg then ({ val with den := shl val.den lg }, lg)
    else if lg < 0 then ({ val with num := shl val.num (-lg) }, lg)
    else (val, 0)
  match halveLoop fuel start.1 start.2 with
  | none => none
  | some (val, exp) =>
    match doubleLoop fuel val exp with
    | none => none
    | some (val, exp) => some (val.cancel, exp)

/-- The last part of `updateBits`: fill the mantissa bit by bit from the fractional part
`val`, round to nearest (ties to even) and store mantissa and exponent. -/
def roundBits (cfg : Format) (x : IEEE) (val : Fraction) (exp : Int) : IEEE :=
  let (val, mantissa) := fillBits cfg.mantissaLen val []
  if val.gt Fraction.HALF || (val.eq Fraction.HALF && mantissa.getLast? == some true) then
    let mantissa := carryLoop mantissa.length mantissa
    if allZeros mantissa then
      if exp = cfg.NaNExp then infBits cfg x
      else { x with exp := some (exp + 1), mantissa := some mantissa }
    else { x with exp := some exp, mantissa := some mantissa }
  else { x with exp := some exp, mantissa := some mantissa }

/-- The method `updateBits`. The branch for denormalized numbers calls `val.div`, a
method that `Fraction` does not have: the call throws a `TypeError`. -/
def IEEE.updateBits (cfg : Format) (fuel : Nat) (x : IEEE) : Except Failure IEEE :=
  if x.nan then
    .ok { x with exp := some cfg.NaNExp, mantissa := some (List.replicate cfg.mantissaLen true) }
  else if x.inf then .ok (infBits cfg x)
  else
    let val := Fraction.new x.val.num x.val.den
    if val.isZero || val.lt cfg.smallestPositiveHalved then
      .ok { x with exp := some (1 - cfg.NaNExp),
                   mantissa := some (List.replicate cfg.mantissaLen false) }
    else
      match normalize fuel val with
      | none => .error .outOfFuel
      | some (val, exp) =>
        if cfg.NaNExp ≤ exp then .ok (infBits cfg x)
        else if exp < 2 - cfg.NaNExp then .error .typeError
        else .ok (roundBits cfg x (val.subInt 1) exp)

/-- The value of `BigInt("0b" + hidden + mantissa.join(""))`. -/
def bitsValue (hidden : Bool) (mantissa : List Bool) : Int :=
  mantissa.foldl (fun v b => 2 * v + (if b then 1 else 0)) (if hidden then 1 else 0)

/-- The method `fromBits`. An object without the fields `exp` and `mantissa` makes it
throw. -/
def IEEE.fromBits (cfg : Format) (x : IEEE) : Except Failure IEEE :=
  match x.exp, x.mantissa with
  | some exp, some mantissa =>
    if exp = cfg.NaNExp then
      if allZeros mantissa then .ok { x with inf := true, nan := false }
      else .ok { x with inf := false, nan := true }
    else if exp = 1 - cfg.NaNExp ∧ allZeros mantissa = true then
      .ok { x with nan := false, inf := false, val := Fraction.ofInt 0 }
    else
      let hidden := !(exp = 1 - cfg.NaNExp)
      let exp := if exp = 1 - cfg.NaNExp then 2 - cfg.NaNExp else exp
      let val := bitsValue hidden mantissa
      let e := exp - cfg.mantissaLen
      if 0 ≤ e then .ok { x with nan := false, inf := false, val := Fraction.ofInt (shl val e) }
      else .ok { x with nan := false, inf := false, val := Fraction.new val (shl 1 (-e)) }
  | _, _ => .error .typeError

/-! ### Decimal output -/

/-- The characters of `L.join("")` for a list of numbers. -/
def joinDigits (L : List Nat) : List Char := (L.map (Nat.toDigits 10)).flatten

/-- The value of `BigInt(str)` for a string of decimal digits (`0n` for the empty string). -/
def bigIntOfDigits (str : List Char) : Int :=
  str.foldl (fun v c => 10 * v + ((c.toNat : Int) - 48)) 0

/-- The function `decFromList(L,k)`: the digits `L` read as `0.L * 10^k`. -/
def decFromList (L : List Nat) (k : Int) : Fraction :=
  let str := joinDigits L
  let k := k - L.length
  if 0 ≤ k then Fraction.ofInt (bigIntOfDigits (str ++ List.replicate k.toNat '0'))
  else Fraction.new (bigIntOfDigits str) (10 ^ (-k).toNat : Nat)

/-- The digit loop `while (true)` of `decimalOutput`, with an iteration budget. The
quotient `q0.floor()` is never negative (`q0` is not), so the digits are kept as
natural numbers. -/
def digitLoop (isEven : Bool) (v low high : Fraction) (k : Int) :
    Nat → Fraction → List Nat → Option (List Nat)
  | 0, _, _ => none
  | fuel + 1, q0, d =>
    let q0 := q0.multTen
    let f := q0.floor
    let d := d ++ [f.toNat]
    let dVal1 := decFromList d k
    let cond1 := (isEven && dVal1.ge low) || dVal1.gt low
    let newD := d.dropLast ++ [f.toNat + 1]
    let dVal2 := decFromList newD k
    let cond2 := decide (f.toNat < 9) && ((isEven && dVal2.le high) || dVal2.lt high)
    if cond1 && !cond2 then some d
    else if cond2 && !cond1 then some newD
    else if cond1 && cond2 then
      if ((dVal1.sub v).abs).lt ((dVal2.sub v).abs) then some d else some newD
    else digitLoop isEven v low high k fuel (q0.subInt f) d

/-- The first part of `decimalOutput`: whether the last mantissa bit is zero, the value
`v` as a fraction, and the bounds `low` and `high`. -/
def IEEE.decimalBounds (cfg : Format) (x : IEEE) : Except Failure (Bool × Fraction × Fraction × Fraction) :=
  match x.exp, x.mantissa with
  | some exp, some mantissa =>
    let isEven := decide (mantissa[cfg.mantissaLen - 1]? = some false)
    let denorm := decide (exp = 1 - cfg.NaNExp)
    let v0 : Int := if denorm then 0 else 1
    let e : Int := if denorm then 1 + exp - cfg.mantissaLen else exp - cfg.mantissaLen
    let v : Int := (List.range cfg.mantissaLen).foldl
      (fun v i => if mantissa[i]? = some true then 2 * v + 1 else 2 * v) v0
    let succ := fractionTimesPower2 (v + 1) e
    let pred :=
      if !denorm && allZeros (mantissa.drop 1) then fractionTimesPower2 (v * 2 - 1) (e - 1)
      else fractionTimesPower2 (v - 1) e
    let v := fractionTimesPower2 v e
    let low := v.add pred
    let low := Fraction.cancel { low with den := shl low.den 1 }
    let high := v.add succ
    let high := Fraction.cancel { high with den := shl high.den 1 }
    .ok (isEven, v, low, high)
  | _, _ => .error .typeError

/-- The second part of `decimalOutput`: the exponent `k` and the digit list that are
handed to `decimalString`. -/
def IEEE.decimalDigits (cfg : Format) (fuel : Nat) (x : IEEE) : Except Failure (Int × List Nat) :=
  match x.decimalBounds cfg with
  | .error err => .error err
  | .ok (isEven, v, low, high) =>
    match high.log10 fuel with
    | none => .error .outOfFuel
    | some k =>
      let q0 := v.mult (fractionTimesPower10 1 (-k))
      match digitLoop isEven v low high k fuel q0 [] with
      | none => .error .outOfFuel
      | some d => .ok (k, d)

/-- The characters of a JavaScript integer converted to a string. -/
def intChars (i : Int) : List Char :=
  if i < 0 then '-' :: Nat.toDigits 10 i.natAbs else Nat.toDigits 10 i.toNat

/-- The function `decimalString(minus, exp, digits)`, as a list of characters. -/
def decimalChars (cfg : Format) (minus : Bool) (exp : Int) (digits : List Nat) : List Char :=
  let size : Int :=
    if cfg.numberOfBits = 16 then 5
    else if cfg.numberOfBits = 32 then 9
    else if cfg.numberOfBits = 128 then 36
    else 17
  let sign : List Char := if minus then ['-'] else []
  if (digits.length : Int) ≤ exp ∧ exp < size then
    sign ++ joinDigits digits ++ List.replicate (exp - digits.length).toNat '0' ++ ['.', '0']
  else if exp < 1 ∧ (digits.length : Int) - exp ≤ size then
    sign ++ ['0', '.'] ++ List.replicate (-exp).toNat '0' ++ joinDigits digits
  else
    let index : Int := if 1 ≤ exp ∧ exp < digits.length then exp else 1
    let str := sign ++ joinDigits (digits.take index.toNat)
    let str := if index < digits.length then str ++ ['.'] ++ joinDigits (digits.drop index.toNat)
      else str
    if exp ≠ index then str ++ ['E'] ++ intChars (exp - index) else str

/-- The function `decimalString`. -/
def decimalString (cfg : Format) (minus : Bool) (exp : Int) (digits : List Nat) : String :=
  String.mk (decimalChars cfg minus exp digits)

/-- The method `decimalOutput`. -/
def IEEE.decimalOutput (cfg : Format) (fuel : Nat) (x : IEEE) : Except Failure String :=
  match x.decimalDigits cfg fuel with
  | .ok (k, d) => .ok (decimalString cfg x.minus k d)
  | .error err => .error err

/-! ### Parsing -/

/-- The characters that `String.prototype.trim` removes. -/
def isSpace (c : Char) : Bool :=
  let n := c.toNat
  n = 9 || n = 10 || n = 11 || n = 12 || n = 13 || n = 32 || n = 160 || n = 5760 ||
  (8192 ≤ n && n ≤ 8202) || n = 8232 || n = 8233 || n = 8239 || n = 8287 || n = 12288 ||
  n = 65279

/-- The method `trim` of a string. -/
def trim (s : List Char) : List Char :=
  ((s.dropWhile isSpace).reverse.dropWhile isSpace).reverse

def isDigit (c : Char) : Bool := decide ('0' ≤ c ∧ c ≤ '9')

def isHexDigit (c : Char) : Bool :=
  isDigit c || decide ('a' ≤ c ∧ c ≤ 'f') || decide ('A' ≤ c ∧ c ≤ 'F')

/-- Lower case of an ASCII letter: what the flag `i` of a regular expression lets match. -/
def lower (c : Char) : Char :=
  if 'A' ≤ c ∧ c ≤ 'Z' then Char.ofNat (c.toNat + 32) else c

/-- The value of `parseInt` on an optional sign followed by decimal digits. -/
def parseInt (s : List Char) : Int :=
  match s with
  | '-' :: t => -bigIntOfDigits t
  | '+' :: t => bigIntOfDigits t
  | _ => bigIntOfDigits s

/-- Splits an optional leading sign off. -/
def splitSign (s : List Char) : Option Char × List Char :=
  match s with
  | '+' :: t => (some '+', t)
  | '-' :: t => (some '-', t)
  | _ => (none, s)

/-- The method `parseBin`. -/
def IEEE.parseBin (cfg : Format) (str : List Char) : Except Failure IEEE :=
  let str := trim str
  if !(1 ≤ str.length ∧ str.length ≤ cfg.binDigits ∧ str.all (fun c => c = '0' || c = '1')) then
    .ok (IEEE.newNaN cfg)
  else
    let str := List.replicate (cfg.numberOfBits - str.length) '0' ++ str
    let ieee := IEEE.ofInt cfg 0
    let bits := str.map (fun c => decide (c = '1'))
    let expStr := (str.take (cfg.numberOfBits - cfg.mantissaLen)).drop 1
    let exp : Int := expStr.foldl (fun v c => 2 * v + ((c.toNat : Int) - 48)) 0 - cfg.NaNExp + 1
    IEEE.fromBits cfg { ieee with
      minus := decide (bits[0]? = some true),
      exp := some exp,
      mantissa := some (bits.drop (cfg.numberOfBits - cfg.mantissaLen)) }

/-- The value of `parseInt(c, 16)` for a hexadecimal digit. -/
def hexValue (c : Char) : Nat :=
  if isDigit c then c.toNat - 48
  else if 'a' ≤ c ∧ c ≤ 'f' then c.toNat - 87
  else c.toNat - 55

/-- The method `parseHex`. -/
def IEEE.parseHex (cfg : Format) (str : List Char) : Except Failure IEEE :=
  let str := trim str
  if !(1 ≤ str.length ∧ str.length ≤ cfg.hexDigits ∧ str.all isHexDigit) then
    .ok (IEEE.newNaN cfg)
  else
    let binStr := (str.map (fun c =>
      let digits := Nat.toDigits 2 (hexValue c)
      List.replicate (4 - digits.length) '0' ++ digits)).flatten
    IEEE.parseBin cfg binStr

/-- The groups of `fractionRegex = /^([+-])?(\d+)\/(\d+)$/`: sign, numerator and
denominator, when the string matches. -/
def matchFraction (str : List Char) : Option (Option Char × List Char × List Char) :=
  let (sign, rest) := splitSign str
  let num := rest.takeWhile isDigit
  match rest.dropWhile isDigit with
  | '/' :: den =>
    if num ≠ [] ∧ den ≠ [] ∧ den.all isDigit then some (sign, num, den) else none
  | _ => none

/-- The method `parseFraction`. -/
def IEEE.parseFraction (cfg : Format) (str : List Char) : IEEE :=
  let str := trim str
  match matchFraction str with
  | none => IEEE.newNaN cfg
  | some (sign, numStr, denStr) =>
    let minus := decide (sign = some '-')
    let num := bigIntOfDigits numStr
    let den := bigIntOfDigits denStr
    if den = 0 then (if num = 0 then IEEE.newNaN cfg else IEEE.newInf cfg minus)
    else if num = 0 then (if minus then IEEE.newNegZero cfg else IEEE.ofInt cfg 0)
    else IEEE.new cfg (Fraction.new (if minus then -num else num) den)

/-- The shape `[sign] mantissa [E exponent]` common to the two regular expressions of
`parseDecimal`: the sign, the text before the first `E` or `e`, and the text after it. -/
def splitDecimal (str : List Char) : Option Char × List Char × Option (List Char) :=
  let (sign, rest) := splitSign str
  let mantissa := rest.takeWhile (fun c => lower c ≠ 'e')
  match rest.dropWhile (fun c => lower c ≠ 'e') with
  | [] => (sign, mantissa, none)
  | _ :: exponent => (sign, mantissa, some exponent)

/-- Whether a text is `[+-]?` followed by at least one and at most `maxLen` digits. -/
def isExponent (maxLen : Option Nat) (s : List Char) : Bool :=
  let digits := (splitSign s).2
  digits ≠ [] && digits.all isDigit &&
    (match maxLen with
     | none => true
     | some n => decide (digits.length ≤ n))

/-- The alternatives `0(?:\.0*)?|\.00*` of the regular expression for zero. -/
def isZeroMantissa (s : List Char) : Bool :=
  match s with
  | '0' :: [] => true
  | '0' :: '.' :: t => t.all (fun c => c = '0')
  | '.' :: '0' :: t => t.all (fun c => c = '0')
  | _ => false

/-- The alternatives `\d+(?:\.\d*)?|\.\d\d*` of the general regular expression. -/
def isMantissa (s : List Char) : Bool :=
  let intPart := s.takeWhile isDigit
  match s.dropWhile isDigit with
  | [] => intPart ≠ []
  | '.' :: t => t.all isDigit && (intPart ≠ [] || t ≠ [])
  | _ => false

/-- The loop `while (mantissa[mantissa.length - 1] == "0")` of `parseDecimal`. -/
def dropTrailingZeros (s : List Char) : List Char :=
  (s.reverse.dropWhile (fun c => c = '0')).reverse

/-- The method `parseDecimal`. -/
def IEEE.parseDecimal (cfg : Format) (str : List Char) : IEEE :=
  let str := trim str
  let (sign, mantissa, exponent) := splitDecimal str
  if isZeroMantissa mantissa && (exponent.isNone || exponent.any (isExponent none)) then
    if sign = some '-' then IEEE.newNegZero cfg else IEEE.ofInt cfg 0
  else if !(isMantissa mantissa && (exponent.isNone || exponent.any (isExponent (some 5)))) then
    IEEE.newNaN cfg
  else
    let exp : Int := parseInt (exponent.getD ['0'])
    let mantissa := mantissa.dropWhile (fun c => c = '0')
    let mantissa := if mantissa.head? = some '.' then '0' :: mantissa else mantissa
    let dot := mantissa.indexOf '.'
    let (mantissa, exp) : List Char × Int :=
      if dot < mantissa.length then
        let mantissa := dropTrailingZeros mantissa
        (mantissa.take dot ++ mantissa.drop (dot + 1), exp - ((mantissa.length : Int) - dot - 1))
      else (mantissa, exp)
    let big := bigIntOfDigits mantissa
    let big := if sign = some '-' then -big else big
    IEEE.new cfg (fractionTimesPower10 big exp)

/-- The function `IEEE.parse`. -/
def IEEE.parse (cfg : Format) (str : String) : Except Failure IEEE :=
  let str := trim str.toList
  if str.map lower = ['n', 'a', 'n'] then .ok (IEEE.newNaN cfg)
  else if ((splitSign str).2).map lower = ['i', 'n', 'f'] then
    .ok (IEEE.newInf cfg (decide ((splitSign str).1 = some '-')))
  else if (str.take 2).map lower = ['0', 'b'] then IEEE.parseBin cfg (str.drop 2)
  else if (str.take 2).map lower = ['0', 'x'] then IEEE.parseHex cfg (str.drop 2)
  else if (matchFraction str).isSome then .ok (IEEE.parseFraction cfg str)
  else .ok (IEEE.parseDecimal cfg str)

/-! ## code.js -/

/-- The function `addThem` for the operands `ieees[1]` and `summand2`. The source tests
`summand2.isZero` without calling it: a function object, which counts as true. -/
def addThem (cfg : Format) (ieee1 summand2 : IEEE) : IEEE :=
  if ieee1.inf || summand2.inf then
    if !summand2.inf then IEEE.newInf cfg ieee1.minus
    else if !ieee1.inf then IEEE.newInf cfg summand2.minus
    else if ieee1.minus = summand2.minus then IEEE.newInf cfg ieee1.minus
    else IEEE.newNaN cfg
  else if ieee1.isZero && true && ieee1.minus && summand2.minus then IEEE.newNegZero cfg
  else if (!ieee1.minus) = (!summand2.minus) then
    let val := ieee1.val.add summand2.val
    IEEE.new cfg (if ieee1.minus then val.mult Fraction.MINUSONE else val)
  else if ieee1.minus then IEEE.new cfg (summand2.val.sub ieee1.val)
  else IEEE.new cfg (ieee1.val.sub summand2.val)

/-- The function `multiplyThem` for the operands `ieees[1]` and `ieees[2]`. -/
def multiplyThem (cfg : Format) (ieee1 ieee2 : IEEE) : IEEE :=
  let signsDiffer := (!ieee1.minus) != (!ieee2.minus)
  if ieee1.inf || ieee2.inf then
    if ieee1.isZero || ieee2.isZero then IEEE.newNaN cfg else IEEE.newInf cfg signsDiffer
  else { IEEE.new cfg (ieee1.val.mult ieee2.val) with minus := signsDiffer }

/-- The function `divideThem` for the operands `ieees[1]` and `ieees[2]`. Its last branch
calls `ieees[1].val.div`, a method that `Fraction` does not have: the call throws a
`TypeError`. -/
def divideThem (cfg : Format) (ieee1 ieee2 : IEEE) : Except Failure IEEE :=
  let signsDiffer := (!ieee1.minus) != (!ieee2.minus)
  if ieee1.inf && ieee2.inf then .ok (IEEE.newNaN cfg)
  else if ieee1.inf then .ok (IEEE.newInf cfg signsDiffer)
  else if ieee2.inf then .ok (if signsDiffer then IEEE.newNegZero cfg else IEEE.ofInt cfg 0)
  else if ieee2.isZero then
    if ieee1.isZero then .ok (IEEE.newNaN cfg) else .ok (IEEE.newInf cfg signsDiffer)
  else .error .typeError

/-! ## Notions used in the statements -/

/-- The bit fields of an object are those of a finite number of the format: the exponent
lies between `1 - NaNExp` and `NaNExp - 1` and the mantissa has `mantissaLen` bits. -/
def FiniteBits (cfg : Format) (b : IEEE) : Prop :=
  ∃ (e : Int) (M : List Bool), b.exp = some e ∧ b.mantissa = some M ∧
    1 - cfg.NaNExp ≤ e ∧ e < cfg.NaNExp ∧ M.length = cfg.mantissaLen

/-- A rational number is a finite representable magnitude of the format: `fromBits`
decodes it from finite bit fields. -/
def Representable (cfg : Format) (q : ℚ) : Prop :=
  ∃ b z : IEEE, FiniteBits cfg b ∧ b.fromBits cfg = .ok z ∧ z.val.toRat = q

/-- What decoding can give: NaN, an infinity, or a finite magnitude. -/
inductive Decoded where
  | nan
  | infinity
  | finite (magnitude : ℚ)
deriving DecidableEq

/-- What an object stands for, the sign apart: `nan` first, then `inf`, then `val`. -/
def IEEE.decoded (x : IEEE) : Decoded :=
  if x.nan then .nan else if x.inf then .infinity else .finite x.val.toRat

/-- The mantissa bits read as a binary integer, most significant bit first. -/
def mantissaAsInteger : List Bool → Nat
  | [] => 0
  | b :: t => (if b then 2 ^ t.length else 0) + mantissaAsInteger t

/-- The reference decoder of the specification: exponent `NaNExp` is Infinity for the
all-zero mantissa and NaN otherwise; exponent `1 - NaNExp` is zero for the all-zero
mantissa and otherwise `int(M) * 2^(2 - NaNExp - mantissaLen)`; every other exponent `e` is
`(2^mantissaLen + int(M)) * 2^(e - mantissaLen)`. -/
def referenceDecoder (cfg : Format) (e : Int) (M : List Bool) : Decoded :=
  if e = cfg.NaNExp then
    if ∀ b ∈ M, b = false then .infinity else .nan
  else if e = 1 - cfg.NaNExp then
    if ∀ b ∈ M, b = false then .finite 0
    else .finite ((mantissaAsInteger M : ℚ) * (2 : ℚ) ^ (2 - cfg.NaNExp - (cfg.mantissaLen : Int)))
  else
    .finite (((2 : ℚ) ^ cfg.mantissaLen + (mantissaAsInteger M : ℚ))
      * (2 : ℚ) ^ (e - (cfg.mantissaLen : Int)))

/-- The canonical form of a fraction: positive denominator, lowest terms. -/
def Fraction.Canonical (f : Fraction) : Prop := 0 < f.den ∧ Int.gcd f.num f.den = 1

/-- The decoding of a bit string as the description of `parse` has it: the bits are
padded on the left with zeros to the full width; the first bit is the sign, the bits up
to the mantissa are the exponent with the bias `NaNExp - 1`, the last `mantissaLen` bits
are the mantissa; the fields are handed to `fromBits`. -/
def decodeBitString (cfg : Format) (s : List Bool) : Except Failure IEEE :=
  let bits := List.replicate (cfg.numberOfBits - s.length) false ++ s
  IEEE.fromBits cfg
    { val := ⟨0, 1⟩, nan := false, inf := false,
      minus := decide (bits.head? = some true),
      exp := some (bitsValue false ((bits.take (cfg.numberOfBits - cfg.mantissaLen)).drop 1)
        - (cfg.NaNExp - 1)),
      mantissa := some (bits.drop (cfg.numberOfBits - cfg.mantissaLen)) }

/-- The four binary digits of a hexadecimal digit, most significant first. -/
def hexDigitBits (c : Char) : List Char :=
  let bit : Nat → Char := fun n => if n % 2 = 1 then '1' else '0'
  [bit (hexValue c / 8), bit (hexValue c / 4), bit (hexValue c / 2), bit (hexValue c)]

/-- A decimal literal `[sign]? (digits[.digits] | .digits) [E[sign]digits]`, split into
its parts: the sign (empty, `+` or `-`), the digits before the point, whether there is a
point, the digits after it, and the exponent part (the letter, the sign, the digits). -/
structure DecimalLiteral where
  sign : List Char
  intPart : List Char
  dot : Bool
  fracPart : List Char
  expo : Option (Char × List Char × List Char)
deriving DecidableEq, Repr

/-- Whether a text is empty, `+` or `-`. -/
def isSignText (s : List Char) : Bool := s = [] || s = ['+'] || s = ['-']

/-- Whether the parts are those of a literal of the grammar, the exponent having at least
one and at most five digits. -/
def DecimalLiteral.wellFormed (l : DecimalLiteral) : Bool :=
  isSignText l.sign && l.intPart.all isDigit && l.fracPart.all isDigit &&
  (l.dot || l.fracPart = []) && (l.intPart ≠ [] || l.fracPart ≠ []) &&
  (match l.expo with
   | none => true
   | some (letter, esign, digits) =>
     (letter = 'e' || letter = 'E') && isSignText esign && digits.all isDigit &&
       decide (1 ≤ digits.length) && decide (digits.length ≤ 5))

/-- The characters of the literal. -/
def DecimalLiteral.text (l : DecimalLiteral) : List Char :=
  l.sign ++ l.intPart ++ (if l.dot then '.' :: l.fracPart else []) ++
  (match l.expo with
   | none => []
   | some (letter, esign, digits) => letter :: (esign ++ digits))

/-- The digits of the mantissa read as one integer, the decimal point left out. -/
def DecimalLiteral.mantissaInteger (l : DecimalLiteral) : Int :=
  bigIntOfDigits (l.intPart ++ l.fracPart)

/-- The power of ten that `mantissaInteger` is to be multiplied with: the written
exponent (zero if there is none) minus the number of digits after the point. -/
def DecimalLiteral.exponent (l : DecimalLiteral) : Int :=
  (match l.expo with
   | none => 0
   | some (_, esign, digits) =>
     if esign = ['-'] then -bigIntOfDigits digits else bigIntOfDigits digits)
  - l.fracPart.length

/-- The magnitude that the literal denotes, `mantissaInteger * 10^exponent`. -/
def DecimalLiteral.value (l : DecimalLiteral) : ℚ :=
  (l.mantissaInteger : ℚ) * (10 : ℚ) ^ l.exponent

/-- Whether a text is `[sign] mantissa [E exponent]` for a mantissa of the general form and
an exponent of at most `maxLen` digits. -/
def isDecimalText (maxLen : Option Nat) (s : List Char) : Bool :=
  let (_, mantissa, exponent) := splitDecimal s
  isMantissa mantissa && (exponent.isNone || exponent.any (isExponent maxLen))

/-- Whether a text is `[sign] mantissa [E exponent]` for a mantissa that is written with
zeros only and an exponent of any length. -/
def isZeroText (s : List Char) : Bool :=
  let (_, mantissa, exponent) := splitDecimal s
  isZeroMantissa mantissa && (exponent.isNone || exponent.any (isExponent none))

/-- Whether a text is `1` to `binDigits` binary digits. -/
def isBinText (cfg : Format) (s : List Char) : Bool :=
  decide (1 ≤ s.length) && decide (s.length ≤ cfg.binDigits) && s.all (fun c => c = '0' || c = '1')

/-- Whether a text is `1` to `hexDigits` hexadecimal digits. -/
def isHexText (cfg : Format) (s : List Char) : Bool :=
  decide (1 ≤ s.length) && decide (s.length ≤ cfg.hexDigits) && s.all isHexDigit

/-- The grammars as the description of `parse` lists them: `nan`, `[sign]inf`, `0b` and
binary digits, `0x` and hexadecimal digits, `[sign]integer/integer`, a decimal literal with
an exponent of at most five digits. -/
def inListedGrammars (cfg : Format) (s : List Char) : Bool :=
  s.map lower = ['n', 'a', 'n'] || ((splitSign s).2).map lower = ['i', 'n', 'f'] ||
  ((s.take 2).map lower = ['0', 'b'] && isBinText cfg (s.drop 2)) ||
  ((s.take 2).map lower = ['0', 'x'] && isHexText cfg (s.drop 2)) ||
  (matchFraction s).isSome || isDecimalText (some 5) s

/-- The listed grammars, with white space allowed between the prefix `0b` or `0x` and the
digits, and with the zero literals whose exponent has any number of digits. -/
def inAcceptedGrammars (cfg : Format) (s : List Char) : Bool :=
  s.map lower = ['n', 'a', 'n'] || ((splitSign s).2).map lower = ['i', 'n', 'f'] ||
  ((s.take 2).map lower = ['0', 'b'] && isBinText cfg (trim (s.drop 2))) ||
  ((s.take 2).map lower = ['0', 'x'] && isHexText cfg (trim (s.drop 2))) ||
  (matchFraction s).isSome || isZeroText s || isDecimalText (some 5) s

/-! ## Concrete objects -/

/-- An object with the given magnitude and bit fields, positive. -/
def bitPattern (val : Fraction) (exp : Int) (mantissa : List Bool) : IEEE :=
  { val := val, minus := false, nan := false, inf := false,
    exp := some exp, mantissa := some mantissa }

/-- The 16-bit pattern of a NaN whose mantissa is `0000000001`. -/
def nanPayload16 : IEEE := bitPattern ⟨0, 1⟩ 16 (List.replicate 9 false ++ [true])

/-- The 16-bit pattern of the number one. -/
def one16 : IEEE := bitPattern ⟨1, 1⟩ 0 (List.replicate 10 false)

/-- The number `1.5 * 2^59 = 864691128455135232`, with its 32-bit fields. -/
def threeHalves59 : IEEE := bitPattern ⟨864691128455135232, 1⟩ 59 (true :: List.replicate 22 false)

/-- The smallest normal 128-bit number, `2^(-16382)`, with its bit fields. -/
def minNormal128 : IEEE :=
  bitPattern ⟨1, (2 ^ 16382 : Nat)⟩ (-16382) (List.replicate 112 false)

/-- The sign, the exponent and the mantissa of the result of an encoding. -/
def bitFields (r : Except Failure IEEE) : Except Failure (Bool × Option Int × Option (List Bool)) :=
  r.map (fun x => (x.minus, x.exp, x.mantissa))

end Ieee754

namespace Ieee754

/-! ## The gcd loop -/

theorem gcdLoop_eq (fuel : Nat) : ∀ a b : Nat, b < fuel → gcdLoop fuel a b = Nat.gcd a b := by
  induction fuel with
  | zero => intro a b h; omega
  | succ n ih =>
    intro a b h
    unfold gcdLoop
    split
    · next hb => subst hb; simp
    · next hb =>
      have hlt : a % b < b := Nat.mod_lt _ (Nat.pos_of_ne_zero hb)
      rw [ih b (a % b) (by omega), Nat.gcd_comm a b, Nat.gcd_rec b a, Nat.gcd_comm]

theorem gcd_eq (a b : Nat) : gcd a b = Nat.gcd a b := by
  unfold gcd
  split
  · next h => subst h; simp
  · split
    · next h => subst h; simp
    · exact gcdLoop_eq _ _ _ (by omega)

theorem abs_toNat (x : Int) : (abs x).toNat = x.natAbs := by
  unfold abs
  split <;> omega

theorem abs_eq (x : Int) : abs x = |x| := by
  unfold abs
  split
  · next h => rw [abs_of_neg h]
  · next h => rw [abs_of_nonneg (by omega)]

/-! ## Fractions as rational numbers -/

namespace Fraction

theorem cancel_gcd (f : Fraction) :
    ((gcd (Ieee754.abs f.num).toNat (Ieee754.abs f.den).toNat : Nat) : Int) = (Int.gcd f.num f.den : Int) := by
  rw [gcd_eq, abs_toNat, abs_toNat, Int.gcd_eq_natAbs]

theorem cancel_spec (f : Fraction) (hd : f.den ≠ 0) :
    0 < (cancel f).den ∧ (cancel f).toRat = f.toRat ∧ Int.gcd (cancel f).num (cancel f).den = 1 := by
  have hg : 0 < Int.gcd f.num f.den := Int.gcd_pos_of_ne_zero_right _ hd
  have hgz : ((Int.gcd f.num f.den : Nat) : Int) ≠ 0 := by exact_mod_cast hg.ne'
  have hn : (Int.gcd f.num f.den : Int) ∣ f.num := Int.gcd_dvd_left
  have hdv : (Int.gcd f.num f.den : Int) ∣ f.den := Int.gcd_dvd_right
  have e1 : f.num.tdiv (Int.gcd f.num f.den) = f.num / (Int.gcd f.num f.den : Int) :=
    Int.tdiv_eq_ediv_of_dvd hn
  have e2 : f.den.tdiv (Int.gcd f.num f.den) = f.den / (Int.gcd f.num f.den : Int) :=
    Int.tdiv_eq_ediv_of_dvd hdv
  have hcop := Int.gcd_div_gcd_div_gcd hg
  have hnum : f.num / (Int.gcd f.num f.den : Int) * (Int.gcd f.num f.den : Int) = f.num :=
    Int.ediv_mul_cancel hn
  have hden : f.den / (Int.gcd f.num f.den : Int) * (Int.gcd f.num f.den : Int) = f.den :=
    Int.ediv_mul_cancel hdv
  have hd0 : f.den / (Int.gcd f.num f.den : Int) ≠ 0 := by
    intro h0
    rw [h0, zero_mul] at hden
    exact hd hden.symm
  have hrat : ((f.num / (Int.gcd f.num f.den : Int) : Int) : ℚ) / ((f.den / (Int.gcd f.num f.den : Int) : Int) : ℚ)
      = (f.num : ℚ) / (f.den : ℚ) := by
    have hd0q : ((f.den / (Int.gcd f.num f.den : Int) : Int) : ℚ) ≠ 0 := by exact_mod_cast hd0
    have hdq : (f.den : ℚ) ≠ 0 := by exact_mod_cast hd
    rw [div_eq_div_iff hd0q hdq]
    have h1 : (f.num : ℚ) = ((f.num / (Int.gcd f.num f.den : Int) : Int) : ℚ) * ((Int.gcd f.num f.den : Int) : ℚ) := by
      exact_mod_cast hnum.symm
    have h2 : (f.den : ℚ) = ((f.den / (Int.gcd f.num f.den : Int) : Int) : ℚ) * ((Int.gcd f.num f.den : Int) : ℚ) := by
      exact_mod_cast hden.symm
    rw [h1, h2]
    set a := ((f.num / (Int.gcd f.num f.den : Int) : Int) : ℚ)
    set b := ((f.den / (Int.gcd f.num f.den : Int) : Int) : ℚ)
    simp only [← h1, ← h2]
    rw [h1, h2]
    ring
  unfold cancel
  simp only [cancel_gcd, e1, e2]
  split
  · next hneg =>
    refine ⟨by simpa using hneg, ?_, ?_⟩
    · simp only [toRat]
      rw [← hrat]
      push_cast
      rw [neg_div_neg_eq]
    · simpa [Int.gcd_neg] using hcop
  · next hpos =>
    refine ⟨by show 0 < f.den / (Int.gcd f.num f.den : Int); omega, ?_, hcop⟩
    simp only [toRat]
    exact hrat

end Fraction

end Ieee754

namespace Ieee754

namespace Fraction

theorem cancel_den_pos (f : Fraction) (hd : f.den ≠ 0) : 0 < (cancel f).den :=
  (cancel_spec f hd).1

theorem cancel_toRat (f : Fraction) (hd : f.den ≠ 0) : (cancel f).toRat = f.toRat :=
  (cancel_spec f hd).2.1

theorem ofInt_eq (n : Int) : ofInt n = ⟨n, 1⟩ := by
  simp [ofInt, new]

theorem ofInt_toRat (n : Int) : (ofInt n).toRat = n := by
  simp [ofInt_eq, toRat]

theorem new_den_pos (n d : Int) (hd : 0 < d) : 0 < (new n d).den := by
  unfold new
  have hd0 : d ≠ 0 := by omega
  simp only [hd0, if_false]
  split
  · exact cancel_den_pos _ hd0
  · exact hd

theorem new_toRat (n d : Int) (hd : d ≠ 0) : (new n d).toRat = (n : ℚ) / (d : ℚ) := by
  unfold new
  simp only [hd, if_false]
  split
  · rw [cancel_toRat _ hd]; rfl
  · rfl

theorem toRat_mk (n d : Int) : (Fraction.mk n d).toRat = (n : ℚ) / (d : ℚ) := rfl

theorem eq_iff (a b : Fraction) (ha : 0 < a.den) (hb : 0 < b.den) :
    a.eq b = true ↔ a.toRat = b.toRat := by
  have haq : (a.den : ℚ) ≠ 0 := by exact_mod_cast ha.ne'
  have hbq : (b.den : ℚ) ≠ 0 := by exact_mod_cast hb.ne'
  simp only [Fraction.eq, toRat, beq_iff_eq]
  rw [div_eq_div_iff haq hbq]
  constructor
  · intro h
    have : ((a.num * b.den : Int) : ℚ) = ((a.den * b.num : Int) : ℚ) := by rw [h]
    push_cast at this
    linarith
  · intro h
    have : ((a.num * b.den : Int) : ℚ) = ((a.den * b.num : Int) : ℚ) := by
      push_cast; linarith
    exact_mod_cast this

theorem toRat_pos_iff (a : Fraction) (ha : 0 < a.den) : 0 < a.toRat ↔ 0 < a.num := by
  have haq : (0 : ℚ) < (a.den : ℚ) := by exact_mod_cast ha
  simp only [toRat]
  rw [div_pos_iff_of_pos_right haq]
  exact_mod_cast Iff.rfl

theorem toRat_nonneg_iff (a : Fraction) (ha : 0 < a.den) : 0 ≤ a.toRat ↔ 0 ≤ a.num := by
  have haq : (0 : ℚ) < (a.den : ℚ) := by exact_mod_cast ha
  simp only [toRat]
  rw [div_nonneg_iff]
  constructor
  · rintro (⟨h, _⟩ | ⟨_, h⟩)
    · exact_mod_cast h
    · linarith
  · intro h
    exact Or.inl ⟨by exact_mod_cast h, haq.le⟩

theorem toRat_lt_iff (a b : Fraction) (ha : 0 < a.den) (hb : 0 < b.den) :
    b.toRat < a.toRat ↔ a.den * b.num < a.num * b.den := by
  have haq : (0 : ℚ) < (a.den : ℚ) := by exact_mod_cast ha
  have hbq : (0 : ℚ) < (b.den : ℚ) := by exact_mod_cast hb
  simp only [toRat]
  rw [div_lt_div_iff₀ hbq haq]
  constructor
  · intro h
    have : ((a.den * b.num : Int) : ℚ) < ((a.num * b.den : Int) : ℚ) := by
      push_cast; linarith
    exact_mod_cast this
  · intro h
    have : ((a.den * b.num : Int) : ℚ) < ((a.num * b.den : Int) : ℚ) := by exact_mod_cast h
    push_cast at this
    linarith

theorem gt_iff (a b : Fraction) (ha : 0 < a.den) (hb : 0 < b.den) :
    a.gt b = true ↔ b.toRat < a.toRat := by
  unfold Fraction.gt
  split
  · next h =>
    have h1 := (toRat_pos_iff a ha).2 h.1
    have h2 : b.toRat ≤ 0 := by
      by_contra hc
      push_neg at hc
      have := (toRat_pos_iff b hb).1 hc
      omega
    simp only [true_iff]
    linarith
  · split
    · next h =>
      have h1 := (toRat_pos_iff b hb).2 h.2
      have h2 : a.toRat ≤ 0 := by
        by_contra hc
        push_neg at hc
        have := (toRat_pos_iff a ha).1 hc
        omega
      constructor
      · intro hf; exact absurd hf (by simp)
      · intro hlt; linarith
    · simp only [decide_eq_true_eq]
      exact (toRat_lt_iff a b ha hb).symm

theorem ge_iff (a b : Fraction) (ha : 0 < a.den) (hb : 0 < b.den) :
    a.ge b = true ↔ b.toRat ≤ a.toRat := by
  unfold Fraction.ge
  rw [Bool.or_eq_true, gt_iff a b ha hb, eq_iff a b ha hb]
  constructor
  · rintro (h | h)
    · exact h.le
    · exact h.ge
  · intro h
    rcases h.lt_or_eq with h | h
    · exact Or.inl h
    · exact Or.inr h.symm

theorem lt_iff (a b : Fraction) (ha : 0 < a.den) (hb : 0 < b.den) :
    a.lt b = true ↔ a.toRat < b.toRat := by
  unfold Fraction.lt
  exact gt_iff b a hb ha

theorem le_iff (a b : Fraction) (ha : 0 < a.den) (hb : 0 < b.den) :
    a.le b = true ↔ a.toRat ≤ b.toRat := by
  unfold Fraction.le
  rw [Bool.or_eq_true, lt_iff a b ha hb, eq_iff a b ha hb]
  constructor
  · rintro (h | h)
    · exact h.le
    · exact h.le
  · intro h
    rcases h.lt_or_eq with h | h
    · exact Or.inl h
    · exact Or.inr h

theorem isZero_iff (a : Fraction) (ha : 0 < a.den) : a.isZero = true ↔ a.toRat = 0 := by
  have haq : (a.den : ℚ) ≠ 0 := by exact_mod_cast ha.ne'
  simp only [isZero, decide_eq_true_eq, toRat, div_eq_zero_iff, haq, or_false]
  exact_mod_cast Iff.rfl

theorem isNegative_iff (a : Fraction) (ha : 0 < a.den) : a.isNegative = true ↔ a.toRat < 0 := by
  have haq : (0 : ℚ) < (a.den : ℚ) := by exact_mod_cast ha
  simp only [isNegative, decide_eq_true_eq, toRat]
  rw [div_neg_iff]
  constructor
  · intro h
    exact Or.inr ⟨by exact_mod_cast h, haq⟩
  · rintro (⟨_, h⟩ | ⟨h, _⟩)
    · linarith
    · exact_mod_cast h

theorem add_den_pos (a b : Fraction) (ha : 0 < a.den) (hb : 0 < b.den) : 0 < (a.add b).den :=
  new_den_pos _ _ (Int.mul_pos ha hb)

theorem add_toRat (a b : Fraction) (ha : 0 < a.den) (hb : 0 < b.den) :
    (a.add b).toRat = a.toRat + b.toRat := by
  have haq : (a.den : ℚ) ≠ 0 := by exact_mod_cast ha.ne'
  have hbq : (b.den : ℚ) ≠ 0 := by exact_mod_cast hb.ne'
  unfold Fraction.add
  rw [new_toRat _ _ (Int.mul_pos ha hb).ne']
  simp only [toRat]
  push_cast
  field_simp
  ring

theorem sub_den_pos (a b : Fraction) (ha : 0 < a.den) (hb : 0 < b.den) : 0 < (a.sub b).den :=
  new_den_pos _ _ (Int.mul_pos ha hb)

theorem sub_toRat (a b : Fraction) (ha : 0 < a.den) (hb : 0 < b.den) :
    (a.sub b).toRat = a.toRat - b.toRat := by
  have haq : (a.den : ℚ) ≠ 0 := by exact_mod_cast ha.ne'
  have hbq : (b.den : ℚ) ≠ 0 := by exact_mod_cast hb.ne'
  unfold Fraction.sub
  rw [new_toRat _ _ (Int.mul_pos ha hb).ne']
  simp only [toRat]
  push_cast
  field_simp

theorem mult_den_pos (a b : Fraction) (ha : 0 < a.den) (hb : 0 < b.den) : 0 < (a.mult b).den :=
  new_den_pos _ _ (Int.mul_pos ha hb)

theorem mult_toRat (a b : Fraction) (ha : 0 < a.den) (hb : 0 < b.den) :
    (a.mult b).toRat = a.toRat * b.toRat := by
  have haq : (a.den : ℚ) ≠ 0 := by exact_mod_cast ha.ne'
  have hbq : (b.den : ℚ) ≠ 0 := by exact_mod_cast hb.ne'
  unfold Fraction.mult
  rw [new_toRat _ _ (Int.mul_pos ha hb).ne']
  simp only [toRat]
  push_cast
  rw [mul_div_mul_comm]

theorem subInt_den_pos (a : Fraction) (k : Int) (ha : 0 < a.den) : 0 < (a.subInt k).den :=
  cancel_den_pos ⟨a.num - k * a.den, a.den⟩ ha.ne'

theorem subInt_toRat (a : Fraction) (k : Int) (ha : 0 < a.den) :
    (a.subInt k).toRat = a.toRat - k := by
  have haq : (a.den : ℚ) ≠ 0 := by exact_mod_cast ha.ne'
  unfold Fraction.subInt
  rw [cancel_toRat ⟨a.num - k * a.den, a.den⟩ ha.ne']
  simp only [toRat]
  push_cast
  field_simp
  ring

theorem multTen_den_pos (a : Fraction) (ha : 0 < a.den) : 0 < a.multTen.den :=
  cancel_den_pos ⟨a.num * 10, a.den⟩ ha.ne'

theorem multTen_toRat (a : Fraction) (ha : 0 < a.den) : a.multTen.toRat = a.toRat * 10 := by
  have haq : (a.den : ℚ) ≠ 0 := by exact_mod_cast ha.ne'
  unfold Fraction.multTen
  rw [cancel_toRat ⟨a.num * 10, a.den⟩ ha.ne']
  simp only [toRat]
  push_cast
  field_simp

theorem abs_den_pos (a : Fraction) (ha : 0 < a.den) : 0 < a.abs.den :=
  new_den_pos _ _ ha

theorem abs_toRat (a : Fraction) (ha : 0 < a.den) : a.abs.toRat = |a.toRat| := by
  have haq : (0 : ℚ) < (a.den : ℚ) := by exact_mod_cast ha
  unfold Fraction.abs
  rw [new_toRat _ _ ha.ne', abs_eq]
  simp only [toRat]
  rw [abs_div, abs_of_pos haq]
  push_cast
  rfl

theorem ONE_eq : ONE = ⟨1, 1⟩ := by decide
theorem TWO_eq : TWO = ⟨2, 1⟩ := by decide
theorem HALF_eq : HALF = ⟨1, 2⟩ := by decide
theorem MINUSONE_eq : MINUSONE = ⟨-1, 1⟩ := by decide
theorem ZERO_eq : ZERO = ⟨0, 1⟩ := by decide

end Fraction

end Ieee754

namespace Ieee754

/-! ## Digit counts -/

theorem digitSpan_spec (base n : Nat) : ∀ fuel j : Nat, n < base ^ 2 ^ (j + fuel) →
    n < base ^ 2 ^ digitSpan base n fuel j := by
  intro fuel
  induction fuel with
  | zero => intro j h; simpa [digitSpan] using h
  | succ f ih =>
    intro j h
    unfold digitSpan
    split
    · next hlt => exact hlt
    · exact ih (j + 1) (by rwa [show j + 1 + f = j + (f + 1) by omega])

theorem digitBisect_spec (base : Nat) (hb : 2 ≤ base) : ∀ j n : Nat, n < base ^ 2 ^ j →
    n < base ^ digitBisect base j n ∧
      (n ≠ 0 → 1 ≤ digitBisect base j n ∧ base ^ (digitBisect base j n - 1) ≤ n) := by
  intro j
  induction j with
  | zero =>
    intro n h
    unfold digitBisect
    split
    · next h0 => subst h0; simp
    · next h0 =>
      refine ⟨by simpa using h, fun _ => ⟨le_refl _, ?_⟩⟩
      simp only [Nat.sub_self, pow_zero]
      omega
  | succ j ih =>
    intro n h
    unfold digitBisect
    have hB : 0 < base ^ 2 ^ j := pow_pos (by omega) _
    split
    · next hlt => exact ih n hlt
    · next hge =>
      have hge2 : base ^ 2 ^ j ≤ n := Nat.le_of_not_lt hge
      have hq1 : 1 ≤ n / base ^ 2 ^ j := (Nat.one_le_div_iff hB).2 hge2
      have hq2 : n / base ^ 2 ^ j < base ^ 2 ^ j := by
        rw [Nat.div_lt_iff_lt_mul hB]
        calc n < base ^ 2 ^ (j + 1) := h
          _ = base ^ 2 ^ j * base ^ 2 ^ j := by rw [← pow_add]; congr 1; rw [pow_succ]; omega
      obtain ⟨h1, h2⟩ := ih _ hq2
      obtain ⟨h3, h4⟩ := h2 (by omega)
      have hmul : base ^ 2 ^ j * (n / base ^ 2 ^ j) ≤ n := Nat.mul_div_le _ _
      have hlt : n < base ^ 2 ^ j * (n / base ^ 2 ^ j + 1) := Nat.lt_mul_div_succ _ hB
      refine ⟨?_, fun _ => ⟨le_trans h3 (Nat.le_add_left _ _), ?_⟩⟩
      · rw [pow_add]
        calc n < base ^ 2 ^ j * (n / base ^ 2 ^ j + 1) := hlt
          _ ≤ base ^ 2 ^ j * base ^ digitBisect base j (n / base ^ 2 ^ j) :=
            Nat.mul_le_mul_left _ h1
      · rw [Nat.add_sub_assoc h3, pow_add]
        calc base ^ 2 ^ j * base ^ (digitBisect base j (n / base ^ 2 ^ j) - 1)
            ≤ base ^ 2 ^ j * (n / base ^ 2 ^ j) := Nat.mul_le_mul_left _ h4
          _ ≤ n := hmul

theorem digitCount_spec (base n : Nat) (hb : 2 ≤ base) (hn : 0 < n) :
    1 ≤ digitCount base n ∧ base ^ (digitCount base n - 1) ≤ n ∧ n < base ^ digitCount base n := by
  unfold digitCount
  rw [if_neg (by omega)]
  have hspan : n < base ^ 2 ^ digitSpan base n n 0 := by
    apply digitSpan_spec
    calc n < 2 ^ n := Nat.lt_two_pow n
      _ ≤ 2 ^ 2 ^ (0 + n) := by
        apply Nat.pow_le_pow_right (by omega)
        rw [Nat.zero_add]
        exact (Nat.lt_two_pow n).le
      _ ≤ base ^ 2 ^ (0 + n) := Nat.pow_le_pow_left hb _
  obtain ⟨h1, h2⟩ := digitBisect_spec base hb _ n hspan
  obtain ⟨h3, h4⟩ := h2 (by omega)
  exact ⟨h3, h4, h1⟩

theorem intLog2_spec (n : Int) (hn : 0 < n) :
    ∃ k : Nat, intLog2 n = k ∧ 1 ≤ k ∧ (2 : ℚ) ^ (k - 1) ≤ n ∧ (n : ℚ) < 2 ^ k := by
  obtain ⟨h1, h2, h3⟩ := digitCount_spec 2 n.toNat (le_refl _) (by omega)
  refine ⟨digitCount 2 n.toNat, ?_, h1, ?_, ?_⟩
  · unfold intLog2 strLength
    rw [if_neg (by omega)]
  · have : ((2 ^ (digitCount 2 n.toNat - 1) : Nat) : ℚ) ≤ ((n.toNat : Nat) : ℚ) := by
      exact_mod_cast h2
    have hc : ((n.toNat : Nat) : ℚ) = (n : ℚ) := by
      have : ((n.toNat : Nat) : Int) = n := Int.toNat_of_nonneg hn.le
      exact_mod_cast this
    rw [hc] at this
    simpa using this
  · have : ((n.toNat : Nat) : ℚ) < ((2 ^ (digitCount 2 n.toNat) : Nat) : ℚ) := by
      exact_mod_cast h3
    have hc : ((n.toNat : Nat) : ℚ) = (n : ℚ) := by
      have : ((n.toNat : Nat) : Int) = n := Int.toNat_of_nonneg hn.le
      exact_mod_cast this
    rw [hc] at this
    simpa using this

end Ieee754

namespace Ieee754

/-! ## Normalization in `updateBits` -/

theorem shl_of_nonneg (a k : Int) (hk : 0 ≤ k) : shl a k = a * 2 ^ k.toNat := by
  unfold shl
  rw [if_pos hk]
  push_cast
  rfl

theorem shl_one (a : Int) : shl a 1 = a * 2 := by
  rw [shl_of_nonneg a 1 (by omega)]
  norm_num

theorem TWO_toRat : Fraction.TWO.toRat = 2 := by
  rw [Fraction.TWO_eq]; simp [Fraction.toRat]

theorem ONE_toRat : Fraction.ONE.toRat = 1 := by
  rw [Fraction.ONE_eq]; simp [Fraction.toRat]

theorem HALF_toRat : Fraction.HALF.toRat = 1 / 2 := by
  rw [Fraction.HALF_eq]; simp [Fraction.toRat]

theorem TWO_den : 0 < Fraction.TWO.den := by rw [Fraction.TWO_eq]; decide
theorem ONE_den : 0 < Fraction.ONE.den := by rw [Fraction.ONE_eq]; decide
theorem HALF_den : 0 < Fraction.HALF.den := by rw [Fraction.HALF_eq]; decide

theorem halveLoop_spec : ∀ (fuel : Nat) (val : Fraction) (exp : Int),
    0 < val.den → 0 < val.num → val.toRat < 2 ^ (fuel + 1) →
    ∃ v e, halveLoop (fuel + 1) val exp = some (v, e) ∧ 0 < v.den ∧ 0 < v.num ∧ v.toRat < 2 ∧
      v.toRat * (2 : ℚ) ^ e = val.toRat * (2 : ℚ) ^ exp ∧ (v.toRat = val.toRat ∨ 1 ≤ v.toRat) := by
  intro fuel
  induction fuel with
  | zero =>
    intro val exp hd hn hlt
    have hge : val.ge Fraction.TWO = false := by
      rw [Bool.eq_false_iff]
      intro h
      rw [Fraction.ge_iff _ _ hd TWO_den, TWO_toRat] at h
      norm_num at hlt
      linarith
    exact ⟨val, exp, by simp [halveLoop, hge], hd, hn, by simpa using hlt, rfl, Or.inl rfl⟩
  | succ f ih =>
    intro val exp hd hn hlt
    by_cases hge : val.ge Fraction.TWO = true
    · have h2 : 2 ≤ val.toRat := by
        rw [Fraction.ge_iff _ _ hd TWO_den, TWO_toRat] at hge; exact hge
      have hd2 : 0 < val.den * 2 := by omega
      have hrat : (Fraction.mk val.num (val.den * 2)).toRat = val.toRat / 2 := by
        simp only [Fraction.toRat]
        push_cast
        rw [div_mul_eq_div_div]
      obtain ⟨v, e, h1, h3, h4, h5, h6, h7⟩ := ih ⟨val.num, val.den * 2⟩ (exp + 1) hd2 hn (by
        rw [hrat]
        rw [pow_succ] at hlt
        linarith)
      refine ⟨v, e, ?_, h3, h4, h5, ?_, Or.inr ?_⟩
      · rw [halveLoop, if_pos hge, shl_one]
        exact h1
      · rw [h6, hrat, zpow_add_one₀ (by norm_num : (2 : ℚ) ≠ 0)]
        ring
      · rcases h7 with h7 | h7
        · rw [h7, hrat]; linarith
        · exact h7
    · have hlt2 : val.toRat < 2 := by
        by_contra hc
        push_neg at hc
        exact hge (by rw [Fraction.ge_iff _ _ hd TWO_den, TWO_toRat]; exact hc)
      refine ⟨val, exp, ?_, hd, hn, hlt2, rfl, Or.inl rfl⟩
      rw [halveLoop, if_neg hge]

theorem doubleLoop_spec : ∀ (fuel : Nat) (val : Fraction) (exp : Int),
    0 < val.den → 0 < val.num → 1 ≤ val.toRat * 2 ^ fuel → val.toRat < 2 →
    ∃ v e, doubleLoop (fuel + 1) val exp = some (v, e) ∧ 0 < v.den ∧ 0 < v.num ∧
      1 ≤ v.toRat ∧ v.toRat < 2 ∧ v.toRat * (2 : ℚ) ^ e = val.toRat * (2 : ℚ) ^ exp := by
  intro fuel
  induction fuel with
  | zero =>
    intro val exp hd hn hge hlt
    have h1 : val.lt Fraction.ONE = false := by
      rw [Bool.eq_false_iff]
      intro h
      rw [Fraction.lt_iff _ _ hd ONE_den, ONE_toRat] at h
      norm_num at hge
      linarith
    exact ⟨val, exp, by simp [doubleLoop, h1], hd, hn, by simpa using hge, hlt, rfl⟩
  | succ f ih =>
    intro val exp hd hn hge hlt
    by_cases h1 : val.lt Fraction.ONE = true
    · have h2 : val.toRat < 1 := by
        rw [Fraction.lt_iff _ _ hd ONE_den, ONE_toRat] at h1; exact h1
      have hn2 : 0 < val.num * 2 := by omega
      have hrat : (Fraction.mk (val.num * 2) val.den).toRat = val.toRat * 2 := by
        simp only [Fraction.toRat]
        push_cast
        ring
      obtain ⟨v, e, h3, h4, h5, h6, h7, h8⟩ := ih ⟨val.num * 2, val.den⟩ (exp - 1) hd hn2 (by
        rw [hrat]
        rw [pow_succ] at hge
        linarith) (by rw [hrat]; linarith)
      refine ⟨v, e, ?_, h4, h5, h6, h7, ?_⟩
      · rw [doubleLoop, if_pos h1, shl_one]
        exact h3
      · rw [h8, hrat, zpow_sub_one₀ (by norm_num : (2 : ℚ) ≠ 0)]
        field_simp
        ring
    · have h2 : 1 ≤ val.toRat := by
        by_contra hc
        push_neg at hc
        exact h1 (by rw [Fraction.lt_iff _ _ hd ONE_den, ONE_toRat]; exact hc)
      refine ⟨val, exp, ?_, hd, hn, h2, hlt, rfl⟩
      rw [doubleLoop, if_neg h1]

theorem log2_bounds (val : Fraction) (hn : 0 < val.num) (hd : 0 < val.den) :
    (2 : ℚ) ^ (val.log2 - 1) < val.toRat ∧ val.toRat < (2 : ℚ) ^ (val.log2 + 1) := by
  obtain ⟨kn, hkn, hkn1, hn1, hn2⟩ := intLog2_spec val.num hn
  obtain ⟨kd, hkd, hkd1, hd1, hd2⟩ := intLog2_spec val.den hd
  have hdq : (0 : ℚ) < (val.den : ℚ) := by exact_mod_cast hd
  have hnq : (0 : ℚ) < (val.num : ℚ) := by exact_mod_cast hn
  have h2 : (2 : ℚ) ≠ 0 := by norm_num
  have e1 : (2 : ℚ) ^ (val.log2 - 1) = (2 : ℚ) ^ (kn - 1) / (2 : ℚ) ^ kd := by
    unfold Fraction.log2
    rw [hkn, hkd, show ((kn : Int) - (kd : Int) - 1) = (((kn - 1 : Nat) : Int) - (kd : Int)) by omega,
      zpow_sub₀ h2, zpow_natCast, zpow_natCast]
  have e2 : (2 : ℚ) ^ (val.log2 + 1) = (2 : ℚ) ^ kn / (2 : ℚ) ^ (kd - 1) := by
    unfold Fraction.log2
    rw [hkn, hkd, show ((kn : Int) - (kd : Int) + 1) = ((kn : Int) - ((kd - 1 : Nat) : Int)) by omega,
      zpow_sub₀ h2, zpow_natCast, zpow_natCast]
  have p1 : (0 : ℚ) < 2 ^ kd := by positivity
  have p2 : (0 : ℚ) < 2 ^ (kd - 1) := by positivity
  have p3 : (0 : ℚ) < 2 ^ (kn - 1) := by positivity
  constructor
  · rw [e1, Fraction.toRat, div_lt_div_iff₀ p1 hdq]
    calc (2 : ℚ) ^ (kn - 1) * val.den < 2 ^ (kn - 1) * 2 ^ kd := by
          apply mul_lt_mul_of_pos_left hd2 p3
      _ ≤ val.num * 2 ^ kd := by
          apply mul_le_mul_of_nonneg_right hn1 p1.le
  · rw [e2, Fraction.toRat, div_lt_div_iff₀ hdq p2]
    calc (val.num : ℚ) * 2 ^ (kd - 1) < 2 ^ kn * 2 ^ (kd - 1) := by
          apply mul_lt_mul_of_pos_right hn2 p2
      _ ≤ 2 ^ kn * val.den := by
          apply mul_le_mul_of_nonneg_left hd1 (by positivity)

theorem start_spec (val : Fraction) (hn : 0 < val.num) (hd : 0 < val.den) (s : Fraction × Int)
    (hs : s = (if 1 < val.log2 then ({ val with den := shl val.den val.log2 }, val.log2)
        else if val.log2 < 0 then ({ val with num := shl val.num (-val.log2) }, val.log2)
        else (val, 0))) :
    0 < s.1.den ∧ 0 < s.1.num ∧ s.1.toRat * (2 : ℚ) ^ s.2 = val.toRat ∧
      1 / 2 < s.1.toRat ∧ s.1.toRat < 4 := by
  obtain ⟨hlo, hhi⟩ := log2_bounds val hn hd
  have h2 : (2 : ℚ) ≠ 0 := by norm_num
  have hdq : (0 : ℚ) < (val.den : ℚ) := by exact_mod_cast hd
  have hpos : (0 : ℚ) < (2 : ℚ) ^ val.log2 := by positivity
  rw [zpow_sub_one₀ h2] at hlo
  rw [zpow_add_one₀ h2] at hhi
  by_cases c1 : 1 < val.log2
  · rw [if_pos c1] at hs
    subst hs
    have hk : (0 : Int) ≤ val.log2 := by omega
    have hpow : ((2 ^ val.log2.toNat : Int) : ℚ) = (2 : ℚ) ^ val.log2 := by
      push_cast
      rw [← zpow_natCast, Int.toNat_of_nonneg hk]
    have hrat : (Fraction.mk val.num (shl val.den val.log2)).toRat = val.toRat / (2 : ℚ) ^ val.log2 := by
      rw [shl_of_nonneg _ _ hk]
      simp only [Fraction.toRat]
      rw [Int.cast_mul, hpow, div_mul_eq_div_div]
    refine ⟨?_, hn, ?_, ?_, ?_⟩
    · show 0 < shl val.den val.log2
      rw [shl_of_nonneg _ _ hk]
      positivity
    · show (Fraction.mk val.num (shl val.den val.log2)).toRat * _ = _
      rw [hrat]
      field_simp
    · show _ < (Fraction.mk val.num (shl val.den val.log2)).toRat
      rw [hrat, lt_div_iff₀ hpos]
      linarith
    · show (Fraction.mk val.num (shl val.den val.log2)).toRat < _
      rw [hrat, div_lt_iff₀ hpos]
      linarith
  · rw [if_neg c1] at hs
    by_cases c2 : val.log2 < 0
    · rw [if_pos c2] at hs
      subst hs
      have hk : (0 : Int) ≤ -val.log2 := by omega
      have hpow : ((2 ^ (-val.log2).toNat : Int) : ℚ) = ((2 : ℚ) ^ val.log2)⁻¹ := by
        push_cast
        rw [← zpow_natCast, Int.toNat_of_nonneg hk, zpow_neg]
      have hrat : (Fraction.mk (shl val.num (-val.log2)) val.den).toRat
          = val.toRat / (2 : ℚ) ^ val.log2 := by
        rw [shl_of_nonneg _ _ hk]
        simp only [Fraction.toRat]
        rw [Int.cast_mul, hpow]
        field_simp
        left
        ring
      refine ⟨hd, ?_, ?_, ?_, ?_⟩
      · show 0 < shl val.num (-val.log2)
        rw [shl_of_nonneg _ _ hk]
        positivity
      · show (Fraction.mk (shl val.num (-val.log2)) val.den).toRat * _ = _
        rw [hrat]
        field_simp
      · show _ < (Fraction.mk (shl val.num (-val.log2)) val.den).toRat
        rw [hrat, lt_div_iff₀ hpos]
        linarith
      · show (Fraction.mk (shl val.num (-val.log2)) val.den).toRat < _
        rw [hrat, div_lt_iff₀ hpos]
        linarith
    · rw [if_neg c2] at hs
      subst hs
      have hcase : val.log2 = 0 ∨ val.log2 = 1 := by omega
      refine ⟨hd, hn, by simp, ?_, ?_⟩
      · show _ < val.toRat
        rcases hcase with h | h <;> rw [h] at hlo <;> norm_num at hlo <;> linarith
      · show val.toRat < _
        rcases hcase with h | h <;> rw [h] at hhi <;> norm_num at hhi <;> linarith

theorem normalize_spec (fuel : Nat) (val : Fraction) (hf : 2 ≤ fuel) (hn : 0 < val.num)
    (hd : 0 < val.den) :
    ∃ v e, normalize fuel val = some (v, e) ∧ 0 < v.den ∧ 1 ≤ v.toRat ∧ v.toRat < 2 ∧
      v.toRat * (2 : ℚ) ^ e = val.toRat := by
  obtain ⟨f, rfl⟩ : ∃ f, fuel = f + 1 := ⟨fuel - 1, by omega⟩
  have hf1 : 1 ≤ f := by omega
  unfold normalize
  simp only []
  generalize hs : (if 1 < val.log2 then ({ val with den := shl val.den val.log2 }, val.log2)
        else if val.log2 < 0 then ({ val with num := shl val.num (-val.log2) }, val.log2)
        else (val, 0) : Fraction × Int) = s
  obtain ⟨s1, s2, s3, s4, s5⟩ := start_spec val hn hd s hs.symm
  have hpow : (4 : ℚ) ≤ 2 ^ (f + 1) := by
    calc (4 : ℚ) = 2 ^ (1 + 1) := by norm_num
      _ ≤ 2 ^ (f + 1) := pow_le_pow_right₀ (by norm_num) (by omega)
  obtain ⟨v1, e1, a1, a2, a3, a4, a5, a6⟩ := halveLoop_spec f s.1 s.2 s1 s2 (by linarith)
  have hv1 : 1 / 2 < v1.toRat := by
    rcases a6 with h | h
    · rw [h]; exact s4
    · linarith
  have hpow2 : (2 : ℚ) ≤ 2 ^ f := by
    calc (2 : ℚ) = 2 ^ 1 := by norm_num
      _ ≤ 2 ^ f := pow_le_pow_right₀ (by norm_num) hf1
  obtain ⟨v2, e2, b1, b2, b3, b4, b5, b6⟩ := doubleLoop_spec f v1 e1 a2 a3 (by nlinarith) a4
  refine ⟨v2.cancel, e2, ?_, Fraction.cancel_den_pos _ b2.ne', ?_, ?_, ?_⟩
  · rw [a1]
    simp only []
    rw [b1]
  · rw [Fraction.cancel_toRat _ b2.ne']; exact b4
  · rw [Fraction.cancel_toRat _ b2.ne']; exact b5
  · rw [Fraction.cancel_toRat _ b2.ne', b6, a5, s3]

end Ieee754

namespace Ieee754

/-! ## Bit lists -/

theorem bitsValue_append (h : Bool) (L : List Bool) (b : Bool) :
    bitsValue h (L ++ [b]) = 2 * bitsValue h L + (if b then 1 else 0) := by
  simp [bitsValue, List.foldl_append]

theorem bitsValue_nil (h : Bool) : bitsValue h [] = if h then 1 else 0 := rfl

theorem bitsValue_bounds (L : List Bool) :
    0 ≤ bitsValue false L ∧ bitsValue false L < 2 ^ L.length := by
  induction L using List.reverseRecOn with
  | nil => simp [bitsValue_nil]
  | append_singleton Q b ih =>
    rw [bitsValue_append, List.length_append, List.length_singleton, pow_succ]
    cases b <;> (simp; omega)

theorem bitsValue_hidden (L : List Bool) :
    bitsValue true L = 2 ^ L.length + bitsValue false L := by
  induction L using List.reverseRecOn with
  | nil => simp [bitsValue_nil]
  | append_singleton Q b ih =>
    rw [bitsValue_append, bitsValue_append, ih, List.length_append, List.length_singleton, pow_succ]
    ring

theorem allZeros_append (L : List Bool) (b : Bool) :
    allZeros (L ++ [b]) = (allZeros L && !b) := by
  cases b <;> simp [allZeros]

theorem allZeros_iff (L : List Bool) : allZeros L = true ↔ bitsValue false L = 0 := by
  induction L using List.reverseRecOn with
  | nil => simp [allZeros, bitsValue_nil]
  | append_singleton Q b ih =>
    have hb := bitsValue_bounds Q
    rw [allZeros_append, bitsValue_append, Bool.and_eq_true, ih]
    cases b
    · simp
    · simp; omega

theorem allZeros_replicate (n : Nat) : allZeros (List.replicate n false) = true := by
  simp [allZeros]

theorem bitsValue_replicate_false (n : Nat) : bitsValue false (List.replicate n false) = 0 :=
  (allZeros_iff _).1 (allZeros_replicate n)

/-! ## The bit loop of `updateBits` -/

theorem fillBits_spec : ∀ (n : Nat) (val : Fraction) (L : List Bool),
    0 < val.den → 0 ≤ val.toRat → val.toRat < 1 →
    0 < (fillBits n val L).1.den ∧ 0 ≤ (fillBits n val L).1.toRat ∧
      (fillBits n val L).1.toRat < 1 ∧ (fillBits n val L).2.length = L.length + n ∧
      ((bitsValue false (fillBits n val L).2 : Int) : ℚ) + (fillBits n val L).1.toRat
        = (((bitsValue false L : Int) : ℚ) + val.toRat) * 2 ^ n := by
  intro n
  induction n with
  | zero => intro val L hd h0 h1; simp [fillBits, hd, h0, h1]
  | succ n ih =>
    intro val L hd h0 h1
    have hm : 0 < (val.mult Fraction.TWO).den := Fraction.mult_den_pos _ _ hd TWO_den
    have hr : (val.mult Fraction.TWO).toRat = val.toRat * 2 := by
      rw [Fraction.mult_toRat _ _ hd TWO_den, TWO_toRat]
    unfold fillBits
    simp only []
    split
    · next hge =>
      rw [Fraction.ge_iff _ _ hm ONE_den, ONE_toRat, hr] at hge
      have hs : 0 < ((val.mult Fraction.TWO).sub Fraction.ONE).den :=
        Fraction.sub_den_pos _ _ hm ONE_den
      have hsr : ((val.mult Fraction.TWO).sub Fraction.ONE).toRat = val.toRat * 2 - 1 := by
        rw [Fraction.sub_toRat _ _ hm ONE_den, ONE_toRat, hr]
      obtain ⟨a1, a2, a3, a4, a5⟩ := ih ((val.mult Fraction.TWO).sub Fraction.ONE) (L ++ [true]) hs
        (by rw [hsr]; linarith) (by rw [hsr]; linarith)
      refine ⟨a1, a2, a3, ?_, ?_⟩
      · rw [a4, List.length_append, List.length_singleton]; omega
      · rw [a5, hsr, bitsValue_append]
        simp only [if_true]
        push_cast
        rw [pow_succ]
        ring
    · next hge =>
      have hlt : val.toRat * 2 < 1 := by
        by_contra hc
        push_neg at hc
        exact hge (by rw [Fraction.ge_iff _ _ hm ONE_den, ONE_toRat, hr]; exact hc)
      obtain ⟨a1, a2, a3, a4, a5⟩ := ih (val.mult Fraction.TWO) (L ++ [false]) hm
        (by rw [hr]; linarith) (by rw [hr]; linarith)
      refine ⟨a1, a2, a3, ?_, ?_⟩
      · rw [a4, List.length_append, List.length_singleton]; omega
      · rw [a5, hr, bitsValue_append]
        simp only [Bool.false_eq_true, if_false]
        push_cast
        rw [pow_succ]
        ring

/-! ## The carry loop of `updateBits` -/

theorem carryLoop_succ (c : Nat) (L : List Bool) :
    carryLoop (c + 1) L
      = if L[c]? = some false then L.set c true else carryLoop c (L.set c false) := rfl

theorem carryLoop_append : ∀ (c : Nat) (P S : List Bool), c ≤ P.length →
    carryLoop c (P ++ S) = carryLoop c P ++ S := by
  intro c
  induction c with
  | zero => intro P S _; simp [carryLoop]
  | succ c ih =>
    intro P S hc
    have hlt : c < P.length := by omega
    rw [carryLoop_succ, carryLoop_succ, List.getElem?_append_left hlt]
    split
    · rw [List.set_append_left _ _ hlt]
    · rw [List.set_append_left _ _ hlt, ih _ _ (by rw [List.length_set]; omega)]

theorem carryLoop_snoc (Q : List Bool) (b : Bool) :
    carryLoop (Q ++ [b]).length (Q ++ [b])
      = if b then carryLoop Q.length Q ++ [false] else Q ++ [true] := by
  rw [List.length_append, List.length_singleton, carryLoop_succ]
  have hget : (Q ++ [b])[Q.length]? = some b := by simp
  have hset : ∀ x : Bool, (Q ++ [b]).set Q.length x = Q ++ [x] := by
    intro x
    rw [List.set_append_right _ _ (le_refl _)]
    simp
  rw [hget, hset, hset]
  cases b
  · simp
  · simp only [Option.some.injEq, Bool.true_eq_false, if_false, if_true]
    exact carryLoop_append _ _ _ (le_refl _)

theorem carryLoop_spec (P : List Bool) :
    (carryLoop P.length P).length = P.length ∧
    (bitsValue false P + 1 < 2 ^ P.length →
      bitsValue false (carryLoop P.length P) = bitsValue false P + 1) ∧
    (bitsValue false P + 1 = 2 ^ P.length →
      carryLoop P.length P = List.replicate P.length false) ∧
    (P.getLast? = some true → (carryLoop P.length P).getLast? = some false) := by
  induction P using List.reverseRecOn with
  | nil => simp [carryLoop, bitsValue_nil]
  | append_singleton Q b ih =>
    obtain ⟨i1, i2, i3, _⟩ := ih
    have hb := bitsValue_bounds Q
    rw [carryLoop_snoc]
    cases b
    · simp only [Bool.false_eq_true, if_false]
      refine ⟨by simp, ?_, ?_, by simp⟩
      · intro _
        rw [bitsValue_append, bitsValue_append]
        simp
      · intro h
        rw [bitsValue_append, List.length_append, List.length_singleton, pow_succ] at h
        simp at h
        omega
    · simp only [if_true]
      refine ⟨by simp [i1], ?_, ?_, by simp⟩
      · intro h
        rw [bitsValue_append, List.length_append, List.length_singleton, pow_succ] at h
        simp only [if_true] at h
        rw [bitsValue_append, bitsValue_append, i2 (by omega)]
        simp
        ring
      · intro h
        rw [bitsValue_append, List.length_append, List.length_singleton, pow_succ] at h
        simp only [if_true] at h
        rw [i3 (by omega), List.length_append, List.length_singleton, List.replicate_succ']

end Ieee754

namespace Ieee754

/-! ## Powers of two and the formats -/

theorem pow2_cast (k : Int) (hk : 0 ≤ k) : ((shl 1 k : Int) : ℚ) = (2 : ℚ) ^ k := by
  rw [shl_of_nonneg _ _ hk]
  push_cast
  rw [one_mul, ← zpow_natCast, Int.toNat_of_nonneg hk]

theorem shl_one_pos (k : Int) (hk : 0 ≤ k) : 0 < shl 1 k := by
  rw [shl_of_nonneg _ _ hk]
  positivity

theorem fractionTimesPower2_spec (v e : Int) :
    0 < (fractionTimesPower2 v e).den ∧ (fractionTimesPower2 v e).toRat = (v : ℚ) * (2 : ℚ) ^ e := by
  unfold fractionTimesPower2
  split
  · next he =>
    simp only [Fraction.ofInt_eq]
    refine ⟨Int.one_pos, ?_⟩
    simp only [Fraction.toRat, Int.cast_one, div_one]
    split
    · rw [Int.cast_mul, pow2_cast e he]
    · next h1 =>
      have : v = 1 := by simpa using h1
      rw [pow2_cast e he, this]
      simp
  · next he =>
    have hk : 0 ≤ -e := by omega
    refine ⟨Fraction.new_den_pos _ _ (shl_one_pos _ hk), ?_⟩
    rw [Fraction.new_toRat _ _ (shl_one_pos _ hk).ne', pow2_cast _ hk, zpow_neg]
    field_simp

theorem switchBitSize_facts (size : Nat) :
    2 ≤ (switchBitSize size).NaNExp ∧ 1 ≤ (switchBitSize size).mantissaLen ∧
    (switchBitSize size).smallestPositiveHalved = fractionTimesPower2 1
      (-((switchBitSize size).mantissaLen : Int) - (switchBitSize size).NaNExp + 1) := by
  unfold switchBitSize
  simp only []
  split_ifs <;> simp [formatOf]

theorem smallestPositiveHalved_spec (size : Nat) :
    0 < (switchBitSize size).smallestPositiveHalved.den ∧
    (switchBitSize size).smallestPositiveHalved.toRat
      = (2 : ℚ) ^ (1 - (switchBitSize size).NaNExp - ((switchBitSize size).mantissaLen : Int)) := by
  obtain ⟨_, _, h⟩ := switchBitSize_facts size
  rw [h]
  obtain ⟨h1, h2⟩ := fractionTimesPower2_spec 1
    (-((switchBitSize size).mantissaLen : Int) - (switchBitSize size).NaNExp + 1)
  refine ⟨h1, ?_⟩
  rw [h2, Int.cast_one, one_mul]
  congr 1
  ring

/-! ## The decoder -/

/-- The fraction that `fromBits` builds from the integer `val` and the exponent `e`. -/
theorem fromBits_fraction (val e : Int) :
    (0 ≤ e → 0 < (Fraction.ofInt (shl val e)).den ∧
      (Fraction.ofInt (shl val e)).toRat = (val : ℚ) * (2 : ℚ) ^ e) ∧
    (e < 0 → 0 < (Fraction.new val (shl 1 (-e))).den ∧
      (Fraction.new val (shl 1 (-e))).toRat = (val : ℚ) * (2 : ℚ) ^ e) := by
  constructor
  · intro he
    rw [Fraction.ofInt_eq, shl_of_nonneg _ _ he]
    refine ⟨Int.one_pos, ?_⟩
    simp only [Fraction.toRat, Int.cast_one, div_one]
    push_cast
    rw [← zpow_natCast, Int.toNat_of_nonneg he]
  · intro he
    have hk : 0 ≤ -e := by omega
    refine ⟨Fraction.new_den_pos _ _ (shl_one_pos _ hk), ?_⟩
    rw [Fraction.new_toRat _ _ (shl_one_pos _ hk).ne', pow2_cast _ hk, zpow_neg]
    field_simp

/-- Decoding a normal bit pattern: the magnitude is `(2^m + int(M)) * 2^(e - m)`. -/
theorem fromBits_normal (cfg : Format) (x : IEEE) (e : Int) (M : List Bool)
    (he : x.exp = some e) (hM : x.mantissa = some M)
    (h1 : e ≠ cfg.NaNExp) (h2 : e ≠ 1 - cfg.NaNExp) :
    ∃ V : Fraction, x.fromBits cfg = .ok { x with nan := false, inf := false, val := V } ∧
      0 < V.den ∧ V.toRat = ((bitsValue true M : Int) : ℚ) * (2 : ℚ) ^ (e - cfg.mantissaLen) := by
  obtain ⟨f1, f2⟩ := fromBits_fraction (bitsValue true M) (e - cfg.mantissaLen)
  unfold IEEE.fromBits
  rw [he, hM]
  simp only [h1, h2, if_false, false_and, decide_False, Bool.not_false]
  split
  · next hpos => exact ⟨_, rfl, f1 hpos⟩
  · next hneg => exact ⟨_, rfl, f2 (by omega)⟩

end Ieee754

namespace Ieee754

/-! ## Rounding in `updateBits` -/

theorem roundBits_spec (cfg : Format) (x : IEEE) (val : Fraction) (exp : Int)
    (hd : 0 < val.den) (h0 : 0 ≤ val.toRat) (h1 : val.toRat < 1) (hexp : exp ≠ cfg.NaNExp) :
    ∃ (M0 M : List Bool) (r0 : ℚ) (c e : Int),
      roundBits cfg x val exp = { x with exp := some e, mantissa := some M } ∧
      M0.length = cfg.mantissaLen ∧ M.length = cfg.mantissaLen ∧
      0 ≤ r0 ∧ r0 < 1 ∧
      ((bitsValue false M0 : Int) : ℚ) + r0 = val.toRat * 2 ^ cfg.mantissaLen ∧
      ((c = 0 ∧ r0 ≤ 1 / 2 ∧ M = M0 ∧ e = exp) ∨ (c = 1 ∧ 1 / 2 ≤ r0)) ∧
      (e = exp ∨ (e = exp + 1 ∧ bitsValue false M0 + c = 2 ^ cfg.mantissaLen)) ∧
      ((bitsValue true M : Int) : ℚ) * (2 : ℚ) ^ (e - cfg.mantissaLen)
        = ((2 : ℚ) ^ cfg.mantissaLen + (bitsValue false M0 : Int) + c) * (2 : ℚ) ^ (exp - cfg.mantissaLen) ∧
      (r0 = 1 / 2 → 1 ≤ cfg.mantissaLen → M.getLast? = some false) := by
  obtain ⟨f1, f2, f3, f4, f5⟩ := fillBits_spec cfg.mantissaLen val [] hd h0 h1
  unfold roundBits
  rcases hfb : fillBits cfg.mantissaLen val [] with ⟨v1, M0⟩
  rw [hfb] at f1 f2 f3 f4 f5
  simp only [List.length_nil, Nat.zero_add, bitsValue_nil, Bool.false_eq_true, if_false,
    Int.cast_zero, zero_add] at f4 f5
  simp only []
  clear hfb
  generalize cfg.mantissaLen = m at *
  subst f4
  have f4 : M0.length = M0.length := rfl
  have hI := bitsValue_bounds M0
  have h2 : (2 : ℚ) ≠ 0 := by norm_num
  have hgt : v1.gt Fraction.HALF = true ↔ 1 / 2 < v1.toRat := by
    rw [Fraction.gt_iff _ _ f1 HALF_den, HALF_toRat]
  have heq : v1.eq Fraction.HALF = true ↔ v1.toRat = 1 / 2 := by
    rw [Fraction.eq_iff _ _ f1 HALF_den, HALF_toRat]
  obtain ⟨c1, c2, c3, c4⟩ := carryLoop_spec M0
  by_cases hc : (v1.gt Fraction.HALF || (v1.eq Fraction.HALF && M0.getLast? == some true)) = true
  · rw [if_pos hc]
    have hr : 1 / 2 ≤ v1.toRat := by
      rw [Bool.or_eq_true, Bool.and_eq_true, hgt, heq] at hc
      rcases hc with h | ⟨h, _⟩
      · exact h.le
      · exact h.ge
    have hlast : v1.toRat = 1 / 2 → (carryLoop M0.length M0).getLast? = some false := by
      intro he
      rw [Bool.or_eq_true, Bool.and_eq_true, hgt, heq, beq_iff_eq] at hc
      rcases hc with h | ⟨_, h⟩
      · linarith
      · exact c4 h
    by_cases hz : allZeros (carryLoop M0.length M0) = true
    · rw [if_pos hz, if_neg hexp]
      have hI1 : bitsValue false M0 + 1 = 2 ^ M0.length := by
        by_contra hne
        have hlt : bitsValue false M0 + 1 < 2 ^ M0.length := by omega
        have := c2 hlt
        rw [allZeros_iff, this] at hz
        omega
      have hrep := c3 hI1
      refine ⟨M0, carryLoop M0.length M0, v1.toRat, 1, exp + 1, rfl, f4, c1,
        f2, f3, f5, Or.inr ⟨rfl, hr⟩, Or.inr ⟨rfl, hI1⟩, ?_, fun he _ => hlast he⟩
      rw [hrep, bitsValue_hidden, bitsValue_replicate_false, List.length_replicate]
      have hq : ((bitsValue false M0 : Int) : ℚ) + 1 = 2 ^ M0.length := by
        exact_mod_cast hI1
      rw [show exp + 1 - (M0.length : Int) = exp - M0.length + 1 by ring,
        zpow_add_one₀ h2]
      push_cast
      have : (2 : ℚ) ^ M0.length + (bitsValue false M0 : Int) + 1
          = 2 ^ M0.length * 2 := by linarith
      rw [this]
      ring
    · rw [if_neg hz]
      have hI1 : bitsValue false M0 + 1 < 2 ^ M0.length := by
        by_contra hne
        have heq1 : bitsValue false M0 + 1 = 2 ^ M0.length := by omega
        rw [c3 heq1] at hz
        exact hz (allZeros_replicate _)
      have hv := c2 hI1
      refine ⟨M0, carryLoop M0.length M0, v1.toRat, 1, exp, rfl, f4, c1,
        f2, f3, f5, Or.inr ⟨rfl, hr⟩, Or.inl rfl, ?_, fun he _ => hlast he⟩
      rw [bitsValue_hidden, c1, hv]
      push_cast
      ring
  · rw [if_neg hc]
    have hcf : ¬ (1 / 2 < v1.toRat) ∧ ¬ (v1.toRat = 1 / 2 ∧ M0.getLast? = some true) := by
      rw [Bool.or_eq_true, Bool.and_eq_true, hgt, heq, beq_iff_eq] at hc
      exact ⟨fun h => hc (Or.inl h), fun h => hc (Or.inr h)⟩
    have hr : v1.toRat ≤ 1 / 2 := not_lt.1 hcf.1
    refine ⟨M0, M0, v1.toRat, 0, exp, rfl, f4, f4, f2, f3, f5, Or.inl ⟨rfl, hr, rfl, rfl⟩,
      Or.inl rfl, ?_, ?_⟩
    · rw [bitsValue_hidden]
      push_cast
      ring
    · intro he hm
      have hne : M0 ≠ [] := by
        intro h0
        rw [h0] at hm
        simp at hm
      obtain ⟨b, hb⟩ : ∃ b, M0.getLast? = some b := by
        rw [List.getLast?_eq_getLast _ hne]
        exact ⟨_, rfl⟩
      cases b
      · exact hb
      · exact absurd ⟨he, hb⟩ hcf.2

end Ieee754

namespace Ieee754

/-! ## `updateBits` on the normal range -/

theorem exponent_unique (v : ℚ) (e a b : Int) (h1 : 1 ≤ v) (h2 : v < 2)
    (hlo : (2 : ℚ) ^ a ≤ v * (2 : ℚ) ^ e) (hhi : v * (2 : ℚ) ^ e < (2 : ℚ) ^ b) : a ≤ e ∧ e < b := by
  have hp : (0 : ℚ) < (2 : ℚ) ^ e := by positivity
  have h12 : (1 : ℚ) < 2 := by norm_num
  constructor
  · have : (2 : ℚ) ^ a < (2 : ℚ) ^ (e + 1) := by
      rw [zpow_add_one₀ (by norm_num : (2 : ℚ) ≠ 0)]
      nlinarith
    have := (zpow_lt_zpow_iff_right₀ h12).1 this
    omega
  · have : (2 : ℚ) ^ e < (2 : ℚ) ^ b := by nlinarith
    exact (zpow_lt_zpow_iff_right₀ h12).1 this

theorem updateBits_normal (size fuel : Nat) (x : IEEE) (hf : 2 ≤ fuel)
    (hnan : x.nan = false) (hinf : x.inf = false) (hd : 0 < x.val.den)
    (hlo : (2 : ℚ) ^ (2 - (switchBitSize size).NaNExp) ≤ x.val.toRat)
    (hhi : x.val.toRat < (2 : ℚ) ^ (switchBitSize size).NaNExp) :
    ∃ (v : Fraction) (e : Int),
      x.updateBits (switchBitSize size) fuel = .ok (roundBits (switchBitSize size) x (v.subInt 1) e) ∧
      0 < v.den ∧ 1 ≤ v.toRat ∧ v.toRat < 2 ∧ v.toRat * (2 : ℚ) ^ e = x.val.toRat ∧
      2 - (switchBitSize size).NaNExp ≤ e ∧ e < (switchBitSize size).NaNExp := by
  obtain ⟨s1, s2⟩ := smallestPositiveHalved_spec size
  obtain ⟨hN, hm, _⟩ := switchBitSize_facts size
  have h12 : (1 : ℚ) < 2 := by norm_num
  have hvd : 0 < (Fraction.new x.val.num x.val.den).den := Fraction.new_den_pos _ _ hd
  have hvr : (Fraction.new x.val.num x.val.den).toRat = x.val.toRat :=
    Fraction.new_toRat _ _ hd.ne'
  have hXpos : 0 < x.val.toRat := lt_of_lt_of_le (by positivity) hlo
  have hvn : 0 < (Fraction.new x.val.num x.val.den).num := by
    rw [← Fraction.toRat_pos_iff _ hvd, hvr]; exact hXpos
  have hz : (Fraction.new x.val.num x.val.den).isZero = false := by
    simp only [Fraction.isZero, decide_eq_false_iff_not]
    omega
  have hlt : (Fraction.new x.val.num x.val.den).lt (switchBitSize size).smallestPositiveHalved
      = false := by
    rw [Bool.eq_false_iff]
    intro h
    rw [Fraction.lt_iff _ _ hvd s1, hvr, s2] at h
    have : (2 : ℚ) ^ (1 - (switchBitSize size).NaNExp - ((switchBitSize size).mantissaLen : Int))
        ≤ (2 : ℚ) ^ (2 - (switchBitSize size).NaNExp) :=
      zpow_le_zpow_right₀ h12.le (by omega)
    linarith
  obtain ⟨v, e, n1, n2, n3, n4, n5⟩ := normalize_spec fuel _ hf hvn hvd
  rw [hvr] at n5
  obtain ⟨b1, b2⟩ := exponent_unique v.toRat e _ _ n3 n4 (by rw [n5]; exact hlo) (by rw [n5]; exact hhi)
  refine ⟨v, e, ?_, n2, n3, n4, n5, b1, b2⟩
  unfold IEEE.updateBits
  simp only [hnan, hinf, hz, hlt, n1, Bool.false_eq_true, if_false, Bool.or_false]
  rw [if_neg (by omega), if_neg (by omega)]

end Ieee754

namespace Ieee754

/-! ## Round to nearest, ties to even -/

theorem nearest_on_grid (u X r0 : ℚ) (T c j : Int) (hu : 0 < u)
    (hX : X = ((T : ℚ) + r0) * u) (h0 : 0 ≤ r0) (h1 : r0 < 1)
    (hc : (c = 0 ∧ r0 ≤ 1 / 2) ∨ (c = 1 ∧ 1 / 2 ≤ r0)) :
    |((T + c : Int) : ℚ) * u - X| ≤ |(j : ℚ) * u - X| ∧
    (j ≠ T + c → |(j : ℚ) * u - X| = |((T + c : Int) : ℚ) * u - X| → r0 = 1 / 2) := by
  have e1 : ((T + c : Int) : ℚ) * u - X = ((c : ℚ) - r0) * u := by
    rw [hX]; push_cast; ring
  have e2 : (j : ℚ) * u - X = (((j - T : Int) : ℚ) - r0) * u := by
    rw [hX]; push_cast; ring
  rw [e1, e2, abs_mul, abs_mul, abs_of_pos hu]
  have key : |(c : ℚ) - r0| ≤ |((j - T : Int) : ℚ) - r0| ∧
      (j ≠ T + c → |((j - T : Int) : ℚ) - r0| = |(c : ℚ) - r0| → r0 = 1 / 2) := by
    rcases le_or_lt (j - T) 0 with hd | hd
    · have hdq : ((j - T : Int) : ℚ) ≤ 0 := by exact_mod_cast hd
      rw [abs_of_nonpos (by linarith : ((j - T : Int) : ℚ) - r0 ≤ 0)]
      rcases hc with ⟨rfl, hr⟩ | ⟨rfl, hr⟩
      · rw [Int.cast_zero, abs_of_nonpos (by linarith : (0 : ℚ) - r0 ≤ 0)]
        refine ⟨by linarith, fun hne heq => ?_⟩
        have : ((j - T : Int) : ℚ) = 0 := by linarith
        have : j - T = 0 := by exact_mod_cast this
        omega
      · rw [Int.cast_one, abs_of_nonneg (by linarith : (0 : ℚ) ≤ 1 - r0)]
        refine ⟨by linarith, fun _ heq => ?_⟩
        linarith
    · have hdq : (1 : ℚ) ≤ ((j - T : Int) : ℚ) := by exact_mod_cast hd
      rw [abs_of_nonneg (by linarith : (0 : ℚ) ≤ ((j - T : Int) : ℚ) - r0)]
      rcases hc with ⟨rfl, hr⟩ | ⟨rfl, hr⟩
      · rw [Int.cast_zero, abs_of_nonpos (by linarith : (0 : ℚ) - r0 ≤ 0)]
        refine ⟨by linarith, fun _ heq => ?_⟩
        linarith
      · rw [Int.cast_one, abs_of_nonneg (by linarith : (0 : ℚ) ≤ 1 - r0)]
        refine ⟨by linarith, fun hne heq => ?_⟩
        have : ((j - T : Int) : ℚ) = 1 := by linarith
        have : j - T = 1 := by exact_mod_cast this
        omega
  refine ⟨mul_le_mul_of_nonneg_right key.1 hu.le, fun hne heq => key.2 hne ?_⟩
  exact mul_right_cancel₀ hu.ne' heq

/-- A finite representable magnitude is below `2^e` or a multiple of `2^(e - mantissaLen)`,
for every exponent `e` of the normal range. -/
theorem representable_cases (size : Nat) (q : ℚ) (e : Int)
    (hq : Representable (switchBitSize size) q) (he : 2 - (switchBitSize size).NaNExp ≤ e) :
    q < (2 : ℚ) ^ e ∨
      ∃ j : Int, q = (j : ℚ) * (2 : ℚ) ^ (e - (switchBitSize size).mantissaLen) := by
  obtain ⟨b, z, ⟨eb, Mb, h1, h2, h3, h4, h5⟩, hz, rfl⟩ := hq
  have h12 : (1 : ℚ) < 2 := by norm_num
  have h20 : (2 : ℚ) ≠ 0 := by norm_num
  have hMb := bitsValue_bounds Mb
  rw [h5] at hMb
  have hMq : ((bitsValue false Mb : Int) : ℚ) < (2 : ℚ) ^ (switchBitSize size).mantissaLen := by
    exact_mod_cast hMb.2
  by_cases hsub : eb = 1 - (switchBitSize size).NaNExp
  · left
    unfold IEEE.fromBits at hz
    rw [h1, h2] at hz
    simp only [if_neg (by omega : ¬ eb = (switchBitSize size).NaNExp)] at hz
    by_cases hzero : allZeros Mb = true
    · rw [if_pos ⟨hsub, hzero⟩] at hz
      injection hz with hz
      rw [← hz]
      simp only [Fraction.ofInt_toRat, Int.cast_zero]
      positivity
    · rw [if_neg (fun h => hzero h.2)] at hz
      simp only [hsub, decide_True, Bool.not_true, if_true] at hz
      obtain ⟨f1, f2⟩ := fromBits_fraction (bitsValue false Mb)
        (2 - (switchBitSize size).NaNExp - (switchBitSize size).mantissaLen)
      have hval : z.val.toRat = ((bitsValue false Mb : Int) : ℚ)
          * (2 : ℚ) ^ (2 - (switchBitSize size).NaNExp - ((switchBitSize size).mantissaLen : Int)) := by
        split at hz
        · next hpos => injection hz with hz; rw [← hz]; exact (f1 hpos).2
        · next hneg => injection hz with hz; rw [← hz]; exact (f2 (by omega)).2
      rw [hval]
      calc ((bitsValue false Mb : Int) : ℚ)
            * (2 : ℚ) ^ (2 - (switchBitSize size).NaNExp - ((switchBitSize size).mantissaLen : Int))
          < (2 : ℚ) ^ (switchBitSize size).mantissaLen
            * (2 : ℚ) ^ (2 - (switchBitSize size).NaNExp - ((switchBitSize size).mantissaLen : Int)) :=
            mul_lt_mul_of_pos_right hMq (by positivity)
        _ = (2 : ℚ) ^ (2 - (switchBitSize size).NaNExp) := by
            rw [← zpow_natCast, ← zpow_add₀ h20]
            congr 1
            ring
        _ ≤ (2 : ℚ) ^ e := zpow_le_zpow_right₀ h12.le he
  · obtain ⟨V, hV, _, hVr⟩ := fromBits_normal (switchBitSize size) b eb Mb h1 h2 (by omega) hsub
    rw [hV] at hz
    injection hz with hz
    have hval : z.val.toRat = ((bitsValue true Mb : Int) : ℚ)
        * (2 : ℚ) ^ (eb - ((switchBitSize size).mantissaLen : Int)) := by
      rw [← hz]; exact hVr
    rw [hval]
    by_cases hlt : eb < e
    · left
      have hb2 : ((bitsValue true Mb : Int) : ℚ) < (2 : ℚ) ^ ((switchBitSize size).mantissaLen + 1) := by
        rw [bitsValue_hidden, h5, pow_succ]
        push_cast
        linarith
      calc ((bitsValue true Mb : Int) : ℚ) * (2 : ℚ) ^ (eb - ((switchBitSize size).mantissaLen : Int))
          < (2 : ℚ) ^ ((switchBitSize size).mantissaLen + 1)
            * (2 : ℚ) ^ (eb - ((switchBitSize size).mantissaLen : Int)) :=
            mul_lt_mul_of_pos_right hb2 (by positivity)
        _ = (2 : ℚ) ^ (eb + 1) := by
            rw [← zpow_natCast, ← zpow_add₀ h20]
            congr 1
            push_cast
            ring
        _ ≤ (2 : ℚ) ^ e := zpow_le_zpow_right₀ h12.le (by omega)
    · right
      refine ⟨bitsValue true Mb * 2 ^ (eb - e).toNat, ?_⟩
      have hk : 0 ≤ eb - e := by omega
      push_cast
      rw [mul_assoc, ← zpow_natCast, Int.toNat_of_nonneg hk, ← zpow_add₀ h20]
      congr 2
      ring

end Ieee754

namespace Ieee754

/-- C4: `updateBits` rounds to nearest, ties to even. For every width and every object
`x` that is neither NaN nor infinite, whose magnitude lies in the normal range and below
the midpoint between the largest finite number and `2^NaNExp`, `updateBits` returns finite
bit fields; the value `y` that `fromBits` decodes from them is at least as close to the
magnitude of `x` as every finite representable magnitude, and when another representable
magnitude is equally close (a tie), the last mantissa bit of the result is `0`. -/
theorem updateBits_round_to_nearest_even (size fuel : Nat) (x : IEEE)
    (hfuel : 2 ≤ fuel) (hnan : x.nan = false) (hinf : x.inf = false) (hden : 0 < x.val.den)
    (hlo : (2 : ℚ) ^ (2 - (switchBitSize size).NaNExp) ≤ x.val.toRat)
    (hhi : x.val.toRat < (2 : ℚ) ^ (switchBitSize size).NaNExp
      * (1 - 1 / 2 ^ ((switchBitSize size).mantissaLen + 2))) :
    ∃ r y : IEEE, x.updateBits (switchBitSize size) fuel = .ok r ∧
      FiniteBits (switchBitSize size) r ∧ r.fromBits (switchBitSize size) = .ok y ∧
      (∀ q, Representable (switchBitSize size) q →
        |y.val.toRat - x.val.toRat| ≤ |q - x.val.toRat|) ∧
      (∀ q, Representable (switchBitSize size) q → q ≠ y.val.toRat →
        |q - x.val.toRat| = |y.val.toRat - x.val.toRat| →
        ∃ M, r.mantissa = some M ∧ M.getLast? = some false) := by
  obtain ⟨hN, hm, _⟩ := switchBitSize_facts size
  have h12 : (1 : ℚ) < 2 := by norm_num
  have h20 : (2 : ℚ) ≠ 0 := by norm_num
  have hNpos : (0 : ℚ) < (2 : ℚ) ^ (switchBitSize size).NaNExp := by positivity
  have hhi2 : x.val.toRat < (2 : ℚ) ^ (switchBitSize size).NaNExp := by
    have : (0 : ℚ) < 1 / 2 ^ ((switchBitSize size).mantissaLen + 2) := by positivity
    nlinarith
  obtain ⟨v, e, hup, v1, v2, v3, v4, e1, e2⟩ :=
    updateBits_normal size fuel x hfuel hnan hinf hden hlo hhi2
  have hsd : 0 < (v.subInt 1).den := Fraction.subInt_den_pos _ _ v1
  have hsr : (v.subInt 1).toRat = v.toRat - 1 := by
    rw [Fraction.subInt_toRat _ _ v1]; simp
  obtain ⟨M0, M, r0, c, e', hr, m1, m2, r1, r2, hI, hc, he', hval, hlast⟩ :=
    roundBits_spec (switchBitSize size) x (v.subInt 1) e hsd (by rw [hsr]; linarith)
      (by rw [hsr]; linarith) (by omega)
  rw [hsr] at hI
  have hI0 := bitsValue_bounds M0
  rw [m1] at hI0
  set m := (switchBitSize size).mantissaLen with hmdef
  set N := (switchBitSize size).NaNExp with hNdef
  set I := bitsValue false M0 with hIdef
  have hu : (0 : ℚ) < (2 : ℚ) ^ (e - (m : Int)) := by positivity
  have hpow : (2 : ℚ) ^ e = (2 : ℚ) ^ m * (2 : ℚ) ^ (e - (m : Int)) := by
    rw [← zpow_natCast, ← zpow_add₀ h20]
    congr 1
    ring
  -- the magnitude of `x` on the grid of spacing `2^(e - m)`
  have hX : x.val.toRat = ((((2 : Int) ^ m + I : Int) : ℚ) + r0) * (2 : ℚ) ^ (e - (m : Int)) := by
    rw [← v4, hpow]
    push_cast
    have : v.toRat * 2 ^ m = 2 ^ m + ((I : ℚ) + r0) := by rw [hI]; ring
    calc v.toRat * ((2 : ℚ) ^ m * (2 : ℚ) ^ (e - (m : Int)))
        = (v.toRat * 2 ^ m) * (2 : ℚ) ^ (e - (m : Int)) := by ring
      _ = _ := by rw [this]; ring
  have hc' : (c = 0 ∧ r0 ≤ 1 / 2) ∨ (c = 1 ∧ 1 / 2 ≤ r0) := by
    rcases hc with ⟨h1, h2, _⟩ | h
    · exact Or.inl ⟨h1, h2⟩
    · exact Or.inr h
  -- the exponent stays below `NaNExp`
  have he'N : e' < N := by
    rcases he' with h | ⟨h, hfull⟩
    · omega
    · by_contra hcon
      have heN : e = N - 1 := by omega
      have hc1 : c = 1 := by
        rcases hc' with ⟨h0, _⟩ | ⟨h1, _⟩
        · rw [h0] at hfull; omega
        · exact h1
      have hr0 : 1 / 2 ≤ r0 := by
        rcases hc' with ⟨h0, _⟩ | ⟨_, h1⟩
        · omega
        · exact h1
      have hIq : ((I : Int) : ℚ) = 2 ^ m - 1 := by
        have : I = 2 ^ m - 1 := by omega
        rw [this]; push_cast; ring
      have hNe : (2 : ℚ) ^ N = 2 ^ (m + 1) * (2 : ℚ) ^ (e - (m : Int)) := by
        rw [← zpow_natCast, ← zpow_add₀ h20]
        congr 1
        push_cast
        omega
      have hge : (2 : ℚ) ^ N * (1 - 1 / 2 ^ (m + 2)) ≤ x.val.toRat := by
        rw [hX, hNe]
        push_cast
        rw [hIq]
        have hp : (2 : ℚ) ^ (m + 1) * (1 - 1 / 2 ^ (m + 2)) = 2 ^ m + (2 ^ m - 1) + 1 / 2 := by
          have : (2 : ℚ) ^ m ≠ 0 := by positivity
          rw [pow_succ, pow_succ, pow_succ]
          field_simp
          ring
        calc (2 : ℚ) ^ (m + 1) * (2 : ℚ) ^ (e - (m : Int)) * (1 - 1 / 2 ^ (m + 2))
            = ((2 : ℚ) ^ (m + 1) * (1 - 1 / 2 ^ (m + 2))) * (2 : ℚ) ^ (e - (m : Int)) := by ring
          _ = (2 ^ m + (2 ^ m - 1) + 1 / 2) * (2 : ℚ) ^ (e - (m : Int)) := by rw [hp]
          _ ≤ (2 ^ m + (2 ^ m - 1) + r0) * (2 : ℚ) ^ (e - (m : Int)) :=
            mul_le_mul_of_nonneg_right (by linarith) hu.le
      linarith
  have he'lo : 2 - N ≤ e' := by
    rcases he' with h | ⟨h, _⟩ <;> omega
  -- decoding the result
  have hrexp : (roundBits (switchBitSize size) x (v.subInt 1) e).exp = some e' := by rw [hr]
  have hrman : (roundBits (switchBitSize size) x (v.subInt 1) e).mantissa = some M := by rw [hr]
  obtain ⟨V, hV, _, hVr⟩ := fromBits_normal (switchBitSize size) _ e' M hrexp hrman
    (by omega) (by omega)
  have hY : V.toRat = ((((2 : Int) ^ m + I) + c : Int) : ℚ) * (2 : ℚ) ^ (e - (m : Int)) := by
    rw [hVr, hval]
    push_cast
    ring
  have hTu : (2 : ℚ) ^ e ≤ x.val.toRat := by
    rw [← v4]
    have : (0 : ℚ) < (2 : ℚ) ^ e := by positivity
    nlinarith
  -- the comparison with an arbitrary representable magnitude
  have main : ∀ q, Representable (switchBitSize size) q →
      |V.toRat - x.val.toRat| ≤ |q - x.val.toRat| ∧
      (q ≠ V.toRat → |q - x.val.toRat| = |V.toRat - x.val.toRat| → r0 = 1 / 2) := by
    intro q hq
    rcases representable_cases size q e hq e1 with hlt | ⟨j, hj⟩
    · obtain ⟨g1, _⟩ := nearest_on_grid _ _ r0 ((2 : Int) ^ m + I) c ((2 : Int) ^ m) hu hX r1 r2 hc'
      rw [← hY] at g1
      have hgrid : (((2 : Int) ^ m : Int) : ℚ) * (2 : ℚ) ^ (e - (m : Int)) = (2 : ℚ) ^ e := by
        rw [hpow]; push_cast; ring
      rw [hgrid, abs_of_nonpos (by linarith : (2 : ℚ) ^ e - x.val.toRat ≤ 0)] at g1
      have hqabs : |q - x.val.toRat| = x.val.toRat - q := by
        rw [abs_of_nonpos (by linarith)]; ring
      rw [hqabs]
      refine ⟨by linarith, fun _ heq => ?_⟩
      linarith
    · obtain ⟨g1, g2⟩ := nearest_on_grid _ _ r0 ((2 : Int) ^ m + I) c j hu hX r1 r2 hc'
      rw [← hY, ← hj] at g1 g2
      refine ⟨g1, fun hne heq => g2 ?_ heq⟩
      intro hjeq
      apply hne
      rw [hj, hY, hjeq]
  refine ⟨_, _, hup, ⟨e', M, hrexp, hrman, by omega, he'N, m2⟩, hV, fun q hq => (main q hq).1,
    fun q hq hne heq => ⟨M, hrman, hlast ((main q hq).2 hne heq) hm⟩⟩

end Ieee754

namespace Ieee754

/-! ## Decoding, then encoding -/

theorem bitsValue_inj : ∀ L1 L2 : List Bool, L1.length = L2.length →
    bitsValue false L1 = bitsValue false L2 → L1 = L2 := by
  intro L1
  induction L1 using List.reverseRecOn with
  | nil =>
    intro L2 hlen _
    exact (List.length_eq_zero.1 (by simpa using hlen.symm)).symm
  | append_singleton Q b ih =>
    intro L2 hlen hval
    rcases List.eq_nil_or_concat L2 with h | ⟨Q2, b2, h⟩
    · subst h; simp at hlen
    · subst h
      simp only [List.concat_eq_append] at hlen hval ⊢
      rw [bitsValue_append, bitsValue_append] at hval
      have hl : Q.length = Q2.length := by simpa using hlen
      have hb : b = b2 := by
        cases b <;> cases b2 <;> simp at hval ⊢ <;> omega
      subst hb
      have hq : bitsValue false Q = bitsValue false Q2 := by omega
      rw [ih Q2 hl hq]

theorem allZeros_eq_replicate (L : List Bool) (h : allZeros L = true) :
    L = List.replicate L.length false := by
  apply bitsValue_inj
  · simp
  · rw [(allZeros_iff L).1 h, bitsValue_replicate_false]

/-- C1 (amended): decoding and encoding again gives the bit fields back. For every width
and every object whose bit fields are an exponent between `1 - NaNExp` and `NaNExp` and a
mantissa of `mantissaLen` bits, other than those of a denormalized number, `fromBits`
followed by `updateBits` returns the same sign and exponent and the same mantissa,
except that the fields of a NaN (exponent `NaNExp`, mantissa not all zeros) come back
with the mantissa of all ones. -/
theorem fromBits_updateBits_roundtrip (size fuel : Nat) (b : IEEE) (e : Int) (M : List Bool)
    (hfuel : 2 ≤ fuel) (hexp : b.exp = some e) (hman : b.mantissa = some M)
    (hlen : M.length = (switchBitSize size).mantissaLen)
    (hlo : 1 - (switchBitSize size).NaNExp ≤ e) (hhi : e ≤ (switchBitSize size).NaNExp)
    (hsub : e = 1 - (switchBitSize size).NaNExp → allZeros M = true) :
    ∃ y r : IEEE, b.fromBits (switchBitSize size) = .ok y ∧
      y.updateBits (switchBitSize size) fuel = .ok r ∧
      r.minus = b.minus ∧ r.exp = some e ∧
      r.mantissa = some (if e = (switchBitSize size).NaNExp ∧ allZeros M = false
        then List.replicate (switchBitSize size).mantissaLen true else M) := by
  obtain ⟨hN, hm, _⟩ := switchBitSize_facts size
  have h12 : (1 : ℚ) < 2 := by norm_num
  have h20 : (2 : ℚ) ≠ 0 := by norm_num
  by_cases hinf : e = (switchBitSize size).NaNExp
  · -- infinities and NaNs
    by_cases hz : allZeros M = true
    · refine ⟨{ b with inf := true, nan := false }, infBits (switchBitSize size)
        { b with inf := true, nan := false }, ?_, ?_, rfl, ?_, ?_⟩
      · unfold IEEE.fromBits
        rw [hexp, hman]
        simp only [hinf, hz, if_true]
      · unfold IEEE.updateBits
        simp
      · simp [infBits, hinf]
      · have := allZeros_eq_replicate M hz
        rw [hlen] at this
        simp [infBits, hz, ← this]
    · have hz2 : allZeros M = false := by simpa using hz
      refine ⟨{ b with inf := false, nan := true },
        { b with inf := false, nan := true, exp := some (switchBitSize size).NaNExp,
                 mantissa := some (List.replicate (switchBitSize size).mantissaLen true) },
        ?_, ?_, rfl, ?_, ?_⟩
      · unfold IEEE.fromBits
        rw [hexp, hman]
        simp only [hinf, hz2, if_true, Bool.false_eq_true, if_false]
      · unfold IEEE.updateBits
        simp only [if_true]
      · simp [hinf]
      · simp [hinf, hz2]
  · by_cases hzero : e = 1 - (switchBitSize size).NaNExp
    · -- zero
      have hz := hsub hzero
      have hrep := allZeros_eq_replicate M hz
      rw [hlen] at hrep
      refine ⟨{ b with nan := false, inf := false, val := Fraction.ofInt 0 },
        { b with nan := false, inf := false, val := Fraction.ofInt 0,
                 exp := some (1 - (switchBitSize size).NaNExp),
                 mantissa := some (List.replicate (switchBitSize size).mantissaLen false) },
        ?_, ?_, rfl, ?_, ?_⟩
      · unfold IEEE.fromBits
        rw [hexp, hman]
        simp only [hinf, if_false]
        rw [if_pos ⟨hzero, hz⟩]
      · unfold IEEE.updateBits
        simp only [Bool.false_eq_true, if_false, Fraction.ofInt_eq]
        have : (Fraction.new 0 1).isZero = true := by decide
        rw [if_pos (by rw [this]; rfl)]
      · simp [hzero]
      · simp [hinf, ← hrep]
    · -- normal numbers
      obtain ⟨V, hV, hVd, hVr⟩ := fromBits_normal (switchBitSize size) b e M hexp hman hinf hzero
      have hMb := bitsValue_bounds M
      rw [hlen] at hMb
      set m := (switchBitSize size).mantissaLen with hmdef
      set N := (switchBitSize size).NaNExp with hNdef
      have hu : (0 : ℚ) < (2 : ℚ) ^ (e - (m : Int)) := by positivity
      have hpow : (2 : ℚ) ^ e = (2 : ℚ) ^ m * (2 : ℚ) ^ (e - (m : Int)) := by
        rw [← zpow_natCast, ← zpow_add₀ h20]
        congr 1
        ring
      have hIq0 : (0 : ℚ) ≤ ((bitsValue false M : Int) : ℚ) := by exact_mod_cast hMb.1
      have hIq1 : ((bitsValue false M : Int) : ℚ) < (2 : ℚ) ^ m := by exact_mod_cast hMb.2
      have hVr2 : V.toRat = ((2 : ℚ) ^ m + (bitsValue false M : Int)) * (2 : ℚ) ^ (e - (m : Int)) := by
        rw [hVr, bitsValue_hidden, hlen]
        push_cast
        ring
      have hVlo : (2 : ℚ) ^ e ≤ V.toRat := by
        rw [hVr2, hpow]
        exact mul_le_mul_of_nonneg_right (by linarith) hu.le
      have hVhi : V.toRat < (2 : ℚ) ^ (e + 1) := by
        rw [hVr2, zpow_add_one₀ h20, hpow]
        have : ((2 : ℚ) ^ m + (bitsValue false M : Int)) < (2 : ℚ) ^ m * 2 := by linarith
        calc ((2 : ℚ) ^ m + (bitsValue false M : Int)) * (2 : ℚ) ^ (e - (m : Int))
            < ((2 : ℚ) ^ m * 2) * (2 : ℚ) ^ (e - (m : Int)) := mul_lt_mul_of_pos_right this hu
          _ = _ := by ring
      obtain ⟨v, e2, hup, v1, v2, v3, v4, _, _⟩ := updateBits_normal size fuel
        { b with nan := false, inf := false, val := V } hfuel rfl rfl hVd
        (le_trans (zpow_le_zpow_right₀ h12.le (by omega)) hVlo)
        (lt_of_lt_of_le hVhi (zpow_le_zpow_right₀ h12.le (by omega)))
      simp only [] at v4
      have hee : e2 = e := by
        obtain ⟨a1, a2⟩ := exponent_unique v.toRat e2 e (e + 1) v2 v3 (by rw [v4]; exact hVlo)
          (by rw [v4]; exact hVhi)
        omega
      subst hee
      have hsd : 0 < (v.subInt 1).den := Fraction.subInt_den_pos _ _ v1
      have hsr : (v.subInt 1).toRat = v.toRat - 1 := by
        rw [Fraction.subInt_toRat _ _ v1]; simp
      obtain ⟨M0, M1, r0, c, e', hr, m1, m2, r1, r2, hI, hc, he', hval, hlast⟩ :=
        roundBits_spec (switchBitSize size) { b with nan := false, inf := false, val := V }
          (v.subInt 1) e2 hsd (by rw [hsr]; linarith) (by rw [hsr]; linarith) hinf
      -- the fractional part is the stored mantissa exactly, so the remainder is zero
      have hv : v.toRat * (2 : ℚ) ^ m = (2 : ℚ) ^ m + (bitsValue false M : Int) := by
        have h3 : v.toRat * ((2 : ℚ) ^ m * (2 : ℚ) ^ (e2 - (m : Int)))
            = ((2 : ℚ) ^ m + (bitsValue false M : Int)) * (2 : ℚ) ^ (e2 - (m : Int)) := by
          rw [← hpow, v4, hVr2]
        have h4 : (v.toRat * (2 : ℚ) ^ m) * (2 : ℚ) ^ (e2 - (m : Int))
            = ((2 : ℚ) ^ m + (bitsValue false M : Int)) * (2 : ℚ) ^ (e2 - (m : Int)) := by
          rw [← h3]; ring
        exact mul_right_cancel₀ hu.ne' h4
      rw [hsr] at hI
      have hI2 : ((bitsValue false M0 : Int) : ℚ) + r0 = ((bitsValue false M : Int) : ℚ) := by
        rw [hI]; linarith
      have hr0 : r0 = ((bitsValue false M - bitsValue false M0 : Int) : ℚ) := by
        push_cast; linarith
      have hdiff : bitsValue false M - bitsValue false M0 = 0 := by
        have h1 : (0 : ℚ) ≤ ((bitsValue false M - bitsValue false M0 : Int) : ℚ) := by
          rw [← hr0]; exact r1
        have h2 : ((bitsValue false M - bitsValue false M0 : Int) : ℚ) < 1 := by
          rw [← hr0]; exact r2
        have h1' : 0 ≤ bitsValue false M - bitsValue false M0 := by exact_mod_cast h1
        have h2' : bitsValue false M - bitsValue false M0 < 1 := by exact_mod_cast h2
        omega
      have hr00 : r0 = 0 := by rw [hr0, hdiff]; simp
      have hMM : M0 = M := bitsValue_inj M0 M (by rw [m1, hlen]) (by omega)
      rcases hc with ⟨_, _, hM1, he1⟩ | ⟨_, hbad⟩
      · refine ⟨_, _, hV, hup, ?_, ?_, ?_⟩
        · rw [hr]
        · rw [hr, he1]
        · rw [hr, hM1, hMM, if_neg (fun h => hinf h.1)]
      · rw [hr00] at hbad
        norm_num at hbad

end Ieee754

namespace Ieee754

/-! ## The decoder against the reference decoder -/

theorem bitsValue_cons (b : Bool) (t : List Bool) :
    bitsValue false (b :: t) = (if b then 2 ^ t.length else 0) + bitsValue false t := by
  cases b
  · simp [bitsValue]
  · have h := bitsValue_hidden t
    simp only [bitsValue, if_true, Bool.false_eq_true, if_false, List.foldl_cons] at h ⊢
    simpa using h

theorem mantissaAsInteger_eq (M : List Bool) :
    (mantissaAsInteger M : Int) = bitsValue false M := by
  induction M with
  | nil => simp [mantissaAsInteger, bitsValue_nil]
  | cons b t ih =>
    rw [bitsValue_cons, ← ih, mantissaAsInteger]
    cases b <;> simp

theorem allZeros_iff_forall (M : List Bool) : allZeros M = true ↔ ∀ b ∈ M, b = false := by
  simp [allZeros]

/-- C8: `fromBits` agrees with the reference decoder. For every width and every object
whose bit fields are an exponent `e` and a mantissa `M` of `mantissaLen` bits, `fromBits`
returns an object that stands for what the reference decoder gives for `e` and `M`
(Infinity, NaN, or a finite magnitude with `nan` and `inf` false), with sign and bit
fields unchanged. -/
theorem fromBits_eq_referenceDecoder (size : Nat) (b : IEEE) (e : Int) (M : List Bool)
    (hexp : b.exp = some e) (hman : b.mantissa = some M)
    (hlen : M.length = (switchBitSize size).mantissaLen) :
    ∃ y : IEEE, b.fromBits (switchBitSize size) = .ok y ∧
      y.decoded = referenceDecoder (switchBitSize size) e M ∧
      y.minus = b.minus ∧ y.exp = some e ∧ y.mantissa = some M := by
  have hInt : ((mantissaAsInteger M : ℚ)) = ((bitsValue false M : Int) : ℚ) := by
    rw [← mantissaAsInteger_eq]; simp
  by_cases hinf : e = (switchBitSize size).NaNExp
  · by_cases hz : allZeros M = true
    · refine ⟨{ b with inf := true, nan := false }, ?_, ?_, rfl, hexp, hman⟩
      · unfold IEEE.fromBits
        rw [hexp, hman]
        simp only [hinf, hz, if_true]
      · simp only [IEEE.decoded, referenceDecoder, hinf, if_true,
          if_pos ((allZeros_iff_forall M).1 hz), Bool.false_eq_true, if_false]
    · have hz2 : allZeros M = false := by simpa using hz
      have hz3 : ¬ ∀ b ∈ M, b = false := fun h => hz ((allZeros_iff_forall M).2 h)
      refine ⟨{ b with inf := false, nan := true }, ?_, ?_, rfl, hexp, hman⟩
      · unfold IEEE.fromBits
        rw [hexp, hman]
        simp only [hinf, hz2, if_true, Bool.false_eq_true, if_false]
      · simp only [IEEE.decoded, referenceDecoder, hinf, if_true, if_neg hz3]
  · by_cases hsub : e = 1 - (switchBitSize size).NaNExp
    · by_cases hz : allZeros M = true
      · refine ⟨{ b with nan := false, inf := false, val := Fraction.ofInt 0 }, ?_, ?_, rfl,
          hexp, hman⟩
        · unfold IEEE.fromBits
          rw [hexp, hman]
          simp only [hinf, if_false]
          rw [if_pos ⟨hsub, hz⟩]
        · simp only [IEEE.decoded, referenceDecoder, if_neg hinf, if_pos hsub,
            if_pos ((allZeros_iff_forall M).1 hz), Bool.false_eq_true, if_false,
            Fraction.ofInt_toRat, Int.cast_zero]
      · have hz3 : ¬ ∀ b ∈ M, b = false := fun h => hz ((allZeros_iff_forall M).2 h)
        obtain ⟨f1, f2⟩ := fromBits_fraction (bitsValue false M)
          (2 - (switchBitSize size).NaNExp - (switchBitSize size).mantissaLen)
        have hfb : ∃ V : Fraction, b.fromBits (switchBitSize size)
              = .ok { b with nan := false, inf := false, val := V } ∧
            V.toRat = ((bitsValue false M : Int) : ℚ)
              * (2 : ℚ) ^ (2 - (switchBitSize size).NaNExp - ((switchBitSize size).mantissaLen : Int)) := by
          unfold IEEE.fromBits
          rw [hexp, hman]
          simp only [hinf, if_false]
          rw [if_neg (fun h => hz h.2)]
          simp only [hsub, decide_True, Bool.not_true, if_true]
          split
          · next hpos => exact ⟨_, rfl, (f1 hpos).2⟩
          · next hneg => exact ⟨_, rfl, (f2 (by omega)).2⟩
        obtain ⟨V, hV, hVr⟩ := hfb
        refine ⟨_, hV, ?_, rfl, hexp, hman⟩
        simp only [IEEE.decoded, referenceDecoder, if_neg hinf, if_pos hsub, if_neg hz3,
          Bool.false_eq_true, if_false, hVr, hInt]
    · obtain ⟨V, hV, _, hVr⟩ := fromBits_normal (switchBitSize size) b e M hexp hman hinf hsub
      refine ⟨_, hV, ?_, rfl, hexp, hman⟩
      simp only [IEEE.decoded, referenceDecoder, if_neg hinf, if_neg hsub,
        Bool.false_eq_true, if_false, hVr, hInt, bitsValue_hidden, hlen]
      push_cast
      rfl

end Ieee754

namespace Ieee754

/-! ## The constructor of `IEEE` and `addThem` -/

theorem IEEE_new_spec (size : Nat) (f : Fraction) (hd : 0 < f.den) :
    (IEEE.new (switchBitSize size) f).nan = false ∧
    (IEEE.new (switchBitSize size) f).inf = false ∧
    ((IEEE.new (switchBitSize size) f).minus = true ↔ f.toRat < 0) ∧
    0 < (IEEE.new (switchBitSize size) f).val.den ∧
    (IEEE.new (switchBitSize size) f).val.toRat
      = if |f.toRat| ≤ (switchBitSize size).smallestPositiveHalved.toRat then 0 else |f.toRat| := by
  obtain ⟨s1, s2⟩ := smallestPositiveHalved_spec size
  have hspos : 0 < (switchBitSize size).smallestPositiveHalved.toRat := by
    rw [s2]; positivity
  -- the magnitude after the sign has been split off
  have habs : ∀ g : Fraction, g = (if f.isNegative = true then f.abs else f) →
      0 < g.den ∧ g.toRat = |f.toRat| := by
    intro g hg
    by_cases hneg : f.isNegative = true
    · rw [if_pos hneg] at hg
      subst hg
      exact ⟨Fraction.abs_den_pos _ hd, Fraction.abs_toRat _ hd⟩
    · rw [if_neg hneg] at hg
      subst hg
      refine ⟨hd, ?_⟩
      rw [Fraction.isNegative_iff _ hd] at hneg
      rw [abs_of_nonneg (not_lt.1 hneg)]
  obtain ⟨g, hg⟩ : ∃ g : Fraction, g = (if f.isNegative = true then f.abs else f) := ⟨_, rfl⟩
  obtain ⟨g1, g2⟩ := habs g hg
  have hnew : IEEE.new (switchBitSize size) f
      = { val := if (!g.isZero && g.le (switchBitSize size).smallestPositiveHalved) = true
            then Fraction.ofInt 0 else g,
          minus := f.isNegative, nan := false, inf := false, exp := none, mantissa := none } := by
    rw [hg]; rfl
  rw [hnew]
  refine ⟨rfl, rfl, Fraction.isNegative_iff _ hd, ?_, ?_⟩
  all_goals simp only []
  · split
    · rw [Fraction.ofInt_eq]; exact Int.one_pos
    · exact g1
  · by_cases hle : |f.toRat| ≤ (switchBitSize size).smallestPositiveHalved.toRat
    · rw [if_pos hle]
      split
      · rw [Fraction.ofInt_toRat]; simp
      · next hc =>
        have hz : g.isZero = true := by
          by_contra hnz
          apply hc
          have hnz2 : g.isZero = false := by simpa using hnz
          rw [hnz2]
          simp only [Bool.not_false, Bool.true_and]
          rw [Fraction.le_iff _ _ g1 s1, g2]
          exact hle
        rw [Fraction.isZero_iff _ g1] at hz
        rw [hz]
    · rw [if_neg hle]
      split
      · next hc =>
        exfalso
        rw [Bool.and_eq_true] at hc
        have := hc.2
        rw [Fraction.le_iff _ _ g1 s1, g2] at this
        exact hle this
      · exact g2

/-- C10: `addThem` on finite operands of opposite signs. For every width and all objects
`a`, `b` that are not infinite and have different signs (`addThem` does not look at the
`nan` flags, its caller excludes NaN), the sum is neither NaN nor infinite, its magnitude
is `|a.val - b.val|` (zero when that is at most `smallestPositiveHalved`), its sign is that
of the operand with the larger magnitude, and it is positive when the magnitudes are
equal. -/
theorem addThem_opposite_signs (size : Nat) (a b : IEEE)
    (hainf : a.inf = false) (hbinf : b.inf = false)
    (had : 0 < a.val.den) (hbd : 0 < b.val.den) (hsign : a.minus ≠ b.minus) :
    (addThem (switchBitSize size) a b).nan = false ∧
    (addThem (switchBitSize size) a b).inf = false ∧
    (addThem (switchBitSize size) a b).val.toRat
      = (if |a.val.toRat - b.val.toRat| ≤ (switchBitSize size).smallestPositiveHalved.toRat
          then 0 else |a.val.toRat - b.val.toRat|) ∧
    (b.val.toRat < a.val.toRat → (addThem (switchBitSize size) a b).minus = a.minus) ∧
    (a.val.toRat < b.val.toRat → (addThem (switchBitSize size) a b).minus = b.minus) ∧
    (a.val.toRat = b.val.toRat → (addThem (switchBitSize size) a b).minus = false) := by
  have hab : (a.minus && b.minus) = false := by
    cases ha : a.minus <;> cases hb : b.minus <;> simp_all
  have hne : ¬ ((!a.minus) = (!b.minus)) := by
    cases ha : a.minus <;> cases hb : b.minus <;> simp_all
  have hminus : ∀ r : IEEE, (r.minus = true ↔ False) → r.minus = false := by
    intro r h
    cases hr : r.minus
    · rfl
    · exact absurd (h.1 hr) id
  by_cases ham : a.minus = true
  · have hbm : b.minus = false := by
      cases hb : b.minus
      · rfl
      · rw [ham, hb] at hsign; exact absurd rfl hsign
    have hadd : addThem (switchBitSize size) a b
        = IEEE.new (switchBitSize size) (b.val.sub a.val) := by
      unfold addThem
      simp only [hainf, hbinf, Bool.or_self, Bool.false_eq_true, if_false, Bool.and_true]
      rw [if_neg (by rw [Bool.and_assoc, hab]; simp), if_neg hne, if_pos ham]
    obtain ⟨n1, n2, n3, _, n5⟩ := IEEE_new_spec size (b.val.sub a.val)
      (Fraction.sub_den_pos _ _ hbd had)
    rw [Fraction.sub_toRat _ _ hbd had] at n3 n5
    rw [hadd]
    refine ⟨n1, n2, ?_, ?_, ?_, ?_⟩
    · rw [n5, abs_sub_comm]
    · intro h
      rw [ham, n3]
      linarith
    · intro h
      rw [hbm]
      apply hminus
      rw [n3]
      constructor
      · intro h2; linarith
      · exact False.elim
    · intro h
      apply hminus
      rw [n3]
      constructor
      · intro h2; linarith
      · exact False.elim
  · have ham2 : a.minus = false := by simpa using ham
    have hbm : b.minus = true := by
      cases hb : b.minus
      · rw [ham2, hb] at hsign; exact absurd rfl hsign
      · rfl
    have hadd : addThem (switchBitSize size) a b
        = IEEE.new (switchBitSize size) (a.val.sub b.val) := by
      unfold addThem
      simp only [hainf, hbinf, Bool.or_self, Bool.false_eq_true, if_false, Bool.and_true]
      rw [if_neg (by rw [Bool.and_assoc, hab]; simp), if_neg hne, if_neg ham]
    obtain ⟨n1, n2, n3, _, n5⟩ := IEEE_new_spec size (a.val.sub b.val)
      (Fraction.sub_den_pos _ _ had hbd)
    rw [Fraction.sub_toRat _ _ had hbd] at n3 n5
    rw [hadd]
    refine ⟨n1, n2, n5, ?_, ?_, ?_⟩
    · intro h
      rw [ham2]
      apply hminus
      rw [n3]
      constructor
      · intro h2; linarith
      · exact False.elim
    · intro h
      rw [hbm, n3]
      linarith
    · intro h
      apply hminus
      rw [n3]
      constructor
      · intro h2; linarith
      · exact False.elim

end Ieee754

namespace Ieee754

/-! ## Concrete runs -/

/-- C1, as stated, fails: the 16-bit NaN pattern with mantissa `0000000001` is decoded to
NaN and encoded again with the mantissa of all ones. -/
theorem roundtrip_changes_nan_payload :
    bitFields ((nanPayload16.fromBits (switchBitSize 16)).bind (IEEE.updateBits (switchBitSize 16) 2))
        = .ok (false, some 16, some (List.replicate 10 true)) ∧
      nanPayload16.mantissa ≠ some (List.replicate 10 true) := by
  decide

theorem fromBits_updateBits_roundtrip_witness :
    ∃ y r : IEEE, one16.fromBits (switchBitSize 16) = .ok y ∧
      y.updateBits (switchBitSize 16) 2 = .ok r ∧ r.minus = one16.minus ∧ r.exp = some 0 ∧
      r.mantissa = some (if (0 : Int) = (switchBitSize 16).NaNExp ∧ allZeros (List.replicate 10 false) = false
        then List.replicate (switchBitSize 16).mantissaLen true else List.replicate 10 false) :=
  fromBits_updateBits_roundtrip 16 2 one16 0 (List.replicate 10 false) (by decide) rfl rfl
    (by decide) (by decide) (by decide) (by decide)

/-- C3: the digits are not the shortest. `updateBits` gives `1.5 * 2^59` the 32-bit fields
of `threeHalves59`; `decimalOutput` takes the eight digits `86469113` for them, while the
seven digits of `8.646911E17` are parsed and encoded to the same fields. -/
theorem decimalOutput_not_shortest :
    (IEEE.ofInt (switchBitSize 32) 864691128455135232).updateBits (switchBitSize 32) 2
        = .ok threeHalves59 ∧
      threeHalves59.decimalDigits (switchBitSize 32) 20 = .ok (18, [8, 6, 4, 6, 9, 1, 1, 3]) ∧
      threeHalves59.decimalOutput (switchBitSize 32) 20 = .ok "8.6469113E17" ∧
      bitFields ((IEEE.parse (switchBitSize 32) "8.646911E17").bind
          (IEEE.updateBits (switchBitSize 32) 2))
        = bitFields (.ok threeHalves59) := by
  decide

/-- C5: `updateBits` does not complete on a denormalized number: for the 16-bit magnitude
`2^(-15)` it throws. -/
theorem updateBits_throws_on_subnormal :
    (IEEE.new (switchBitSize 16) (Fraction.new 1 32768)).updateBits (switchBitSize 16) 2
      = .error .typeError := by
  decide

/-- C6: a carry out of the mantissa that raises the exponent to `NaNExp` leaves the `inf`
flag false: the 16-bit magnitude `65520` gets exponent `16` and the all-zero mantissa, and
is not marked as an infinity. -/
theorem updateBits_carry_to_NaNExp_not_inf :
    (IEEE.ofInt (switchBitSize 16) 65520).updateBits (switchBitSize 16) 2
      = .ok { val := ⟨65520, 1⟩, minus := false, nan := false, inf := false,
              exp := some 16, mantissa := some (List.replicate 10 false) } := by
  decide

/-- C7: `new Fraction(1, -2)` keeps the negative denominator. -/
theorem Fraction_new_negative_denominator : Fraction.new 1 (-2) = ⟨1, -2⟩ := by
  decide

/-- C9: `addThem` on negative zero and minus five returns negative zero. -/
theorem addThem_negZero_absorbs :
    addThem (switchBitSize 16) (IEEE.newNegZero (switchBitSize 16))
        (IEEE.new (switchBitSize 16) (Fraction.ofInt (-5)))
      = IEEE.newNegZero (switchBitSize 16) ∧
    (IEEE.new (switchBitSize 16) (Fraction.ofInt (-5))).val = ⟨5, 1⟩ ∧
    (IEEE.new (switchBitSize 16) (Fraction.ofInt (-5))).minus = true ∧
    (IEEE.newNegZero (switchBitSize 16)).val = ⟨0, 1⟩ := by
  decide

theorem fromBits_eq_referenceDecoder_witness :
    ∃ y : IEEE, one16.fromBits (switchBitSize 16) = .ok y ∧
      y.decoded = referenceDecoder (switchBitSize 16) 0 (List.replicate 10 false) ∧
      y.minus = one16.minus ∧ y.exp = some 0 ∧ y.mantissa = some (List.replicate 10 false) :=
  fromBits_eq_referenceDecoder 16 one16 0 (List.replicate 10 false) rfl rfl (by decide)

theorem addThem_opposite_signs_witness :
    (addThem (switchBitSize 16) one16 { one16 with val := ⟨3, 1⟩, minus := true }).minus = true :=
  (addThem_opposite_signs 16 one16 { one16 with val := ⟨3, 1⟩, minus := true } rfl rfl
    (by decide) (by decide) (by decide)).2.2.2.2.1 (by norm_num [one16, bitPattern, Fraction.toRat])

theorem updateBits_round_to_nearest_even_witness :
    ∃ r y : IEEE, { one16 with val := ⟨1, 3⟩ }.updateBits (switchBitSize 16) 2 = .ok r ∧
      FiniteBits (switchBitSize 16) r ∧ r.fromBits (switchBitSize 16) = .ok y ∧
      ∀ q, Representable (switchBitSize 16) q → |y.val.toRat - 1 / 3| ≤ |q - 1 / 3| := by
  obtain ⟨r, y, h1, h2, h3, h4, _⟩ := updateBits_round_to_nearest_even 16 2
    { one16 with val := ⟨1, 3⟩ } (by decide) rfl rfl (by decide)
    (by norm_num [switchBitSize, formatOf, Fraction.toRat])
    (by norm_num [switchBitSize, formatOf, Fraction.toRat])
  refine ⟨r, y, h1, h2, h3, fun q hq => ?_⟩
  have := h4 q hq
  simpa [Fraction.toRat] using this

end Ieee754

namespace Ieee754

/-! ## Arithmetic on special values -/

theorem IEEE_ofInt_zero (cfg : Format) :
    IEEE.ofInt cfg 0 = { val := ⟨0, 1⟩, minus := false, nan := false, inf := false,
                         exp := none, mantissa := none } := by
  simp [IEEE.ofInt, IEEE.new, Fraction.ofInt_eq, Fraction.isNegative, Fraction.isZero]

theorem IEEE_isZero_iff (x : IEEE) :
    x.isZero = true ↔ x.nan = false ∧ x.inf = false ∧ x.val.num = 0 := by
  simp [IEEE.isZero, Fraction.isZero, and_assoc]

theorem addThem_finite_opposite (cfg : Format) (a b : IEEE) (ha : a.inf = false)
    (hb : b.inf = false) (ham : a.minus = false) (hbm : b.minus = true) :
    addThem cfg a b = IEEE.new cfg (a.val.sub b.val) := by
  unfold addThem
  simp [ha, hb, ham, hbm]

/-- C11: the signed-zero rule of `addThem`. For every width and all zeros `a` and `b`
(neither NaN nor infinite, magnitude zero) where `b` is negative, the sum is a zero with
the sign of `a`: `(-0) + (-0)` is negative zero and `(+0) + (-0)` is positive zero. -/
theorem addThem_signed_zeros (size : Nat) (a b : IEEE)
    (ha : a.isZero = true) (hb : b.isZero = true)
    (had : 0 < a.val.den) (hbd : 0 < b.val.den) (hbm : b.minus = true) :
    (addThem (switchBitSize size) a b).isZero = true ∧
    (addThem (switchBitSize size) a b).minus = a.minus := by
  obtain ⟨a1, a2, a3⟩ := (IEEE_isZero_iff a).1 ha
  obtain ⟨b1, b2, b3⟩ := (IEEE_isZero_iff b).1 hb
  by_cases ham : a.minus = true
  · have h : addThem (switchBitSize size) a b = IEEE.newNegZero (switchBitSize size) := by
      unfold addThem
      simp [a2, b2, ha, ham, hbm]
    rw [h, ham]
    simp [IEEE.newNegZero, IEEE_ofInt_zero, IEEE.isZero, Fraction.isZero]
  · have ham2 : a.minus = false := by simpa using ham
    rw [addThem_finite_opposite _ a b a2 b2 ham2 hbm, ham2]
    have hsd := Fraction.sub_den_pos a.val b.val had hbd
    obtain ⟨n1, n2, n3, n4, n5⟩ := IEEE_new_spec size (a.val.sub b.val) hsd
    have hA : a.val.toRat = 0 := (Fraction.isZero_iff _ had).1 (by simp [Fraction.isZero, a3])
    have hB : b.val.toRat = 0 := (Fraction.isZero_iff _ hbd).1 (by simp [Fraction.isZero, b3])
    rw [Fraction.sub_toRat _ _ had hbd, hA, hB] at n3 n5
    obtain ⟨s1, s2⟩ := smallestPositiveHalved_spec size
    have hspos : 0 ≤ (switchBitSize size).smallestPositiveHalved.toRat := by
      rw [s2]; positivity
    simp only [sub_zero, abs_zero, hspos, if_true] at n5
    constructor
    · rw [IEEE_isZero_iff]
      refine ⟨n1, n2, ?_⟩
      have := (Fraction.isZero_iff _ n4).2 n5
      simpa [Fraction.isZero] using this
    · cases hm : (IEEE.new (switchBitSize size) (a.val.sub b.val)).minus
      · rfl
      · have := n3.1 hm
        simp at this

theorem addThem_signed_zeros_witness :
    (addThem (switchBitSize 16) (IEEE.newNegZero (switchBitSize 16))
        (IEEE.newNegZero (switchBitSize 16))).isZero = true ∧
    (addThem (switchBitSize 16) (IEEE.newNegZero (switchBitSize 16))
        (IEEE.newNegZero (switchBitSize 16))).minus = true :=
  addThem_signed_zeros 16 (IEEE.newNegZero (switchBitSize 16)) (IEEE.newNegZero (switchBitSize 16))
    (by decide) (by decide) (by decide) (by decide) (by decide)

/-- C12: the table of special values, for every width and all operands `a`, `b`.
Infinities of opposite signs add to NaN; infinities of equal sign, or an infinity and a
finite operand, add to that infinity; zero times an infinity is NaN, in both orders; a
finite non-zero `a` divided by a zero is the infinity whose sign is the exclusive or of
the signs; zero by zero and infinity by infinity are NaN. The last two lines say what the
results are: `newInf` is an infinity of the given sign, `newNaN` is NaN. -/
theorem special_value_table (size : Nat) (a b : IEEE) :
    (a.inf = true → b.inf = true → a.minus ≠ b.minus →
      addThem (switchBitSize size) a b = IEEE.newNaN (switchBitSize size)) ∧
    (a.inf = true → b.inf = true → a.minus = b.minus →
      addThem (switchBitSize size) a b = IEEE.newInf (switchBitSize size) a.minus) ∧
    (a.inf = true → b.inf = false →
      addThem (switchBitSize size) a b = IEEE.newInf (switchBitSize size) a.minus) ∧
    (a.inf = false → b.inf = true →
      addThem (switchBitSize size) a b = IEEE.newInf (switchBitSize size) b.minus) ∧
    (a.isZero = true → b.inf = true →
      multiplyThem (switchBitSize size) a b = IEEE.newNaN (switchBitSize size)) ∧
    (a.inf = true → b.isZero = true →
      multiplyThem (switchBitSize size) a b = IEEE.newNaN (switchBitSize size)) ∧
    (a.inf = false → a.isZero = false → b.isZero = true →
      divideThem (switchBitSize size) a b
        = .ok (IEEE.newInf (switchBitSize size) (xor a.minus b.minus))) ∧
    (a.isZero = true → b.isZero = true →
      divideThem (switchBitSize size) a b = .ok (IEEE.newNaN (switchBitSize size))) ∧
    (a.inf = true → b.inf = true →
      divideThem (switchBitSize size) a b = .ok (IEEE.newNaN (switchBitSize size))) ∧
    (∀ s : Bool, (IEEE.newInf (switchBitSize size) s).inf = true ∧
      (IEEE.newInf (switchBitSize size) s).nan = false ∧
      (IEEE.newInf (switchBitSize size) s).minus = s) ∧
    (IEEE.newNaN (switchBitSize size)).nan = true := by
  refine ⟨?_, ?_, ?_, ?_, ?_, ?_, ?_, ?_, ?_, ?_, ?_⟩
  · intro h1 h2 h3
    unfold addThem
    simp [h1, h2, h3]
  · intro h1 h2 h3
    unfold addThem
    simp [h1, h2, h3]
  · intro h1 h2
    unfold addThem
    simp [h1, h2]
  · intro h1 h2
    unfold addThem
    simp [h1, h2]
  · intro h1 h2
    unfold multiplyThem
    simp [h1, h2]
  · intro h1 h2
    unfold multiplyThem
    simp [h1, h2]
  · intro h1 h2 h3
    obtain ⟨_, b2, _⟩ := (IEEE_isZero_iff b).1 h3
    unfold divideThem
    cases ha : a.minus <;> cases hb : b.minus <;> simp [h1, h2, h3, b2]
  · intro h1 h2
    obtain ⟨_, a2, _⟩ := (IEEE_isZero_iff a).1 h1
    obtain ⟨_, b2, _⟩ := (IEEE_isZero_iff b).1 h2
    unfold divideThem
    simp [h1, h2, a2, b2]
  · intro h1 h2
    unfold divideThem
    simp [h1, h2]
  · intro s
    simp [IEEE.newInf]
    simp [IEEE_ofInt_zero]
  · simp [IEEE.newNaN]

theorem special_value_table_witness :
    addThem (switchBitSize 16) (IEEE.newInf (switchBitSize 16) false)
        (IEEE.newInf (switchBitSize 16) true) = IEEE.newNaN (switchBitSize 16) ∧
    divideThem (switchBitSize 16) one16 (IEEE.newNegZero (switchBitSize 16))
        = .ok (IEEE.newInf (switchBitSize 16) true) :=
  ⟨(special_value_table 16 (IEEE.newInf (switchBitSize 16) false)
      (IEEE.newInf (switchBitSize 16) true)).1 (by decide) (by decide) (by decide),
   (special_value_table 16 one16 (IEEE.newNegZero (switchBitSize 16))).2.2.2.2.2.2.1
      (by decide) (by decide) (by decide)⟩

/-- C13: `multiplyThem`. For every width: when neither operand is infinite, the product
is neither NaN nor infinite, its sign is the exclusive or of the signs and its magnitude
is `a.val * b.val` (zero when that is at most `smallestPositiveHalved`); when an operand
is infinite and neither is zero, the product is the infinity whose sign is the exclusive
or of the signs. -/
theorem multiplyThem_spec (size : Nat) (a b : IEEE) :
    (a.inf = false → b.inf = false → 0 < a.val.den → 0 < b.val.den →
      0 ≤ a.val.toRat → 0 ≤ b.val.toRat →
      (multiplyThem (switchBitSize size) a b).nan = false ∧
      (multiplyThem (switchBitSize size) a b).inf = false ∧
      (multiplyThem (switchBitSize size) a b).minus = xor a.minus b.minus ∧
      (multiplyThem (switchBitSize size) a b).val.toRat
        = (if a.val.toRat * b.val.toRat ≤ (switchBitSize size).smallestPositiveHalved.toRat
            then 0 else a.val.toRat * b.val.toRat)) ∧
    ((a.inf = true ∨ b.inf = true) → a.isZero = false → b.isZero = false →
      multiplyThem (switchBitSize size) a b
        = IEEE.newInf (switchBitSize size) (xor a.minus b.minus)) := by
  constructor
  · intro h1 h2 had hbd hA hB
    have hmd := Fraction.mult_den_pos a.val b.val had hbd
    obtain ⟨n1, n2, _, _, n5⟩ := IEEE_new_spec size (a.val.mult b.val) hmd
    rw [Fraction.mult_toRat _ _ had hbd, abs_of_nonneg (mul_nonneg hA hB)] at n5
    unfold multiplyThem
    simp only [h1, h2, Bool.or_self, Bool.false_eq_true, if_false]
    refine ⟨n1, n2, ?_, n5⟩
    cases a.minus <;> cases b.minus <;> rfl
  · intro h1 h2 h3
    unfold multiplyThem
    have : (a.inf || b.inf) = true := by
      rcases h1 with h | h <;> simp [h]
    simp only [this, if_true, h2, h3, Bool.or_self, Bool.false_eq_true, if_false]
    cases a.minus <;> cases b.minus <;> rfl

theorem multiplyThem_spec_witness :
    (multiplyThem (switchBitSize 16) one16 { one16 with val := ⟨3, 1⟩, minus := true }).minus
      = true :=
  ((multiplyThem_spec 16 one16 { one16 with val := ⟨3, 1⟩, minus := true }).1 rfl rfl
    (by decide) (by decide) (by norm_num [one16, bitPattern, Fraction.toRat])
    (by norm_num [Fraction.toRat])).2.2.1

/-- C14: `divideThem` does not return on finite operands with a non-zero divisor: for the
16-bit operands `6` and `3` it throws. -/
theorem divideThem_throws_on_finite :
    divideThem (switchBitSize 16) (IEEE.ofInt (switchBitSize 16) 6)
        (IEEE.ofInt (switchBitSize 16) 3) = .error .typeError ∧
      (IEEE.ofInt (switchBitSize 16) 3).isZero = false := by
  decide

/-- C19: `eq` does not look at the exponent. The 16-bit encodings of `1` and `2` have the
same flags, sign and mantissa and the exponents `0` and `1`, and `eq` calls them equal. -/
theorem IEEE_eq_ignores_exponent :
    (IEEE.ofInt (switchBitSize 16) 1).updateBits (switchBitSize 16) 2 = .ok one16 ∧
    (IEEE.ofInt (switchBitSize 16) 2).updateBits (switchBitSize 16) 2
      = .ok (bitPattern ⟨2, 1⟩ 1 (List.replicate 10 false)) ∧
    one16.eq (bitPattern ⟨2, 1⟩ 1 (List.replicate 10 false)) = .ok true ∧
    one16.exp ≠ (bitPattern ⟨2, 1⟩ 1 (List.replicate 10 false)).exp := by
  decide

/-- C20: the comparisons of fractions with positive denominators agree with the order of
the rational numbers they stand for, and exactly one of `lt`, `eq`, `gt` holds. -/
theorem Fraction_comparisons (a b : Fraction) (ha : 0 < a.den) (hb : 0 < b.den) :
    (a.eq b = true ↔ a.toRat = b.toRat) ∧
    (a.gt b = true ↔ b.toRat < a.toRat) ∧
    (a.ge b = true ↔ b.toRat ≤ a.toRat) ∧
    (a.lt b = true ↔ a.toRat < b.toRat) ∧
    (a.le b = true ↔ a.toRat ≤ b.toRat) ∧
    ((a.lt b = true ∧ a.eq b = false ∧ a.gt b = false) ∨
     (a.lt b = false ∧ a.eq b = true ∧ a.gt b = false) ∨
     (a.lt b = false ∧ a.eq b = false ∧ a.gt b = true)) := by
  have h1 := Fraction.eq_iff a b ha hb
  have h2 := Fraction.gt_iff a b ha hb
  have h3 := Fraction.lt_iff a b ha hb
  refine ⟨h1, h2, Fraction.ge_iff a b ha hb, h3, Fraction.le_iff a b ha hb, ?_⟩
  have f1 : a.eq b = false ↔ ¬ a.toRat = b.toRat := by rw [← h1]; simp
  have f2 : a.gt b = false ↔ ¬ b.toRat < a.toRat := by rw [← h2]; simp
  have f3 : a.lt b = false ↔ ¬ a.toRat < b.toRat := by rw [← h3]; simp
  rw [h1, h2, h3, f1, f2, f3]
  rcases lt_trichotomy a.toRat b.toRat with h | h | h
  · exact Or.inl ⟨h, h.ne, not_lt.2 h.le⟩
  · exact Or.inr (Or.inl ⟨by rw [h]; exact lt_irrefl _, h, by rw [h]; exact lt_irrefl _⟩)
  · exact Or.inr (Or.inr ⟨not_lt.2 h.le, h.ne', h⟩)

theorem Fraction_comparisons_witness :
    (Fraction.mk 1 3).lt ⟨1, 2⟩ = true ↔ (Fraction.mk 1 3).toRat < (Fraction.mk 1 2).toRat :=
  (Fraction_comparisons ⟨1, 3⟩ ⟨1, 2⟩ (by decide) (by decide)).2.2.2.1

end Ieee754

namespace Ieee754

/-! ## The flush threshold -/

theorem Fraction_new_zero_num (d : Int) : (Fraction.new 0 d).num = 0 := by
  unfold Fraction.new Fraction.cancel
  simp only []
  split_ifs <;> simp

/-- C22: for every width, `smallestPositiveHalved` is `2^(1 - NaNExp - mantissaLen)`; the
smallest positive subnormal (the value `fromBits` gives for `exp = 1 - NaNExp` and the
mantissa `0...01`) is twice that; and for every fraction `f` with
`0 <= f <= smallestPositiveHalved`, `new IEEE(f)` followed by `updateBits` has
`exp = 1 - NaNExp` and an all-zero mantissa, with no sign. -/
theorem smallestPositiveHalved_flush (size fuel : Nat) :
    (switchBitSize size).smallestPositiveHalved.toRat
      = (2 : ℚ) ^ (1 - (switchBitSize size).NaNExp - ((switchBitSize size).mantissaLen : Int)) ∧
    (∃ r : IEEE,
      (bitPattern ⟨0, 1⟩ (1 - (switchBitSize size).NaNExp)
          (List.replicate ((switchBitSize size).mantissaLen - 1) false ++ [true])).fromBits
        (switchBitSize size) = .ok r ∧
      r.nan = false ∧ r.inf = false ∧ 0 < r.val.den ∧
      r.val.toRat = 2 * (switchBitSize size).smallestPositiveHalved.toRat) ∧
    (∀ f : Fraction, 0 < f.den → 0 ≤ f.toRat →
      f.toRat ≤ (switchBitSize size).smallestPositiveHalved.toRat →
      bitFields ((IEEE.new (switchBitSize size) f).updateBits (switchBitSize size) fuel)
        = .ok (false, some (1 - (switchBitSize size).NaNExp),
            some (List.replicate (switchBitSize size).mantissaLen false))) := by
  obtain ⟨s1, s2⟩ := smallestPositiveHalved_spec size
  obtain ⟨hN, hm, _⟩ := switchBitSize_facts size
  refine ⟨s2, ?_, ?_⟩
  · have hval : bitsValue false
        (List.replicate ((switchBitSize size).mantissaLen - 1) false ++ [true]) = 1 := by
      rw [bitsValue_append, bitsValue_replicate_false]; simp
    have hnz : allZeros
        (List.replicate ((switchBitSize size).mantissaLen - 1) false ++ [true]) = false := by
      rw [allZeros_append]; simp
    obtain ⟨_, f2⟩ := fromBits_fraction 1
      (2 - (switchBitSize size).NaNExp - (switchBitSize size).mantissaLen)
    have hneg : (2 : Int) - (switchBitSize size).NaNExp - (switchBitSize size).mantissaLen < 0 := by
      omega
    obtain ⟨g1, g2⟩ := f2 hneg
    have hne : (1 : Int) - (switchBitSize size).NaNExp ≠ (switchBitSize size).NaNExp := by omega
    refine ⟨{ bitPattern ⟨0, 1⟩ (1 - (switchBitSize size).NaNExp)
          (List.replicate ((switchBitSize size).mantissaLen - 1) false ++ [true]) with
        nan := false, inf := false,
        val := Fraction.new 1 (shl 1
          (-(2 - (switchBitSize size).NaNExp - (switchBitSize size).mantissaLen))) },
      ?_, ?_, ?_, g1, ?_⟩
    · unfold IEEE.fromBits bitPattern
      simp only [hne, if_false, hnz, and_false, Bool.false_eq_true, if_true, hval,
        decide_True, Bool.not_true, not_le.2 hneg]
    · rfl
    · rfl
    · show (Fraction.new 1 (shl 1
        (-(2 - (switchBitSize size).NaNExp - (switchBitSize size).mantissaLen)))).toRat = _
      rw [g2, s2, Int.cast_one, one_mul]
      have : (2 : Int) - (switchBitSize size).NaNExp - (switchBitSize size).mantissaLen
          = (1 - (switchBitSize size).NaNExp - ((switchBitSize size).mantissaLen : Int)) + 1 := by
        ring
      rw [this, zpow_add_one₀ (by norm_num : (2 : ℚ) ≠ 0)]
      ring
  · intro f hd h0 hle
    obtain ⟨n1, n2, n3, n4, n5⟩ := IEEE_new_spec size f hd
    rw [abs_of_nonneg h0, if_pos hle] at n5
    have hnum : (IEEE.new (switchBitSize size) f).val.num = 0 := by
      have := (Fraction.isZero_iff _ n4).2 n5
      simpa [Fraction.isZero] using this
    have hminus : (IEEE.new (switchBitSize size) f).minus = false := by
      cases hm : (IEEE.new (switchBitSize size) f).minus
      · rfl
      · exact absurd (n3.1 hm) (not_lt.2 h0)
    unfold IEEE.updateBits
    simp only [n1, n2, Bool.false_eq_true, if_false, hnum]
    have hz : (Fraction.new 0 (IEEE.new (switchBitSize size) f).val.den).isZero = true := by
      simp [Fraction.isZero, Fraction_new_zero_num]
    simp [hz, bitFields, Except.map, hminus]

/-! ## Canonical fractions -/

theorem Fraction_new_canonical (n d : Int) (hd : 0 < d) : (Fraction.new n d).Canonical := by
  unfold Fraction.new
  simp only [hd.ne', if_false]
  split_ifs with h
  · obtain ⟨c1, _, c3⟩ := Fraction.cancel_spec ⟨n, d⟩ hd.ne'
    exact ⟨c1, c3⟩
  · refine ⟨hd, ?_⟩
    by_cases h1 : d = 1
    · simp [h1]
    · have h2 : n = 1 := by
        by_contra hn
        exact h ⟨h1, hn⟩
      simp [h2]

theorem Fraction_cancel_canonical (f : Fraction) (hd : 0 < f.den) : (Fraction.cancel f).Canonical := by
  obtain ⟨c1, _, c3⟩ := Fraction.cancel_spec f hd.ne'
  exact ⟨c1, c3⟩

/-- C23: canonical form is kept by the arithmetic of fractions. For fractions `a`, `b`
with a positive denominator and in lowest terms, `add`, `sub`, `mult` and `abs` return a
fraction with a positive denominator, in lowest terms, that stands for the exact sum,
difference, product and absolute value; `subInt k` and `multTen` leave the receiver in
lowest terms with a positive denominator, standing for the old value minus `k` and times
ten. -/
theorem Fraction_canonical_invariant (a b : Fraction) (k : Int)
    (ha : a.Canonical) (hb : b.Canonical) :
    ((a.add b).Canonical ∧ (a.add b).toRat = a.toRat + b.toRat) ∧
    ((a.sub b).Canonical ∧ (a.sub b).toRat = a.toRat - b.toRat) ∧
    ((a.mult b).Canonical ∧ (a.mult b).toRat = a.toRat * b.toRat) ∧
    (a.abs.Canonical ∧ a.abs.toRat = |a.toRat|) ∧
    ((a.subInt k).Canonical ∧ (a.subInt k).toRat = a.toRat - k) ∧
    (a.multTen.Canonical ∧ a.multTen.toRat = a.toRat * 10) := by
  have hab : 0 < a.den * b.den := mul_pos ha.1 hb.1
  exact ⟨⟨Fraction_new_canonical _ _ hab, Fraction.add_toRat a b ha.1 hb.1⟩,
    ⟨Fraction_new_canonical _ _ hab, Fraction.sub_toRat a b ha.1 hb.1⟩,
    ⟨Fraction_new_canonical _ _ hab, Fraction.mult_toRat a b ha.1 hb.1⟩,
    ⟨Fraction_new_canonical _ _ ha.1, Fraction.abs_toRat a ha.1⟩,
    ⟨Fraction_cancel_canonical _ ha.1, Fraction.subInt_toRat a k ha.1⟩,
    ⟨Fraction_cancel_canonical _ ha.1, Fraction.multTen_toRat a ha.1⟩⟩

theorem Fraction_canonical_invariant_witness :
    (Fraction.add ⟨1, 6⟩ ⟨1, 3⟩).Canonical ∧
    (Fraction.add ⟨1, 6⟩ ⟨1, 3⟩).toRat = (Fraction.mk 1 6).toRat + (Fraction.mk 1 3).toRat :=
  (Fraction_canonical_invariant ⟨1, 6⟩ ⟨1, 3⟩ 0 ⟨by decide, by decide⟩ ⟨by decide, by decide⟩).1

/-! ## Concrete scenarios -/

set_option maxRecDepth 100000 in
/-- C21: the 64-bit scenarios. `"1.0"` is encoded with sign 0, exponent 0 and an all-zero
mantissa and printed as `"1.0"`; `"0.1"` is printed as `"0.1"`; `"1/3"` is printed as
`"0.3333333333333333"`. -/
theorem scenarios_64bit :
    bitFields ((IEEE.parse (switchBitSize 64) "1.0").bind (IEEE.updateBits (switchBitSize 64) 2))
      = .ok (false, some 0, some (List.replicate 52 false)) ∧
    ((IEEE.parse (switchBitSize 64) "1.0").bind (IEEE.updateBits (switchBitSize 64) 2)).bind
      (IEEE.decimalOutput (switchBitSize 64) 30) = .ok "1.0" ∧
    ((IEEE.parse (switchBitSize 64) "0.1").bind (IEEE.updateBits (switchBitSize 64) 2)).bind
      (IEEE.decimalOutput (switchBitSize 64) 30) = .ok "0.1" ∧
    ((IEEE.parse (switchBitSize 64) "1/3").bind (IEEE.updateBits (switchBitSize 64) 2)).bind
      (IEEE.decimalOutput (switchBitSize 64) 30) = .ok "0.3333333333333333" := by
  decide!

/-- C24: for the 16-bit number `1.5` (exponent 0, mantissa `1000000000`), which is no
power of two, `decimalOutput` takes the predecessor `(2v - 1) * 2^(e - 1)`: its `low` is
`6143/4096` and not the midpoint `3071/2048` of `1.5` and `1535 * 2^(-10)`. -/
theorem decimalBounds_predecessor_of_non_power :
    (bitPattern ⟨3, 2⟩ 0 (true :: List.replicate 9 false)).decimalBounds (switchBitSize 16)
      = .ok (true, ⟨3, 2⟩, ⟨6143, 4096⟩, ⟨3073, 2048⟩) ∧
    (IEEE.new (switchBitSize 16) ⟨3, 2⟩).updateBits (switchBitSize 16) 2
      = .ok (bitPattern ⟨3, 2⟩ 0 (true :: List.replicate 9 false)) ∧
    fractionTimesPower2 (1536 - 1) (-10) = ⟨1535, 1024⟩ := by
  decide

/-- C27: the literals `"-00"` and `"-00.0"` denote zero and begin with `-`, and
`IEEE.parse` returns a zero without the sign for them; `"-0"` gives the negative zero. -/
theorem parse_negative_double_zero :
    IEEE.parse (switchBitSize 16) "-00" = .ok (IEEE.ofInt (switchBitSize 16) 0) ∧
    IEEE.parse (switchBitSize 16) "-00.0" = .ok (IEEE.ofInt (switchBitSize 16) 0) ∧
    (IEEE.ofInt (switchBitSize 16) 0).minus = false ∧
    IEEE.parse (switchBitSize 16) "-0" = .ok (IEEE.newNegZero (switchBitSize 16)) := by
  decide

end Ieee754

namespace Ieee754

/-! ## Characters and strings -/

theorem isDigit_mem (c : Char) (h : isDigit c = true) :
    c ∈ ['0', '1', '2', '3', '4', '5', '6', '7', '8', '9'] := by
  have h1 : 48 ≤ c.toNat ∧ c.toNat ≤ 57 := by
    simp only [isDigit, decide_eq_true_eq, Char.le_def] at h
    exact h
  have h2 : c = Char.ofNat c.toNat := (Char.ofNat_toNat c).symm
  obtain ⟨a, b⟩ := h1
  rw [h2]
  interval_cases c.toNat <;> decide

/-- A property of all ten digits holds for every character that `isDigit` accepts. -/
theorem forall_digit (P : Char → Prop) (h : ∀ c ∈ ['0', '1', '2', '3', '4', '5', '6', '7', '8', '9'], P c)
    (c : Char) (hc : isDigit c = true) : P c :=
  h c (isDigit_mem c hc)

theorem digit_not_space (c : Char) (hc : isDigit c = true) : isSpace c = false :=
  forall_digit (fun c => isSpace c = false) (by decide) c hc

theorem digit_lower (c : Char) (hc : isDigit c = true) : lower c = c :=
  forall_digit (fun c => lower c = c) (by decide) c hc

theorem digit_value (c : Char) (hc : isDigit c = true) :
    0 ≤ (c.toNat : Int) - 48 ∧ (c.toNat : Int) - 48 ≤ 9 :=
  forall_digit (fun c => 0 ≤ (c.toNat : Int) - 48 ∧ (c.toNat : Int) - 48 ≤ 9) (by decide) c hc

theorem dropWhile_eq_self (p : Char → Bool) (l : List Char)
    (h : ∀ c, l.head? = some c → p c = false) : l.dropWhile p = l := by
  cases l with
  | nil => rfl
  | cons a t =>
    have := h a rfl
    exact List.dropWhile_cons_of_neg (by simp [this])

theorem trim_eq_self (l : List Char) (h1 : ∀ c, l.head? = some c → isSpace c = false)
    (h2 : ∀ c, l.getLast? = some c → isSpace c = false) : trim l = l := by
  unfold trim
  rw [dropWhile_eq_self _ l h1, dropWhile_eq_self _ l.reverse, List.reverse_reverse]
  intro c hc
  rw [List.head?_reverse] at hc
  exact h2 c hc

theorem takeWhile_stop (p : Char → Bool) (l r : List Char) (a : Char)
    (hl : ∀ c ∈ l, p c = true) (ha : p a = false) :
    (l ++ a :: r).takeWhile p = l ∧ (l ++ a :: r).dropWhile p = a :: r := by
  constructor
  · rw [List.takeWhile_append_of_pos hl, List.takeWhile_cons_of_neg (by simp [ha]),
      List.append_nil]
  · rw [List.dropWhile_append_of_pos hl, List.dropWhile_cons_of_neg (by simp [ha])]

theorem takeWhile_all (p : Char → Bool) (l : List Char) (hl : ∀ c ∈ l, p c = true) :
    l.takeWhile p = l ∧ l.dropWhile p = [] := by
  constructor
  · simpa using @List.takeWhile_append_of_pos _ p l [] hl
  · simpa using @List.dropWhile_append_of_pos _ p l [] hl

theorem splitSign_digit (a : Char) (t : List Char) (ha : isDigit a = true) :
    splitSign (a :: t) = (none, a :: t) := by
  have h1 : a ≠ '+' := by rintro rfl; exact absurd ha (by decide)
  have h2 : a ≠ '-' := by rintro rfl; exact absurd ha (by decide)
  unfold splitSign
  split
  · next h => simp at h; exact absurd h.1 h1
  · next h => simp at h; exact absurd h.1 h2
  · rfl

theorem bigIntOfDigits_append (a b : List Char) :
    bigIntOfDigits (a ++ b)
      = b.foldl (fun v c => 10 * v + ((c.toNat : Int) - 48)) (bigIntOfDigits a) := by
  simp [bigIntOfDigits, List.foldl_append]

theorem bigIntOfDigits_snoc (a : List Char) (c : Char) :
    bigIntOfDigits (a ++ [c]) = 10 * bigIntOfDigits a + ((c.toNat : Int) - 48) := by
  simp [bigIntOfDigits, List.foldl_append]

theorem bigIntOfDigits_nonneg (l : List Char) (h : ∀ c ∈ l, isDigit c = true) :
    0 ≤ bigIntOfDigits l := by
  induction l using List.reverseRecOn with
  | nil => simp [bigIntOfDigits]
  | append_singleton Q c ih =>
    rw [bigIntOfDigits_snoc]
    have h1 := ih (fun x hx => h x (by simp [hx]))
    have h2 := digit_value c (h c (by simp))
    omega

end Ieee754

namespace Ieee754

/-! ## Parsing fractions -/

theorem map_lower_head (s : List Char) (c x : Char) (rest : List Char)
    (h : s.head? = some c) (hc : lower c ≠ x) : s.map lower ≠ x :: rest := by
  cases s with
  | nil => simp
  | cons a t =>
    simp only [List.head?_cons, Option.some.injEq] at h
    subst h
    simp [hc]

theorem matchFraction_core (sgn N D : List Char)
    (hs : sgn = [] ∨ sgn = ['+'] ∨ sgn = ['-'])
    (hN : N ≠ []) (hNd : ∀ c ∈ N, isDigit c = true)
    (hD : D ≠ []) (hDd : ∀ c ∈ D, isDigit c = true) :
    matchFraction (sgn ++ N ++ '/' :: D)
      = some (if sgn = [] then none else sgn.head?, N, D) := by
  obtain ⟨a, N', rfl⟩ := List.exists_cons_of_ne_nil hN
  have ha : isDigit a = true := hNd a (by simp)
  have hsp : splitSign (sgn ++ (a :: N') ++ '/' :: D)
      = (if sgn = [] then none else sgn.head?, (a :: N') ++ '/' :: D) := by
    rcases hs with rfl | rfl | rfl
    · simpa using splitSign_digit a (N' ++ '/' :: D) ha
    · rfl
    · rfl
  obtain ⟨t1, t2⟩ := takeWhile_stop isDigit (a :: N') D '/' hNd (by decide)
  unfold matchFraction
  rw [hsp]
  simp only [t1, t2]
  have : D.all isDigit = true := by simpa using hDd
  simp [hD, this]

theorem fraction_core_prefixes (sgn N D : List Char)
    (hs : sgn = [] ∨ sgn = ['+'] ∨ sgn = ['-'])
    (hN : N ≠ []) (hNd : ∀ c ∈ N, isDigit c = true)
    (hD : D ≠ []) (hDd : ∀ c ∈ D, isDigit c = true) :
    (sgn ++ N ++ '/' :: D).map lower ≠ ['n', 'a', 'n'] ∧
    ((splitSign (sgn ++ N ++ '/' :: D)).2).map lower ≠ ['i', 'n', 'f'] ∧
    ((sgn ++ N ++ '/' :: D).take 2).map lower ≠ ['0', 'b'] ∧
    ((sgn ++ N ++ '/' :: D).take 2).map lower ≠ ['0', 'x'] ∧
    trim (sgn ++ N ++ '/' :: D) = sgn ++ N ++ '/' :: D := by
  obtain ⟨a, N', rfl⟩ := List.exists_cons_of_ne_nil hN
  have ha : isDigit a = true := hNd a (by simp)
  have hla := digit_lower a ha
  have han : a ≠ 'n' := by rintro rfl; exact absurd ha (by decide)
  have hai : a ≠ 'i' := by rintro rfl; exact absurd ha (by decide)
  have hsp : (splitSign (sgn ++ (a :: N') ++ '/' :: D)).2 = (a :: N') ++ '/' :: D := by
    rcases hs with rfl | rfl | rfl
    · simpa using congrArg Prod.snd (splitSign_digit a (N' ++ '/' :: D) ha)
    · rfl
    · rfl
  have hsecond : ∀ y : Char, isDigit y = false → lower y = y → y ≠ '/' →
      (((a :: N') ++ '/' :: D).take 2).map lower ≠ ['0', y] := by
    intro y hy _ hy2
    cases N' with
    | nil =>
      simp only [List.singleton_append, List.take_succ_cons, List.take_zero, List.map_cons,
        List.map_nil]
      intro h
      simp only [List.cons.injEq, and_true] at h
      exact hy2 (by rw [← h.2]; decide)
    | cons b N'' =>
      have hb : isDigit b = true := hNd b (by simp)
      simp only [List.cons_append, List.take_succ_cons, List.take_zero, List.map_cons,
        List.map_nil]
      intro h
      simp only [List.cons.injEq, and_true] at h
      rw [digit_lower b hb] at h
      rw [h.2] at hb
      rw [hb] at hy
      exact absurd hy (by decide)
  refine ⟨?_, ?_, ?_, ?_, ?_⟩
  · rcases hs with rfl | rfl | rfl
    · exact map_lower_head _ a _ _ rfl (by rw [hla]; exact han)
    · exact map_lower_head _ '+' _ _ rfl (by decide)
    · exact map_lower_head _ '-' _ _ rfl (by decide)
  · rw [hsp]
    exact map_lower_head _ a _ _ rfl (by rw [hla]; exact hai)
  · rcases hs with rfl | rfl | rfl
    · simpa using hsecond 'b' (by decide) (by decide) (by decide)
    · exact map_lower_head _ '+' _ _ rfl (by decide)
    · exact map_lower_head _ '-' _ _ rfl (by decide)
  · rcases hs with rfl | rfl | rfl
    · simpa using hsecond 'x' (by decide) (by decide) (by decide)
    · exact map_lower_head _ '+' _ _ rfl (by decide)
    · exact map_lower_head _ '-' _ _ rfl (by decide)
  · apply trim_eq_self
    · intro c hc
      rcases hs with rfl | rfl | rfl
      · simp only [List.nil_append, List.cons_append, List.head?_cons, Option.some.injEq] at hc
        subst hc
        exact digit_not_space _ ha
      · simp only [List.cons_append, List.head?_cons, Option.some.injEq] at hc
        subst hc
        decide
      · simp only [List.cons_append, List.head?_cons, Option.some.injEq] at hc
        subst hc
        decide
    · intro c hc
      rcases List.eq_nil_or_concat D with h | ⟨D', z, rfl⟩
      · exact absurd h hD
      · have hz : isDigit z = true := hDd z (by simp)
        have : sgn ++ a :: N' ++ '/' :: D'.concat z = (sgn ++ a :: N' ++ '/' :: D') ++ [z] := by
          simp
        rw [this, List.getLast?_concat] at hc
        simp only [Option.some.injEq] at hc
        subst hc
        exact digit_not_space _ hz

/-- C15: `IEEE.parse` on `[sign]digits/digits`. For every width and every string that
after trimming is an optional sign, a non-empty digit string `N`, a slash and a non-empty
digit string `D`, with `n` and `d` the numbers that `N` and `D` denote: `parse` returns;
the result is NaN if `d = 0` and `n = 0`; the infinity with `minus` set iff the sign is
`-` if `d = 0` and `n ≠ 0`; a zero with `minus` set iff the sign is `-` if `n = 0` and
`d ≠ 0`; and otherwise a finite value with `minus` set iff the sign is `-` whose magnitude
is `n/d`, or zero when `n/d` is at most `smallestPositiveHalved`. -/
theorem parse_fraction_spec (size : Nat) (str : String) (sgn N D : List Char)
    (hs : sgn = [] ∨ sgn = ['+'] ∨ sgn = ['-'])
    (hN : N ≠ []) (hNd : ∀ c ∈ N, isDigit c = true)
    (hD : D ≠ []) (hDd : ∀ c ∈ D, isDigit c = true)
    (ht : trim str.toList = sgn ++ N ++ '/' :: D) :
    ∃ r : IEEE, IEEE.parse (switchBitSize size) str = .ok r ∧
      (bigIntOfDigits D = 0 → bigIntOfDigits N = 0 → r = IEEE.newNaN (switchBitSize size)) ∧
      (bigIntOfDigits D = 0 → bigIntOfDigits N ≠ 0 →
        r = IEEE.newInf (switchBitSize size) (decide (sgn = ['-']))) ∧
      (bigIntOfDigits D ≠ 0 → bigIntOfDigits N = 0 →
        r.isZero = true ∧ r.minus = decide (sgn = ['-'])) ∧
      (bigIntOfDigits D ≠ 0 → bigIntOfDigits N ≠ 0 →
        r.nan = false ∧ r.inf = false ∧ r.minus = decide (sgn = ['-']) ∧
        r.val.toRat
          = if (bigIntOfDigits N : ℚ) / (bigIntOfDigits D : ℚ)
                ≤ (switchBitSize size).smallestPositiveHalved.toRat then 0
            else (bigIntOfDigits N : ℚ) / (bigIntOfDigits D : ℚ)) := by
  obtain ⟨p1, p2, p3, p4, p5⟩ := fraction_core_prefixes sgn N D hs hN hNd hD hDd
  have hm := matchFraction_core sgn N D hs hN hNd hD hDd
  have hsign : decide ((if sgn = [] then none else sgn.head?) = some '-') = decide (sgn = ['-']) := by
    rcases hs with rfl | rfl | rfl <;> decide
  have hn0 := bigIntOfDigits_nonneg N hNd
  have hd0 := bigIntOfDigits_nonneg D hDd
  have hparse : IEEE.parse (switchBitSize size) str
      = .ok (IEEE.parseFraction (switchBitSize size) (sgn ++ N ++ '/' :: D)) := by
    unfold IEEE.parse
    simp only [ht, p1, p2, p3, p4, if_false, hm, Option.isSome_some, if_true]
  refine ⟨_, hparse, ?_, ?_, ?_, ?_⟩
  · intro h1 h2
    unfold IEEE.parseFraction
    simp only [p5, hm, h1, h2, if_true]
  · intro h1 h2
    unfold IEEE.parseFraction
    simp only [p5, hm, h1, h2, if_true, if_false, hsign]
  · intro h1 h2
    unfold IEEE.parseFraction
    simp only [p5, hm, h1, h2, if_true, if_false, hsign]
    by_cases hq : sgn = ['-']
    · simp [hq, IEEE.newNegZero, IEEE_ofInt_zero, IEEE.isZero, Fraction.isZero]
    · simp [hq, IEEE_ofInt_zero, IEEE.isZero, Fraction.isZero]
  · intro h1 h2
    have hdpos : 0 < bigIntOfDigits D := lt_of_le_of_ne hd0 (Ne.symm h1)
    have hnpos : 0 < bigIntOfDigits N := lt_of_le_of_ne hn0 (Ne.symm h2)
    have hdq : (0 : ℚ) < (bigIntOfDigits D : ℚ) := by exact_mod_cast hdpos
    have hnq : (0 : ℚ) < (bigIntOfDigits N : ℚ) := by exact_mod_cast hnpos
    have hq : (0 : ℚ) < (bigIntOfDigits N : ℚ) / (bigIntOfDigits D : ℚ) := div_pos hnq hdq
    unfold IEEE.parseFraction
    simp only [p5, hm, h1, h2, if_false, hsign]
    obtain ⟨n1, n2, n3, _, n5⟩ := IEEE_new_spec size
      (Fraction.new (if decide (sgn = ['-']) = true then -bigIntOfDigits N else bigIntOfDigits N)
        (bigIntOfDigits D)) (Fraction.new_den_pos _ _ hdpos)
    rw [Fraction.new_toRat _ _ h1] at n3 n5
    refine ⟨n1, n2, ?_, ?_⟩
    · by_cases hq2 : sgn = ['-']
      · simp only [hq2, decide_True, if_true] at n3 ⊢
        apply n3.2
        push_cast
        rw [neg_div]
        linarith
      · simp only [hq2, decide_False, Bool.false_eq_true, if_false] at n3 ⊢
        cases hmn : (IEEE.new (switchBitSize size) (Fraction.new (bigIntOfDigits N) (bigIntOfDigits D))).minus
        · rfl
        · have := n3.1 hmn
          linarith
    · rw [n5]
      have habs : |(((if decide (sgn = ['-']) = true then -bigIntOfDigits N else bigIntOfDigits N : Int) : ℚ))
          / (bigIntOfDigits D : ℚ)| = (bigIntOfDigits N : ℚ) / (bigIntOfDigits D : ℚ) := by
        by_cases hq2 : sgn = ['-']
        · simp only [hq2, decide_True, if_true]
          push_cast
          rw [neg_div, abs_neg, abs_of_pos hq]
        · simp only [hq2, decide_False, Bool.false_eq_true, if_false]
          rw [abs_of_pos hq]
      rw [habs]

theorem parse_fraction_spec_witness :
    ∃ r : IEEE, IEEE.parse (switchBitSize 16) " -1/0 " = .ok r ∧
      (bigIntOfDigits ['0'] = 0 → bigIntOfDigits ['1'] = 0 → r = IEEE.newNaN (switchBitSize 16)) ∧
      (bigIntOfDigits ['0'] = 0 → bigIntOfDigits ['1'] ≠ 0 →
        r = IEEE.newInf (switchBitSize 16) (decide (['-'] = ['-']))) ∧
      (bigIntOfDigits ['0'] ≠ 0 → bigIntOfDigits ['1'] = 0 →
        r.isZero = true ∧ r.minus = decide (['-'] = ['-'])) ∧
      (bigIntOfDigits ['0'] ≠ 0 → bigIntOfDigits ['1'] ≠ 0 →
        r.nan = false ∧ r.inf = false ∧ r.minus = decide (['-'] = ['-']) ∧
        r.val.toRat
          = if (bigIntOfDigits ['1'] : ℚ) / (bigIntOfDigits ['0'] : ℚ)
                ≤ (switchBitSize 16).smallestPositiveHalved.toRat then 0
            else (bigIntOfDigits ['1'] : ℚ) / (bigIntOfDigits ['0'] : ℚ)) :=
  parse_fraction_spec 16 " -1/0 " ['-'] ['1'] ['0'] (by decide) (by decide) (by decide)
    (by decide) (by decide) (by decide)

end Ieee754

namespace Ieee754

/-! ## Parsing bit strings -/

theorem parse_0b (cfg : Format) (str : String) (X : List Char)
    (ht : trim str.toList = '0' :: 'b' :: X) :
    IEEE.parse cfg str = IEEE.parseBin cfg X := by
  have p2 : ('0' :: 'b' :: X).map lower ≠ ['n', 'a', 'n'] :=
    map_lower_head _ '0' _ _ rfl (by decide)
  have p3 : ((splitSign ('0' :: 'b' :: X)).2).map lower ≠ ['i', 'n', 'f'] := by
    rw [splitSign_digit '0' _ (by decide)]
    exact map_lower_head _ '0' _ _ rfl (by decide)
  have p4 : (('0' :: 'b' :: X).take 2).map lower = ['0', 'b'] := by
    show [lower '0', lower 'b'] = ['0', 'b']
    decide
  unfold IEEE.parse
  simp only [ht, p2, p3, p4, if_false, if_true, List.drop_succ_cons, List.drop_zero]

theorem parse_0x (cfg : Format) (str : String) (X : List Char)
    (ht : trim str.toList = '0' :: 'x' :: X) :
    IEEE.parse cfg str = IEEE.parseHex cfg X := by
  have p2 : ('0' :: 'x' :: X).map lower ≠ ['n', 'a', 'n'] :=
    map_lower_head _ '0' _ _ rfl (by decide)
  have p3 : ((splitSign ('0' :: 'x' :: X)).2).map lower ≠ ['i', 'n', 'f'] := by
    rw [splitSign_digit '0' _ (by decide)]
    exact map_lower_head _ '0' _ _ rfl (by decide)
  have p5 : (('0' :: 'x' :: X).take 2).map lower = ['0', 'x'] := by
    show [lower '0', lower 'x'] = ['0', 'x']
    decide
  unfold IEEE.parse
  simp only [ht, p2, p3, p5, if_false, if_true, List.drop_succ_cons, List.drop_zero]
  exact if_neg (by decide)

theorem getLast_cons_cons (a b : Char) (X : List Char) (hX : X ≠ []) :
    (a :: b :: X).getLast? = X.getLast? := by
  rcases List.eq_nil_or_concat X with h | ⟨X', z, rfl⟩
  · exact absurd h hX
  · have : a :: b :: X'.concat z = (a :: b :: X') ++ [z] := by simp
    rw [this, List.getLast?_concat]
    simp

theorem binChars_value (l : List Char) (hl : ∀ c ∈ l, c = '0' ∨ c = '1') :
    l.foldl (fun v c => 2 * v + ((c.toNat : Int) - 48)) 0
      = bitsValue false (l.map (fun c => decide (c = '1'))) := by
  induction l using List.reverseRecOn with
  | nil => rfl
  | append_singleton Q c ih =>
    rw [List.foldl_append, List.map_append, List.map_singleton, bitsValue_append,
      ← ih (fun x hx => hl x (by simp [hx]))]
    rcases hl c (by simp) with rfl | rfl <;> simp

theorem supported_format (size : Nat) (h : size = 16 ∨ size = 32 ∨ size = 64 ∨ size = 128) :
    (switchBitSize size).numberOfBits = size ∧ (switchBitSize size).binDigits = size ∧
    (switchBitSize size).hexDigits * 4 = size ∧
    (switchBitSize size).mantissaLen < size := by
  rcases h with rfl | rfl | rfl | rfl <;> decide

theorem parseBin_valid (size : Nat) (h : size = 16 ∨ size = 32 ∨ size = 64 ∨ size = 128)
    (s : List Char) (hs : ∀ c ∈ s, c = '0' ∨ c = '1') (h1 : 1 ≤ s.length)
    (h2 : s.length ≤ size) :
    IEEE.parseBin (switchBitSize size) s
      = decodeBitString (switchBitSize size) (s.map (fun c => decide (c = '1'))) := by
  obtain ⟨f1, f2, _, _⟩ := supported_format size h
  have hne : s ≠ [] := by
    intro h0; rw [h0] at h1; simp at h1
  have hsp : ∀ c ∈ s, isSpace c = false := by
    intro c hc
    rcases hs c hc with rfl | rfl <;> decide
  have htrim : trim s = s := by
    apply trim_eq_self
    · intro c hc
      exact hsp c (List.mem_of_mem_head? hc)
    · intro c hc
      exact hsp c (List.mem_of_mem_getLast? hc)
  have hall : s.all (fun c => c = '0' || c = '1') = true := by
    simp only [List.all_eq_true, Bool.or_eq_true, decide_eq_true_eq]
    exact hs
  have hpad : ∀ c ∈ List.replicate (size - s.length) '0' ++ s, c = '0' ∨ c = '1' := by
    intro c hc
    rcases List.mem_append.1 hc with h | h
    · exact Or.inl (List.eq_of_mem_replicate h)
    · exact hs c h
  have hmap : (List.replicate (size - s.length) '0' ++ s).map (fun c => decide (c = '1'))
      = List.replicate (size - s.length) false ++ s.map (fun c => decide (c = '1')) := by
    simp
  unfold IEEE.parseBin decodeBitString
  simp only [htrim, f1, f2, h1, h2, hall, and_self, decide_True, Bool.not_true,
    Bool.false_eq_true, if_false, IEEE_ofInt_zero, List.length_map]
  rw [binChars_value _ (fun c hc => hpad c (List.mem_of_mem_take (List.mem_of_mem_drop hc))),
    List.map_drop, List.map_take, hmap]
  congr 2
  · rw [List.head?_eq_getElem?]
  · ring_nf

theorem isHexDigit_mem (c : Char) (h : isHexDigit c = true) :
    c ∈ ['0', '1', '2', '3', '4', '5', '6', '7', '8', '9', 'a', 'b', 'c', 'd', 'e', 'f',
         'A', 'B', 'C', 'D', 'E', 'F'] := by
  unfold isHexDigit at h
  simp only [Bool.or_eq_true, decide_eq_true_eq, Char.le_def] at h
  have h2 : c = Char.ofNat c.toNat := (Char.ofNat_toNat c).symm
  rcases h with (h | h) | h
  · have := isDigit_mem c h
    revert this
    generalize c = x
    intro hx
    simp only [List.mem_cons, List.mem_singleton, List.not_mem_nil, or_false] at hx ⊢
    tauto
  · have h1 : 97 ≤ c.toNat ∧ c.toNat ≤ 102 := h
    obtain ⟨a, b⟩ := h1
    rw [h2]
    interval_cases c.toNat <;> decide
  · have h1 : 65 ≤ c.toNat ∧ c.toNat ≤ 70 := h
    obtain ⟨a, b⟩ := h1
    rw [h2]
    interval_cases c.toNat <;> decide

theorem hexDigit_facts (c : Char) (h : isHexDigit c = true) :
    isSpace c = false ∧
    (List.replicate (4 - (Nat.toDigits 2 (hexValue c)).length) '0' ++ Nat.toDigits 2 (hexValue c)
      = hexDigitBits c) ∧
    (∀ x ∈ hexDigitBits c, x = '0' ∨ x = '1') ∧ (hexDigitBits c).length = 4 := by
  have hm := isHexDigit_mem c h
  revert hm
  generalize c = x
  revert x
  decide

theorem parseHex_valid (size : Nat) (hsize : size = 16 ∨ size = 32 ∨ size = 64 ∨ size = 128)
    (h : List Char) (hh : ∀ c ∈ h, isHexDigit c = true) (h1 : 1 ≤ h.length)
    (h2 : h.length * 4 ≤ size) :
    IEEE.parseHex (switchBitSize size) h
      = IEEE.parseBin (switchBitSize size) (h.map hexDigitBits).flatten := by
  obtain ⟨_, _, f3, _⟩ := supported_format size hsize
  have hsp : ∀ c ∈ h, isSpace c = false := fun c hc => (hexDigit_facts c (hh c hc)).1
  have htrim : trim h = h := by
    apply trim_eq_self
    · intro c hc
      exact hsp c (List.mem_of_mem_head? hc)
    · intro c hc
      exact hsp c (List.mem_of_mem_getLast? hc)
  have hall : h.all isHexDigit = true := by
    simp only [List.all_eq_true]
    exact hh
  have hlen : h.length ≤ (switchBitSize size).hexDigits := by omega
  have hmap : h.map (fun c => List.replicate (4 - (Nat.toDigits 2 (hexValue c)).length) '0'
      ++ Nat.toDigits 2 (hexValue c)) = h.map hexDigitBits :=
    List.map_congr_left (fun c hc => (hexDigit_facts c (hh c hc)).2.1)
  unfold IEEE.parseHex
  simp only [htrim, h1, hlen, hall, and_self, decide_True, Bool.not_true,
    Bool.false_eq_true, if_false, hmap]

theorem flatten_hexDigitBits (h : List Char) (hne : h ≠ []) :
    (∀ x ∈ (h.map hexDigitBits).flatten, x = '0' ∨ x = '1') ∧
    (h.map hexDigitBits).flatten ≠ [] := by
  constructor
  · intro x hx
    simp only [List.mem_flatten, List.mem_map] at hx
    obtain ⟨l, ⟨c, _, rfl⟩, hxl⟩ := hx
    simp only [hexDigitBits, List.mem_cons, List.mem_singleton, List.not_mem_nil,
      or_false] at hxl
    rcases hxl with rfl | rfl | rfl | rfl <;> split_ifs <;> simp
  · obtain ⟨a, t, rfl⟩ := List.exists_cons_of_ne_nil hne
    simp [hexDigitBits]

/-- C18: bit strings. For each of the widths 16, 32, 64 and 128: `IEEE.parse` of `0b`
followed by `1` to `size` binary digits is the decoding of the digits padded on the left
with zeros to the full width (`decodeBitString`: first bit the sign, then the exponent
with bias `NaNExp - 1`, then `mantissaLen` mantissa bits, through `fromBits`); `IEEE.parse`
of `0x` followed by `1` to `size/4` hexadecimal digits equals `IEEE.parse` of `0b`
followed by the four bits of every digit. In 32 bits, `0x3F800000` is `+1` with exponent
`0` and an all-zero mantissa. -/
theorem parse_bit_strings (size : Nat) (hsize : size = 16 ∨ size = 32 ∨ size = 64 ∨ size = 128) :
    (∀ s : List Char, (∀ c ∈ s, c = '0' ∨ c = '1') → 1 ≤ s.length → s.length ≤ size →
      IEEE.parse (switchBitSize size) (String.mk ('0' :: 'b' :: s))
        = decodeBitString (switchBitSize size) (s.map (fun c => decide (c = '1')))) ∧
    (∀ h : List Char, (∀ c ∈ h, isHexDigit c = true) → 1 ≤ h.length → h.length * 4 ≤ size →
      IEEE.parse (switchBitSize size) (String.mk ('0' :: 'x' :: h))
        = IEEE.parse (switchBitSize size)
            (String.mk ('0' :: 'b' :: (h.map hexDigitBits).flatten))) ∧
    IEEE.parse (switchBitSize 32) "0x3F800000"
      = .ok { val := ⟨1, 1⟩, minus := false, nan := false, inf := false,
              exp := some 0, mantissa := some (List.replicate 23 false) } := by
  have hbin : ∀ s : List Char, (∀ c ∈ s, c = '0' ∨ c = '1') → s ≠ [] →
      trim ('0' :: 'b' :: s) = '0' :: 'b' :: s := by
    intro s hs hne
    apply trim_eq_self
    · intro c hc
      simp only [List.head?_cons, Option.some.injEq] at hc
      subst hc
      decide
    · intro c hc
      rw [getLast_cons_cons _ _ _ hne] at hc
      rcases hs c (List.mem_of_mem_getLast? hc) with rfl | rfl <;> decide
  refine ⟨?_, ?_, by decide⟩
  · intro s hs h1 h2
    have hne : s ≠ [] := by
      intro h0; rw [h0] at h1; simp at h1
    rw [parse_0b _ _ s (hbin s hs hne)]
    exact parseBin_valid size hsize s hs h1 h2
  · intro h hh h1 h2
    have hne : h ≠ [] := by
      intro h0; rw [h0] at h1; simp at h1
    obtain ⟨e1, e2⟩ := flatten_hexDigitBits h hne
    have htrim : trim ('0' :: 'x' :: h) = '0' :: 'x' :: h := by
      apply trim_eq_self
      · intro c hc
        simp only [List.head?_cons, Option.some.injEq] at hc
        subst hc
        decide
      · intro c hc
        rw [getLast_cons_cons _ _ _ hne] at hc
        exact (hexDigit_facts c (hh c (List.mem_of_mem_getLast? hc))).1
    rw [parse_0x _ _ h htrim, parse_0b _ _ _ (hbin _ e1 e2)]
    exact parseHex_valid size hsize h hh h1 h2

theorem parse_bit_strings_witness :
    IEEE.parse (switchBitSize 16) (String.mk ('0' :: 'b' :: ['1', '0', '1']))
      = decodeBitString (switchBitSize 16) (['1', '0', '1'].map (fun c => decide (c = '1'))) :=
  (parse_bit_strings 16 (by decide)).1 ['1', '0', '1'] (by decide) (by decide) (by decide)

end Ieee754

namespace Ieee754

/-! ## `parse` is total, and what it rejects -/

theorem dropWhile_head_not (p : Char → Bool) (l : List Char) (c : Char)
    (h : (l.dropWhile p).head? = some c) : p c = false := by
  have := List.head?_dropWhile_not p l
  rw [h] at this
  exact this

theorem trim_idem (l : List Char) : trim (trim l) = trim l := by
  apply trim_eq_self
  · intro c hc
    unfold trim at hc
    rw [List.head?_reverse] at hc
    have hsplit := List.takeWhile_append_dropWhile isSpace (l.dropWhile isSpace).reverse
    have hne : (l.dropWhile isSpace).reverse.dropWhile isSpace ≠ [] := by
      intro h0; rw [h0] at hc; simp at hc
    have hlast : ((l.dropWhile isSpace).reverse).getLast? = some c := by
      rw [← hsplit, List.getLast?_append, hc]
      rfl
    rw [List.getLast?_reverse] at hlast
    exact dropWhile_head_not _ _ _ hlast
  · intro c hc
    unfold trim at hc
    rw [List.getLast?_reverse] at hc
    exact dropWhile_head_not _ _ _ hc

theorem fromBits_total (cfg : Format) (x : IEEE) (e : Int) (M : List Bool)
    (he : x.exp = some e) (hM : x.mantissa = some M) : ∃ r, x.fromBits cfg = .ok r := by
  unfold IEEE.fromBits
  rw [he, hM]
  simp only []
  split_ifs <;> exact ⟨_, rfl⟩

theorem parseBin_total (cfg : Format) (s : List Char) : ∃ r, IEEE.parseBin cfg s = .ok r := by
  unfold IEEE.parseBin
  simp only []
  split_ifs
  · exact ⟨_, rfl⟩
  · exact fromBits_total cfg _ _ _ rfl rfl

theorem parseHex_total (cfg : Format) (s : List Char) : ∃ r, IEEE.parseHex cfg s = .ok r := by
  unfold IEEE.parseHex
  simp only []
  split_ifs
  · exact ⟨_, rfl⟩
  · exact parseBin_total cfg _

theorem parseBin_invalid (cfg : Format) (s : List Char) (h : isBinText cfg (trim s) = false) :
    IEEE.parseBin cfg s = .ok (IEEE.newNaN cfg) := by
  unfold IEEE.parseBin
  unfold isBinText at h
  simp only [Bool.and_eq_false_iff, decide_eq_false_iff_not] at h
  simp only []
  rw [if_pos]
  simp only [Bool.not_eq_true', decide_eq_false_iff_not]
  rintro ⟨a1, a2, a3⟩
  rcases h with (h | h) | h
  · exact h a1
  · exact h a2
  · rw [a3] at h
    exact absurd h (by decide)

theorem parseHex_invalid (cfg : Format) (s : List Char) (h : isHexText cfg (trim s) = false) :
    IEEE.parseHex cfg s = .ok (IEEE.newNaN cfg) := by
  unfold IEEE.parseHex
  unfold isHexText at h
  simp only [Bool.and_eq_false_iff, decide_eq_false_iff_not] at h
  simp only []
  rw [if_pos]
  simp only [Bool.not_eq_true', decide_eq_false_iff_not]
  rintro ⟨a1, a2, a3⟩
  rcases h with (h | h) | h
  · exact h a1
  · exact h a2
  · rw [a3] at h
    exact absurd h (by decide)

theorem parseDecimal_invalid (cfg : Format) (s : List Char)
    (h1 : isZeroText (trim s) = false) (h2 : isDecimalText (some 5) (trim s) = false) :
    IEEE.parseDecimal cfg s = IEEE.newNaN cfg := by
  unfold IEEE.parseDecimal
  unfold isZeroText at h1
  unfold isDecimalText at h2
  rcases hsp : splitDecimal (trim s) with ⟨sign, m, e⟩
  rw [hsp] at h1 h2
  simp only [] at h1 h2
  simp only [hsp, h1, h2, Bool.false_eq_true, if_false, Bool.not_false, if_true]

/-- C17: `IEEE.parse` returns for every string and every width, and it returns NaN for
every string that after trimming is in none of the accepted grammars: `nan`, `[sign]inf`,
`0b` followed by optional white space and `1` to `binDigits` binary digits, `0x` followed
by optional white space and `1` to `hexDigits` hexadecimal digits, `[sign]integer/integer`,
a zero literal with an exponent of any length, a decimal literal with an exponent of at
most five digits. -/
theorem parse_total_and_rejects (size : Nat) (str : String) :
    (∃ r, IEEE.parse (switchBitSize size) str = .ok r) ∧
    (inAcceptedGrammars (switchBitSize size) (trim str.toList) = false →
      IEEE.parse (switchBitSize size) str = .ok (IEEE.newNaN (switchBitSize size))) := by
  constructor
  · unfold IEEE.parse
    simp only []
    split_ifs
    · exact ⟨_, rfl⟩
    · exact ⟨_, rfl⟩
    · exact parseBin_total _ _
    · exact parseHex_total _ _
    · exact ⟨_, rfl⟩
    · exact ⟨_, rfl⟩
  · intro h
    unfold inAcceptedGrammars at h
    simp only [Bool.or_eq_false_iff, Bool.and_eq_false_iff, decide_eq_false_iff_not] at h
    obtain ⟨⟨⟨⟨⟨⟨c1, c2⟩, c3⟩, c4⟩, c5⟩, c6⟩, c7⟩ := h
    unfold IEEE.parse
    simp only [c1, c2, if_false]
    split_ifs with h3 h4 h5
    · exact parseBin_invalid _ _ (c3.resolve_left (not_not.2 h3))
    · exact parseHex_invalid _ _ (c4.resolve_left (not_not.2 h4))
    · rw [c5] at h5
      exact absurd h5 (by decide)
    · rw [parseDecimal_invalid _ _ (by rw [trim_idem]; exact c6) (by rw [trim_idem]; exact c7)]

theorem parse_total_and_rejects_witness :
    IEEE.parse (switchBitSize 16) "1.5x" = .ok (IEEE.newNaN (switchBitSize 16)) :=
  (parse_total_and_rejects 16 "1.5x").2 (by decide)

/-- C17, a string outside the listed grammars that is not NaN: the exponent of
`0E123456` has six digits, so it is no decimal literal with an exponent of at most five
digits, and `IEEE.parse` returns zero for it. Likewise `0b 101` has a blank after the
prefix and is read as the bits `101`. -/
theorem parse_zero_with_long_exponent :
    inListedGrammars (switchBitSize 16) (trim "0E123456".toList) = false ∧
    IEEE.parse (switchBitSize 16) "0E123456" = .ok (IEEE.ofInt (switchBitSize 16) 0) ∧
    (IEEE.ofInt (switchBitSize 16) 0).nan = false ∧
    inListedGrammars (switchBitSize 16) (trim "0b 101".toList) = false ∧
    IEEE.parse (switchBitSize 16) "0b 101" = IEEE.parse (switchBitSize 16) "0b101" ∧
    (IEEE.parse (switchBitSize 16) "0b101").map (fun r => r.nan) = .ok false := by
  decide

end Ieee754

namespace Ieee754

/-! ## Decimal literals -/

theorem pow10_cast (k : Int) (hk : 0 ≤ k) : (((10 ^ k.toNat : Nat) : Int) : ℚ) = (10 : ℚ) ^ k := by
  push_cast
  rw [← zpow_natCast, Int.toNat_of_nonneg hk]

theorem fractionTimesPower10_spec (v e : Int) :
    0 < (fractionTimesPower10 v e).den ∧
    (fractionTimesPower10 v e).toRat = (v : ℚ) * (10 : ℚ) ^ e := by
  unfold fractionTimesPower10
  split
  · next he =>
    simp only [Fraction.ofInt_eq]
    refine ⟨Int.one_pos, ?_⟩
    simp only [Fraction.toRat, Int.cast_one, div_one]
    split
    · rw [Int.cast_mul, pow10_cast e he]
    · next h1 =>
      have : v = 1 := by simpa using h1
      rw [pow10_cast e he, this]
      simp
  · next he =>
    have hk : 0 ≤ -e := by omega
    have hpos : (0 : Int) < ((10 ^ (-e).toNat : Nat) : Int) := by positivity
    refine ⟨Fraction.new_den_pos _ _ hpos, ?_⟩
    rw [Fraction.new_toRat _ _ hpos.ne', pow10_cast _ hk, zpow_neg]
    field_simp

theorem dropWhile_append_stop (p : Char → Bool) (l r : List Char) (a : Char) (ha : p a = false) :
    (l ++ a :: r).dropWhile p = l.dropWhile p ++ a :: r := by
  induction l with
  | nil => simp [List.dropWhile_cons, ha]
  | cons c t ih =>
    simp only [List.cons_append, List.dropWhile_cons]
    split
    · exact ih
    · rfl

theorem bigIntOfDigits_cons_zero (X : List Char) : bigIntOfDigits ('0' :: X) = bigIntOfDigits X := by
  simp [bigIntOfDigits]

theorem bigIntOfDigits_dropZeros (I X : List Char) :
    bigIntOfDigits (I.dropWhile (fun c => c = '0') ++ X) = bigIntOfDigits (I ++ X) := by
  induction I with
  | nil => rfl
  | cons c t ih =>
    simp only [List.dropWhile_cons]
    split
    · next h =>
      have hc : c = '0' := by simpa using h
      rw [ih, hc, List.cons_append, bigIntOfDigits_cons_zero]
    · rfl

theorem bigIntOfDigits_zeros (A : List Char) (k : Nat) :
    bigIntOfDigits (A ++ List.replicate k '0') = bigIntOfDigits A * 10 ^ k := by
  induction k with
  | zero => simp
  | succ k ih =>
    rw [List.replicate_succ', ← List.append_assoc, bigIntOfDigits_snoc, ih, pow_succ]
    simp
    ring

theorem dropTrailingZeros_spec (F : List Char) :
    ∃ k : Nat, F = dropTrailingZeros F ++ List.replicate k '0' := by
  have hsplit := List.takeWhile_append_dropWhile (fun c => decide (c = '0')) F.reverse
  have hall : ∀ c ∈ F.reverse.takeWhile (fun c => decide (c = '0')), c = '0' := by
    intro c hc
    simpa using List.mem_takeWhile_imp hc
  have hrep : F.reverse.takeWhile (fun c => decide (c = '0'))
      = List.replicate (F.reverse.takeWhile (fun c => decide (c = '0'))).length '0' :=
    List.eq_replicate_iff.2 ⟨rfl, hall⟩
  refine ⟨(F.reverse.takeWhile (fun c => decide (c = '0'))).length, ?_⟩
  have e := (congrArg List.reverse hsplit).symm
  rw [List.reverse_reverse, List.reverse_append] at e
  unfold dropTrailingZeros
  rw [← List.reverse_replicate, ← hrep]
  exact e

theorem dropTrailingZeros_append_dot (I F : List Char) :
    dropTrailingZeros (I ++ '.' :: F) = I ++ '.' :: dropTrailingZeros F := by
  unfold dropTrailingZeros
  have : (I ++ '.' :: F).reverse = F.reverse ++ '.' :: I.reverse := by simp
  rw [this, dropWhile_append_stop _ _ _ _ (by decide)]
  simp

theorem dropTrailingZeros_digits (F : List Char) (h : ∀ c ∈ F, isDigit c = true) :
    ∀ c ∈ dropTrailingZeros F, isDigit c = true := by
  intro c hc
  obtain ⟨k, hk⟩ := dropTrailingZeros_spec F
  apply h
  rw [hk]
  exact List.mem_append_left _ hc

theorem indexOf_dot (I R : List Char) (h : ∀ c ∈ I, isDigit c = true) :
    (I ++ '.' :: R).indexOf '.' = I.length := by
  have hn : '.' ∉ I := by
    intro hm
    exact absurd (h _ hm) (by decide)
  rw [List.indexOf_append_of_not_mem hn, List.indexOf_cons_self, Nat.add_zero]

theorem indexOf_no_dot (I : List Char) (h : ∀ c ∈ I, isDigit c = true) :
    I.indexOf '.' = I.length := by
  have hn : '.' ∉ I := by
    intro hm
    exact absurd (h _ hm) (by decide)
  exact List.indexOf_eq_length.2 hn

end Ieee754

namespace Ieee754

theorem isSignText_iff (s : List Char) :
    isSignText s = true ↔ (s = [] ∨ s = ['+'] ∨ s = ['-']) := by
  simp [isSignText, or_assoc]

theorem wellFormed_unpack (l : DecimalLiteral) (h : l.wellFormed = true) :
    (l.sign = [] ∨ l.sign = ['+'] ∨ l.sign = ['-']) ∧
    (∀ c ∈ l.intPart, isDigit c = true) ∧ (∀ c ∈ l.fracPart, isDigit c = true) ∧
    (l.dot = true ∨ l.fracPart = []) ∧ (l.intPart ≠ [] ∨ l.fracPart ≠ []) ∧
    (∀ letter es ds, l.expo = some (letter, es, ds) →
      (letter = 'e' ∨ letter = 'E') ∧ (es = [] ∨ es = ['+'] ∨ es = ['-']) ∧
      (∀ c ∈ ds, isDigit c = true) ∧ 1 ≤ ds.length ∧ ds.length ≤ 5) := by
  unfold DecimalLiteral.wellFormed at h
  simp only [Bool.and_eq_true, Bool.or_eq_true, List.all_eq_true, decide_eq_true_eq,
    isSignText_iff] at h
  obtain ⟨⟨⟨⟨⟨h1, h2⟩, h3⟩, h4⟩, h5⟩, h6⟩ := h
  refine ⟨h1, h2, h3, h4, ?_, ?_⟩
  · rcases h5 with h5 | h5
    · exact Or.inl h5
    · exact Or.inr h5
  · intro letter es ds he
    rw [he] at h6
    simp only [Bool.and_eq_true, Bool.or_eq_true, List.all_eq_true, decide_eq_true_eq,
      isSignText_iff] at h6
    obtain ⟨⟨⟨⟨a1, a2⟩, a3⟩, a4⟩, a5⟩ := h6
    exact ⟨a1, a2, a3, a4, a5⟩

theorem splitSign_not_sign (a : Char) (t : List Char) (h1 : a ≠ '+') (h2 : a ≠ '-') :
    splitSign (a :: t) = (none, a :: t) := by
  unfold splitSign
  split
  · next h => simp at h; exact absurd h.1 h1
  · next h => simp at h; exact absurd h.1 h2
  · rfl

theorem splitSign_signed (sgn R : List Char) (hs : sgn = [] ∨ sgn = ['+'] ∨ sgn = ['-'])
    (hR : ∀ c, R.head? = some c → c ≠ '+' ∧ c ≠ '-') :
    splitSign (sgn ++ R) = (sgn.head?, R) := by
  rcases hs with rfl | rfl | rfl
  · cases R with
    | nil => rfl
    | cons a t =>
      obtain ⟨h1, h2⟩ := hR a rfl
      exact splitSign_not_sign a t h1 h2
  · rfl
  · rfl

/-- The mantissa text of a literal. -/
theorem mantissa_chars (I F : List Char) (dot : Bool)
    (hI : ∀ c ∈ I, isDigit c = true) (hF : ∀ c ∈ F, isDigit c = true) :
    ∀ c ∈ I ++ (if dot then '.' :: F else []), isDigit c = true ∨ c = '.' := by
  intro c hc
  rcases List.mem_append.1 hc with h | h
  · exact Or.inl (hI c h)
  · cases dot
    · simp at h
    · simp only [if_true, List.mem_cons] at h
      rcases h with h | h
      · exact Or.inr h
      · exact Or.inl (hF c h)

theorem splitDecimal_text (l : DecimalLiteral) (h : l.wellFormed = true) :
    splitDecimal l.text
      = (l.sign.head?, l.intPart ++ (if l.dot then '.' :: l.fracPart else []),
          l.expo.map (fun t => t.2.1 ++ t.2.2)) := by
  obtain ⟨w1, w2, w3, w4, w5, w6⟩ := wellFormed_unpack l h
  have hchars := mantissa_chars l.intPart l.fracPart l.dot w2 w3
  have hp : ∀ c ∈ l.intPart ++ (if l.dot then '.' :: l.fracPart else []),
      (fun c => decide (lower c ≠ 'e')) c = true := by
    intro c hc
    rcases hchars c hc with hd | rfl
    · simp only [decide_eq_true_eq, digit_lower c hd]
      rintro rfl
      exact absurd hd (by decide)
    · decide
  have hhead : ∀ c, (l.intPart ++ (if l.dot then '.' :: l.fracPart else []) ++
      (match l.expo with
       | none => []
       | some (letter, esign, digits) => letter :: (esign ++ digits))).head? = some c →
      c ≠ '+' ∧ c ≠ '-' := by
    intro c hc
    have hmem : c ∈ l.intPart ++ (if l.dot then '.' :: l.fracPart else []) := by
      cases hI : l.intPart with
      | nil =>
        rw [hI] at hc
        have hF : l.fracPart ≠ [] := by
          rcases w5 with h5 | h5
          · exact absurd hI h5
          · exact h5
        have hdot : l.dot = true := by
          rcases w4 with h4 | h4
          · exact h4
          · exact absurd h4 hF
        rw [hdot] at hc ⊢
        simp only [List.nil_append, if_true, List.cons_append, List.head?_cons,
          Option.some.injEq] at hc
        simp [← hc]
      | cons a t =>
        rw [hI] at hc
        simp only [List.cons_append, List.head?_cons, Option.some.injEq] at hc
        simp [← hc]
    rcases hchars c hmem with hd | rfl
    · constructor <;> (rintro rfl; exact absurd hd (by decide))
    · constructor <;> decide
  unfold splitDecimal
  have htext : l.text = l.sign ++ (l.intPart ++ (if l.dot then '.' :: l.fracPart else []) ++
      (match l.expo with
       | none => []
       | some (letter, esign, digits) => letter :: (esign ++ digits))) := by
    unfold DecimalLiteral.text
    simp only [List.append_assoc]
    try rfl
  rw [htext, splitSign_signed _ _ w1 hhead]
  simp only []
  cases he : l.expo with
  | none =>
    simp only [List.append_nil, Option.map_none']
    obtain ⟨t1, t2⟩ := takeWhile_all _ _ hp
    rw [t1, t2]
  | some t =>
    obtain ⟨letter, es, ds⟩ := t
    obtain ⟨a1, _, _, _, _⟩ := w6 letter es ds he
    have hl : (fun c => decide (lower c ≠ 'e')) letter = false := by
      rcases a1 with rfl | rfl <;> decide
    obtain ⟨t1, t2⟩ := takeWhile_stop _ _ (es ++ ds) letter hp hl
    simp only [Option.map_some']
    rw [t1, t2]

end Ieee754

namespace Ieee754

theorem isMantissa_text (I F : List Char) (dot : Bool)
    (hI : ∀ c ∈ I, isDigit c = true) (hF : ∀ c ∈ F, isDigit c = true)
    (hdot : dot = true ∨ F = []) (hne : I ≠ [] ∨ F ≠ []) :
    isMantissa (I ++ (if dot then '.' :: F else [])) = true := by
  unfold isMantissa
  cases dot with
  | false =>
    have hF0 : F = [] := by
      rcases hdot with h | h
      · exact absurd h (by decide)
      · exact h
    have hI0 : I ≠ [] := by
      rcases hne with h | h
      · exact h
      · exact absurd hF0 h
    obtain ⟨t1, t2⟩ := takeWhile_all isDigit I hI
    simp only [Bool.false_eq_true, if_false, List.append_nil, t1, t2]
    simpa using hI0
  | true =>
    obtain ⟨t1, t2⟩ := takeWhile_stop isDigit I F '.' hI (by decide)
    simp only [if_true, t1, t2]
    have : F.all isDigit = true := by simpa using hF
    rw [this]
    rcases hne with h | h <;> simp [h]

theorem isZeroMantissa_chars (m : List Char) (h : isZeroMantissa m = true) :
    ∀ c ∈ m, c = '0' ∨ c = '.' := by
  unfold isZeroMantissa at h
  split at h
  · simp
  · intro c hc
    simp only [List.all_eq_true, decide_eq_true_eq] at h
    simp only [List.mem_cons] at hc
    rcases hc with rfl | rfl | hc
    · exact Or.inl rfl
    · exact Or.inr rfl
    · exact Or.inl (h c hc)
  · intro c hc
    simp only [List.all_eq_true, decide_eq_true_eq] at h
    simp only [List.mem_cons] at hc
    rcases hc with rfl | rfl | hc
    · exact Or.inr rfl
    · exact Or.inl rfl
    · exact Or.inl (h c hc)
  · exact absurd h (by decide)

theorem bigIntOfDigits_all_zero (l : List Char) (h : ∀ c ∈ l, c = '0') : bigIntOfDigits l = 0 := by
  have : l = [] ++ List.replicate l.length '0' := by
    rw [List.nil_append]
    exact List.eq_replicate_iff.2 ⟨rfl, h⟩
  rw [this, bigIntOfDigits_zeros]
  simp [bigIntOfDigits]

theorem zero_mantissa_value (I F : List Char) (dot : Bool)
    (hI : ∀ c ∈ I, isDigit c = true) (hF : ∀ c ∈ F, isDigit c = true)
    (hdot : dot = true ∨ F = [])
    (h : isZeroMantissa (I ++ (if dot then '.' :: F else [])) = true) :
    bigIntOfDigits (I ++ F) = 0 := by
  have hc := isZeroMantissa_chars _ h
  apply bigIntOfDigits_all_zero
  intro c hmem
  have hd : isDigit c = true := by
    rcases List.mem_append.1 hmem with h1 | h1
    · exact hI c h1
    · exact hF c h1
  have hin : c ∈ I ++ (if dot then '.' :: F else []) := by
    rcases List.mem_append.1 hmem with h1 | h1
    · exact List.mem_append_left _ h1
    · rcases hdot with h2 | h2
      · rw [h2]
        exact List.mem_append_right _ (List.mem_cons_of_mem _ h1)
      · rw [h2] at h1
        simp at h1
  rcases hc c hin with rfl | rfl
  · rfl
  · exact absurd hd (by decide)

theorem exponent_text (es ds : List Char) (hes : es = [] ∨ es = ['+'] ∨ es = ['-'])
    (hds : ∀ c ∈ ds, isDigit c = true) (h1 : 1 ≤ ds.length) :
    (∀ n : Nat, ds.length ≤ n → isExponent (some n) (es ++ ds) = true) ∧
    isExponent none (es ++ ds) = true ∧
    parseInt (es ++ ds) = (if es = ['-'] then -bigIntOfDigits ds else bigIntOfDigits ds) := by
  have hne : ds ≠ [] := by
    intro h0; rw [h0] at h1; simp at h1
  have hhead : ∀ c, ds.head? = some c → c ≠ '+' ∧ c ≠ '-' := by
    intro c hc
    have hd := hds c (List.mem_of_mem_head? hc)
    constructor <;> (rintro rfl; exact absurd hd (by decide))
  have hsp := splitSign_signed es ds hes hhead
  have hall : ds.all isDigit = true := by simpa using hds
  refine ⟨?_, ?_, ?_⟩
  · intro n hn
    unfold isExponent
    simp [hsp, hne, hall, hn]
  · unfold isExponent
    simp [hsp, hne, hall]
  · rcases hes with rfl | rfl | rfl
    · obtain ⟨a, t, rfl⟩ := List.exists_cons_of_ne_nil hne
      obtain ⟨g1, g2⟩ := hhead a rfl
      unfold parseInt
      simp only [List.nil_append]
      split
      · next h => simp at h; exact absurd h.1 g2
      · next h => simp at h; exact absurd h.1 g1
      · simp
    · rfl
    · rfl

end Ieee754

namespace Ieee754

theorem head_not_dot (I : List Char) (hI : ∀ c ∈ I, isDigit c = true) : I.head? ≠ some '.' := by
  intro h
  exact absurd (hI _ (List.mem_of_mem_head? h)) (by decide)

theorem written_exponent (l : DecimalLiteral) (hw : l.wellFormed = true) :
    parseInt ((l.expo.map (fun t => t.2.1 ++ t.2.2)).getD ['0'])
      = l.exponent + l.fracPart.length := by
  obtain ⟨_, _, _, _, _, w6⟩ := wellFormed_unpack l hw
  unfold DecimalLiteral.exponent
  cases he : l.expo with
  | none => simp [parseInt, bigIntOfDigits]
  | some t =>
    obtain ⟨letter, es, ds⟩ := t
    obtain ⟨_, a2, a3, a4, _⟩ := w6 letter es ds he
    simp only [Option.map_some', Option.getD_some, (exponent_text es ds a2 a3 a4).2.2]
    ring

/-- The part of `parseDecimal` after the two regular expressions: leading zeros are
dropped, a zero is put before a leading point, trailing zeros after the point are
dropped and the point is folded into the exponent. -/
theorem mantissa_normalised (I F : List Char) (x : Int)
    (hI : ∀ c ∈ I, isDigit c = true) (hF : ∀ c ∈ F, isDigit c = true)
    (hnz : bigIntOfDigits (I ++ F) ≠ 0) :
    ∃ (I1 F1 : List Char),
      (if (List.dropWhile (fun c => decide (c = '0')) (I ++ '.' :: F)).head? = some '.'
        then '0' :: List.dropWhile (fun c => decide (c = '0')) (I ++ '.' :: F)
        else List.dropWhile (fun c => decide (c = '0')) (I ++ '.' :: F)) = I1 ++ '.' :: F ∧
      dropTrailingZeros (I1 ++ '.' :: F) = I1 ++ '.' :: F1 ∧
      (I1 ++ '.' :: F).indexOf '.' = I1.length ∧
      0 < bigIntOfDigits (I1 ++ F1) ∧
      ((bigIntOfDigits (I1 ++ F1) : Int) : ℚ) * (10 : ℚ) ^ (x - F1.length)
        = ((bigIntOfDigits (I ++ F) : Int) : ℚ) * (10 : ℚ) ^ (x - F.length) := by
  have hdw := dropWhile_append_stop (fun c => decide (c = '0')) I F '.' (by decide)
  have hI0 : ∀ c ∈ I.dropWhile (fun c => decide (c = '0')), isDigit c = true :=
    fun c hc => hI c ((List.dropWhile_sublist _).subset hc)
  obtain ⟨k, hk⟩ := dropTrailingZeros_spec F
  have hF1 := dropTrailingZeros_digits F hF
  -- the digits before the point
  have key : ∃ I1 : List Char, (∀ c ∈ I1, isDigit c = true) ∧
      (∀ X, bigIntOfDigits (I1 ++ X) = bigIntOfDigits (I ++ X)) ∧
      (if (List.dropWhile (fun c => decide (c = '0')) (I ++ '.' :: F)).head? = some '.'
        then '0' :: List.dropWhile (fun c => decide (c = '0')) (I ++ '.' :: F)
        else List.dropWhile (fun c => decide (c = '0')) (I ++ '.' :: F)) = I1 ++ '.' :: F := by
    rw [hdw]
    cases h0 : I.dropWhile (fun c => decide (c = '0')) with
    | nil =>
      refine ⟨['0'], by decide, ?_, by simp⟩
      intro X
      have := bigIntOfDigits_dropZeros I X
      rw [h0] at this
      simpa [bigIntOfDigits_cons_zero] using this
    | cons a t =>
      rw [h0] at hI0
      have ha : a ≠ '.' := by
        rintro rfl
        exact absurd (hI0 '.' (by simp)) (by decide)
      refine ⟨a :: t, hI0, ?_, ?_⟩
      · intro X
        have := bigIntOfDigits_dropZeros I X
        rw [h0] at this
        exact this
      · simp [ha]
  obtain ⟨I1, d1, v1, e1⟩ := key
  have hval : bigIntOfDigits (I ++ F) = bigIntOfDigits (I1 ++ dropTrailingZeros F) * 10 ^ k := by
    rw [v1]
    conv_lhs => rw [hk]
    rw [← List.append_assoc, bigIntOfDigits_zeros]
  have hlen : (F.length : Int) = (dropTrailingZeros F).length + k := by
    conv_lhs => rw [hk]
    simp
  have hnn : 0 ≤ bigIntOfDigits (I1 ++ dropTrailingZeros F) := by
    apply bigIntOfDigits_nonneg
    intro c hc
    rcases List.mem_append.1 hc with h | h
    · exact d1 c h
    · exact hF1 c h
  have hne : bigIntOfDigits (I1 ++ dropTrailingZeros F) ≠ 0 := by
    intro h0
    rw [hval, h0, zero_mul] at hnz
    exact hnz rfl
  refine ⟨I1, dropTrailingZeros F, e1, dropTrailingZeros_append_dot I1 F, indexOf_dot I1 F d1,
    lt_of_le_of_ne hnn (Ne.symm hne), ?_⟩
  have h10 : (10 : ℚ) ≠ 0 := by norm_num
  have hpow : (10 : ℚ) ^ (x - ((dropTrailingZeros F).length : Int))
      = (10 : ℚ) ^ k * (10 : ℚ) ^ (x - (((dropTrailingZeros F).length : Int) + (k : Int))) := by
    rw [← zpow_natCast, ← zpow_add₀ h10]
    congr 1
    ring
  rw [hval, hlen, hpow]
  push_cast
  ring

theorem parseDecimal_literal (cfg : Format) (str : List Char) (l : DecimalLiteral)
    (hw : l.wellFormed = true) (ht : trim str = l.text) (hnz : l.mantissaInteger ≠ 0) :
    ∃ (B E : Int), 0 < B ∧ (B : ℚ) * (10 : ℚ) ^ E = l.value ∧
      IEEE.parseDecimal cfg str
        = IEEE.new cfg (fractionTimesPower10 (if l.sign = ['-'] then -B else B) E) := by
  obtain ⟨w1, w2, w3, w4, w5, w6⟩ := wellFormed_unpack l hw
  have hsplit := splitDecimal_text l hw
  have hman := isMantissa_text l.intPart l.fracPart l.dot w2 w3 w4 w5
  have hzero : isZeroMantissa (l.intPart ++ (if l.dot then '.' :: l.fracPart else [])) = false := by
    cases hz : isZeroMantissa (l.intPart ++ (if l.dot then '.' :: l.fracPart else []))
    · rfl
    · exact absurd (zero_mantissa_value _ _ _ w2 w3 w4 hz) hnz
  have hexp : ((l.expo.map (fun t => t.2.1 ++ t.2.2)).isNone
      || (l.expo.map (fun t => t.2.1 ++ t.2.2)).any (isExponent (some 5))) = true := by
    cases he : l.expo with
    | none => rfl
    | some t =>
      obtain ⟨letter, es, ds⟩ := t
      obtain ⟨_, a2, a3, a4, a5⟩ := w6 letter es ds he
      simp [(exponent_text es ds a2 a3 a4).1 5 a5]
  have hsign : (l.sign.head? = some '-') ↔ l.sign = ['-'] := by
    rcases w1 with h | h | h <;> simp [h]
  have hx := written_exponent l hw
  unfold DecimalLiteral.mantissaInteger at hnz
  unfold DecimalLiteral.value DecimalLiteral.mantissaInteger
  unfold IEEE.parseDecimal
  simp only [ht, hsplit, hzero, hman, hexp, Bool.false_and, Bool.false_eq_true, if_false,
    Bool.and_self, Bool.not_true, hsign, hx]
  cases hd : l.dot with
  | false =>
    have hF0 : l.fracPart = [] := by
      rcases w4 with h | h
      · rw [hd] at h; exact absurd h (by decide)
      · exact h
    have hidx := indexOf_no_dot _ (fun c hc => w2 c ((List.dropWhile_sublist _).subset hc) :
      ∀ c ∈ l.intPart.dropWhile (fun c => decide (c = '0')), isDigit c = true)
    have hhead := head_not_dot _ (fun c hc => w2 c ((List.dropWhile_sublist _).subset hc) :
      ∀ c ∈ l.intPart.dropWhile (fun c => decide (c = '0')), isDigit c = true)
    have hv := bigIntOfDigits_dropZeros l.intPart []
    simp only [List.append_nil] at hv
    rw [hF0] at hnz ⊢
    simp only [List.append_nil] at hnz
    have hnn := bigIntOfDigits_nonneg l.intPart w2
    simp only [Bool.false_eq_true, if_false, List.append_nil, hhead, hidx, lt_irrefl, hv,
      List.length_nil, Nat.cast_zero, add_zero, sub_zero]
    exact ⟨bigIntOfDigits l.intPart, l.exponent, lt_of_le_of_ne hnn (Ne.symm hnz), rfl, rfl⟩
  | true =>
    obtain ⟨I1, F1, e1, e2, e3, e4, e5⟩ := mantissa_normalised l.intPart l.fracPart
      (l.exponent + l.fracPart.length) w2 w3 hnz
    have hlt : I1.length < (I1 ++ '.' :: l.fracPart).length := by
      simp
    have htake : (I1 ++ '.' :: F1).take I1.length = I1 := List.take_left _ _
    have hdrop : (I1 ++ '.' :: F1).drop (I1.length + 1) = F1 := by
      have : I1 ++ '.' :: F1 = (I1 ++ ['.']) ++ F1 := by simp
      rw [this]
      have hl : I1.length + 1 = (I1 ++ ['.']).length := by simp
      rw [hl]
      exact List.drop_left _ _
    have hlen : (((I1 ++ '.' :: F1).length : Nat) : Int) - (I1.length : Int) - 1 = F1.length := by
      simp only [List.length_append, List.length_cons]
      push_cast
      ring
    simp only [if_true, e1, e2, e3, hlt, htake, hdrop, hlen]
    refine ⟨bigIntOfDigits (I1 ++ F1), l.exponent + l.fracPart.length - F1.length, e4, ?_, rfl⟩
    rw [e5]
    congr 2
    ring

theorem parseDecimal_literal_value (size : Nat) (str : List Char) (l : DecimalLiteral)
    (hw : l.wellFormed = true) (ht : trim str = l.text) (hnz : l.mantissaInteger ≠ 0) :
    0 < l.value ∧
    (IEEE.parseDecimal (switchBitSize size) str).nan = false ∧
    (IEEE.parseDecimal (switchBitSize size) str).inf = false ∧
    (IEEE.parseDecimal (switchBitSize size) str).minus = decide (l.sign = ['-']) ∧
    0 < (IEEE.parseDecimal (switchBitSize size) str).val.den ∧
    (IEEE.parseDecimal (switchBitSize size) str).val.toRat
      = if l.value ≤ (switchBitSize size).smallestPositiveHalved.toRat then 0 else l.value := by
  obtain ⟨B, E, hB, hval, hp⟩ := parseDecimal_literal (switchBitSize size) str l hw ht hnz
  obtain ⟨f1, f2⟩ := fractionTimesPower10_spec (if l.sign = ['-'] then -B else B) E
  obtain ⟨n1, n2, n3, n4, n5⟩ := IEEE_new_spec size _ f1
  have hBq : (0 : ℚ) < (B : ℚ) := by exact_mod_cast hB
  have hpos : 0 < l.value := by
    rw [← hval]
    positivity
  rw [hp]
  rw [f2] at n3 n5
  refine ⟨hpos, n1, n2, ?_, n4, ?_⟩
  · by_cases hs : l.sign = ['-']
    · simp only [hs, if_true, decide_True] at n3 ⊢
      apply n3.2
      push_cast
      rw [neg_mul, hval]
      linarith
    · simp only [hs, if_false, decide_False] at n3 ⊢
      cases hm : (IEEE.new (switchBitSize size) (fractionTimesPower10 B E)).minus
      · rfl
      · have := n3.1 hm
        rw [hval] at this
        linarith
  · have habs : |(((if l.sign = ['-'] then -B else B : Int) : ℚ)) * (10 : ℚ) ^ E| = l.value := by
      by_cases hs : l.sign = ['-']
      · simp only [hs, if_true]
        push_cast
        rw [neg_mul, abs_neg, hval, abs_of_pos hpos]
      · simp only [hs, if_false]
        rw [hval, abs_of_pos hpos]
    rw [n5, habs]

/-- C16: `IEEE.parseDecimal` on a decimal literal. For every width and every string that
after trimming is the text of a well-formed literal `[sign]? (digits[.digits] | .digits)
[E[sign]digits]` (one to five exponent digits) whose mantissa digits are not all zero,
the result is neither NaN nor infinite, `minus` is set iff the sign is `-`, and the
magnitude is `mantissaInteger * 10^exponent`, or zero when that number is at most
`smallestPositiveHalved`. -/
theorem parseDecimal_value (size : Nat) (str : List Char) (l : DecimalLiteral)
    (hw : l.wellFormed = true) (ht : trim str = l.text) (hnz : l.mantissaInteger ≠ 0) :
    (IEEE.parseDecimal (switchBitSize size) str).nan = false ∧
    (IEEE.parseDecimal (switchBitSize size) str).inf = false ∧
    ((IEEE.parseDecimal (switchBitSize size) str).minus = true ↔ l.sign = ['-']) ∧
    (IEEE.parseDecimal (switchBitSize size) str).val.toRat
      = if (l.mantissaInteger : ℚ) * (10 : ℚ) ^ l.exponent
            ≤ (switchBitSize size).smallestPositiveHalved.toRat then 0
        else (l.mantissaInteger : ℚ) * (10 : ℚ) ^ l.exponent := by
  obtain ⟨_, h1, h2, h3, _, h5⟩ := parseDecimal_literal_value size str l hw ht hnz
  refine ⟨h1, h2, ?_, h5⟩
  rw [h3]
  simp

theorem parseDecimal_value_witness :
    (IEEE.parseDecimal (switchBitSize 64) " -012.50e-3".toList).nan = false ∧
    (IEEE.parseDecimal (switchBitSize 64) " -012.50e-3".toList).inf = false ∧
    ((IEEE.parseDecimal (switchBitSize 64) " -012.50e-3".toList).minus = true ↔
      (DecimalLiteral.mk ['-'] ['0', '1', '2'] true ['5', '0'] (some ('e', ['-'], ['3']))).sign
        = ['-']) ∧
    (IEEE.parseDecimal (switchBitSize 64) " -012.50e-3".toList).val.toRat
      = if ((DecimalLiteral.mk ['-'] ['0', '1', '2'] true ['5', '0']
              (some ('e', ['-'], ['3']))).mantissaInteger : ℚ)
            * (10 : ℚ) ^ (DecimalLiteral.mk ['-'] ['0', '1', '2'] true ['5', '0']
              (some ('e', ['-'], ['3']))).exponent
            ≤ (switchBitSize 64).smallestPositiveHalved.toRat then 0
        else ((DecimalLiteral.mk ['-'] ['0', '1', '2'] true ['5', '0']
              (some ('e', ['-'], ['3']))).mantissaInteger : ℚ)
            * (10 : ℚ) ^ (DecimalLiteral.mk ['-'] ['0', '1', '2'] true ['5', '0']
              (some ('e', ['-'], ['3']))).exponent :=
  parseDecimal_value 64 " -012.50e-3".toList
    (DecimalLiteral.mk ['-'] ['0', '1', '2'] true ['5', '0'] (some ('e', ['-'], ['3'])))
    (by decide) (by decide) (by decide)

end Ieee754

namespace Ieee754

/-! ## Digits of numbers -/

theorem digitChar_facts (m : Nat) (h : m < 10) :
    isDigit (Nat.digitChar m) = true ∧ ((Nat.digitChar m).toNat : Int) - 48 = m := by
  interval_cases m <;> decide

theorem toDigitsCore_spec : ∀ (fuel n : Nat) (ds : List Char), n < fuel →
    ∃ L : List Char, Nat.toDigitsCore 10 fuel n ds = L ++ ds ∧
      (∀ c ∈ L, isDigit c = true) ∧ bigIntOfDigits L = n ∧ 1 ≤ L.length ∧
      (∀ j : Nat, 1 ≤ j → n < 10 ^ j → L.length ≤ j) := by
  intro fuel
  induction fuel with
  | zero => intro n ds h; omega
  | succ fuel ih =>
    intro n ds hn
    obtain ⟨d1, d2⟩ := digitChar_facts (n % 10) (Nat.mod_lt _ (by norm_num))
    unfold Nat.toDigitsCore
    simp only []
    split
    · next h0 =>
      have hlt : n < 10 := by omega
      refine ⟨[Nat.digitChar (n % 10)], rfl, ?_, ?_, by simp, ?_⟩
      · intro c hc
        simp only [List.mem_singleton] at hc
        rw [hc]; exact d1
      · have : bigIntOfDigits [Nat.digitChar (n % 10)]
            = 10 * 0 + (((Nat.digitChar (n % 10)).toNat : Int) - 48) := rfl
        rw [this, d2]
        have : n % 10 = n := Nat.mod_eq_of_lt hlt
        rw [this]
        simp
      · intro j hj _
        simpa using hj
    · next h0 =>
      have hlt : n / 10 < fuel := by omega
      obtain ⟨L, e1, e2, e3, e4, e5⟩ := ih (n / 10) (Nat.digitChar (n % 10) :: ds) hlt
      refine ⟨L ++ [Nat.digitChar (n % 10)], ?_, ?_, ?_, ?_, ?_⟩
      · rw [e1]; simp
      · intro c hc
        rcases List.mem_append.1 hc with h | h
        · exact e2 c h
        · simp only [List.mem_singleton] at h
          rw [h]; exact d1
      · rw [bigIntOfDigits_snoc, e3, d2]
        have := Nat.div_add_mod n 10
        omega
      · simp
      · intro j hj hnj
        have hj2 : 2 ≤ j := by
          by_contra hc
          have : j = 1 := by omega
          rw [this] at hnj
          omega
        have : n / 10 < 10 ^ (j - 1) := by
          have hpow : 10 ^ j = 10 ^ (j - 1) * 10 := by
            rw [← pow_succ]
            congr 1
            omega
          rw [hpow] at hnj
          exact Nat.div_lt_of_lt_mul (by rw [Nat.mul_comm]; exact hnj)
        have := e5 (j - 1) (by omega) this
        simp only [List.length_append, List.length_singleton]
        omega

theorem toDigits_spec (n : Nat) :
    (∀ c ∈ Nat.toDigits 10 n, isDigit c = true) ∧ bigIntOfDigits (Nat.toDigits 10 n) = n ∧
    1 ≤ (Nat.toDigits 10 n).length ∧
    (∀ j : Nat, 1 ≤ j → n < 10 ^ j → (Nat.toDigits 10 n).length ≤ j) := by
  obtain ⟨L, e1, e2, e3, e4, e5⟩ := toDigitsCore_spec (n + 1) n [] (Nat.lt_succ_self n)
  unfold Nat.toDigits
  rw [e1, List.append_nil]
  exact ⟨e2, e3, e4, e5⟩

theorem joinDigits_append (a b : List Nat) : joinDigits (a ++ b) = joinDigits a ++ joinDigits b := by
  simp [joinDigits]

theorem joinDigits_spec (d : List Nat) (h9 : ∀ x ∈ d, x ≤ 9) :
    (∀ c ∈ joinDigits d, isDigit c = true) ∧ (joinDigits d).length = d.length := by
  induction d with
  | nil => simp [joinDigits]
  | cons a t ih =>
    obtain ⟨i1, i2⟩ := ih (fun x hx => h9 x (List.mem_cons_of_mem _ hx))
    obtain ⟨t1, _, t3, t4⟩ := toDigits_spec a
    have ha : a < 10 ^ 1 := by
      have := h9 a (by simp)
      omega
    have hlen : (Nat.toDigits 10 a).length = 1 := le_antisymm (t4 1 le_rfl ha) t3
    have hj : joinDigits (a :: t) = Nat.toDigits 10 a ++ joinDigits t := by
      simp [joinDigits]
    rw [hj]
    constructor
    · intro c hc
      rcases List.mem_append.1 hc with h | h
      · exact t1 c h
      · exact i1 c h
    · rw [List.length_append, hlen, i2, List.length_cons]
      omega

theorem decFromList_spec (L : List Nat) (k : Int) :
    0 < (decFromList L k).den ∧
    (decFromList L k).toRat
      = (bigIntOfDigits (joinDigits L) : ℚ) * (10 : ℚ) ^ (k - L.length) := by
  unfold decFromList
  simp only []
  split
  · next h =>
    rw [Fraction.ofInt_eq, bigIntOfDigits_zeros]
    refine ⟨Int.one_pos, ?_⟩
    simp only [Fraction.toRat, Int.cast_one, div_one]
    push_cast
    rw [← zpow_natCast, Int.toNat_of_nonneg h]
  · next h =>
    have hk : 0 ≤ -(k - (L.length : Int)) := by omega
    have hpos : (0 : Int) < ((10 ^ (-(k - (L.length : Int))).toNat : Nat) : Int) := by positivity
    refine ⟨Fraction.new_den_pos _ _ hpos, ?_⟩
    rw [Fraction.new_toRat _ _ hpos.ne', pow10_cast _ hk, zpow_neg]
    field_simp

end Ieee754

namespace Ieee754

/-! ## `decimalString` writes literals -/

theorem wellFormed_pack (l : DecimalLiteral)
    (h1 : l.sign = [] ∨ l.sign = ['+'] ∨ l.sign = ['-'])
    (h2 : ∀ c ∈ l.intPart, isDigit c = true) (h3 : ∀ c ∈ l.fracPart, isDigit c = true)
    (h4 : l.dot = true ∨ l.fracPart = []) (h5 : l.intPart ≠ [] ∨ l.fracPart ≠ [])
    (h6 : ∀ letter es ds, l.expo = some (letter, es, ds) →
      (letter = 'e' ∨ letter = 'E') ∧ (es = [] ∨ es = ['+'] ∨ es = ['-']) ∧
      (∀ c ∈ ds, isDigit c = true) ∧ 1 ≤ ds.length ∧ ds.length ≤ 5) :
    l.wellFormed = true := by
  unfold DecimalLiteral.wellFormed
  simp only [Bool.and_eq_true, Bool.or_eq_true, List.all_eq_true, decide_eq_true_eq,
    isSignText_iff]
  refine ⟨⟨⟨⟨⟨h1, h2⟩, h3⟩, h4⟩, ?_⟩, ?_⟩
  · rcases h5 with h | h
    · exact Or.inl (by simpa using h)
    · exact Or.inr (by simpa using h)
  · cases he : l.expo with
    | none => rfl
    | some t =>
      obtain ⟨letter, es, ds⟩ := t
      obtain ⟨a1, a2, a3, a4, a5⟩ := h6 letter es ds he
      simp only [Bool.and_eq_true, Bool.or_eq_true, List.all_eq_true, decide_eq_true_eq,
        isSignText_iff]
      exact ⟨⟨⟨⟨a1, a2⟩, a3⟩, a4⟩, a5⟩

theorem literal_text_trim (l : DecimalLiteral) (hw : l.wellFormed = true) :
    trim l.text = l.text := by
  obtain ⟨w1, w2, w3, _, _, w6⟩ := wellFormed_unpack l hw
  have hall : ∀ c ∈ l.text, isSpace c = false := by
    intro c hc
    unfold DecimalLiteral.text at hc
    simp only [List.mem_append] at hc
    rcases hc with ((hc | hc) | hc) | hc
    · rcases w1 with h | h | h <;> rw [h] at hc <;> simp at hc <;> (rw [hc]; decide)
    · exact digit_not_space c (w2 c hc)
    · split at hc
      · simp only [List.mem_cons] at hc
        rcases hc with rfl | hc
        · decide
        · exact digit_not_space c (w3 c hc)
      · simp at hc
    · cases he : l.expo with
      | none => rw [he] at hc; simp at hc
      | some t =>
        obtain ⟨letter, es, ds⟩ := t
        obtain ⟨a1, a2, a3, _, _⟩ := w6 letter es ds he
        rw [he] at hc
        simp only [List.mem_cons, List.mem_append] at hc
        rcases hc with rfl | hc | hc
        · rcases a1 with rfl | rfl <;> decide
        · rcases a2 with h | h | h <;> rw [h] at hc <;> simp at hc <;> (rw [hc]; decide)
        · exact digit_not_space c (a3 c hc)
  apply trim_eq_self
  · intro c hc
    exact hall c (List.mem_of_mem_head? hc)
  · intro c hc
    exact hall c (List.mem_of_mem_getLast? hc)

theorem bigIntOfDigits_leading_zeros (m : Nat) (X : List Char) :
    bigIntOfDigits (List.replicate m '0' ++ X) = bigIntOfDigits X := by
  induction m with
  | zero => rfl
  | succ m ih =>
    rw [List.replicate_succ, List.cons_append, bigIntOfDigits_cons_zero, ih]

theorem foldl_digits_pos (l : List Char) (hl : ∀ c ∈ l, isDigit c = true) :
    ∀ v : Int, 0 < v → 0 < l.foldl (fun v c => 10 * v + ((c.toNat : Int) - 48)) v := by
  induction l with
  | nil => intro v hv; exact hv
  | cons a t ih =>
    intro v hv
    have := digit_value a (hl a (by simp))
    have hpos : 0 < 10 * v + ((a.toNat : Int) - 48) := by omega
    exact ih (fun c hc => hl c (List.mem_cons_of_mem _ hc)) _ hpos

theorem joinDigits_pos (d : List Nat) (hd : d ≠ []) (h9 : ∀ x ∈ d, x ≤ 9)
    (h0 : d.head? ≠ some 0) : 0 < bigIntOfDigits (joinDigits d) := by
  obtain ⟨a, t, rfl⟩ := List.exists_cons_of_ne_nil hd
  have ha : a ≠ 0 := by
    intro h; apply h0; rw [h]; rfl
  have hj : joinDigits (a :: t) = Nat.toDigits 10 a ++ joinDigits t := by
    simp [joinDigits]
  obtain ⟨_, t2, _, _⟩ := toDigits_spec a
  obtain ⟨j1, _⟩ := joinDigits_spec t (fun x hx => h9 x (List.mem_cons_of_mem _ hx))
  rw [hj, bigIntOfDigits_append]
  apply foldl_digits_pos _ j1
  rw [t2]
  exact_mod_cast Nat.pos_of_ne_zero ha

end Ieee754

namespace Ieee754

theorem literal_plain_integer (sgn : List Char) (J : List Char) (n : Nat)
    (hs : sgn = [] ∨ sgn = ['+'] ∨ sgn = ['-']) (hJ : ∀ c ∈ J, isDigit c = true) (hne : J ≠ []) :
    (DecimalLiteral.mk sgn (J ++ List.replicate n '0') true ['0'] none).wellFormed = true ∧
    (DecimalLiteral.mk sgn (J ++ List.replicate n '0') true ['0'] none).text
      = sgn ++ J ++ List.replicate n '0' ++ ['.', '0'] ∧
    (DecimalLiteral.mk sgn (J ++ List.replicate n '0') true ['0'] none).value
      = (bigIntOfDigits J : ℚ) * (10 : ℚ) ^ (n : Int) := by
  refine ⟨?_, ?_, ?_⟩
  · apply wellFormed_pack
    · exact hs
    · intro c hc
      rcases List.mem_append.1 hc with h | h
      · exact hJ c h
      · rw [List.eq_of_mem_replicate h]; decide
    · intro c hc
      have : c = '0' := by simpa using hc
      rw [this]; decide
    · exact Or.inl rfl
    · left
      intro h
      exact hne (List.append_eq_nil.1 h).1
    · intro letter es ds he
      exact absurd he (by simp)
  · simp [DecimalLiteral.text]
  · unfold DecimalLiteral.value DecimalLiteral.mantissaInteger DecimalLiteral.exponent
    simp only [bigIntOfDigits_snoc, bigIntOfDigits_zeros, List.length_singleton]
    have h10 : (10 : ℚ) ≠ 0 := by norm_num
    push_cast
    rw [zpow_neg_one, zpow_natCast]
    field_simp

theorem literal_plain_fraction (sgn : List Char) (J : List Char) (m : Nat)
    (hs : sgn = [] ∨ sgn = ['+'] ∨ sgn = ['-']) (hJ : ∀ c ∈ J, isDigit c = true) :
    (DecimalLiteral.mk sgn ['0'] true (List.replicate m '0' ++ J) none).wellFormed = true ∧
    (DecimalLiteral.mk sgn ['0'] true (List.replicate m '0' ++ J) none).text
      = sgn ++ ['0', '.'] ++ List.replicate m '0' ++ J ∧
    (DecimalLiteral.mk sgn ['0'] true (List.replicate m '0' ++ J) none).value
      = (bigIntOfDigits J : ℚ) * (10 : ℚ) ^ (-(m : Int) - J.length) := by
  refine ⟨?_, ?_, ?_⟩
  · apply wellFormed_pack
    · exact hs
    · intro c hc
      have : c = '0' := by simpa using hc
      rw [this]; decide
    · intro c hc
      rcases List.mem_append.1 hc with h | h
      · rw [List.eq_of_mem_replicate h]; decide
      · exact hJ c h
    · exact Or.inl rfl
    · left
      simp
    · intro letter es ds he
      exact absurd he (by simp)
  · simp [DecimalLiteral.text]
  · unfold DecimalLiteral.value DecimalLiteral.mantissaInteger DecimalLiteral.exponent
    simp only [List.singleton_append, bigIntOfDigits_cons_zero, bigIntOfDigits_leading_zeros,
      List.length_append, List.length_replicate]
    congr 2
    push_cast
    ring

theorem literal_scientific (sgn : List Char) (d : List Nat) (k i : Int)
    (hs : sgn = [] ∨ sgn = ['+'] ∨ sgn = ['-']) (h9 : ∀ x ∈ d, x ≤ 9)
    (hi1 : 1 ≤ i) (hi2 : i ≤ d.length) (hr1 : -99999 ≤ k - i) (hr2 : k - i ≤ 99999) :
    ∃ l : DecimalLiteral, l.wellFormed = true ∧ l.sign = sgn ∧
      l.text = (if k ≠ i then
          (if i < d.length then sgn ++ joinDigits (d.take i.toNat) ++ ['.']
              ++ joinDigits (d.drop i.toNat)
            else sgn ++ joinDigits (d.take i.toNat)) ++ ['E'] ++ intChars (k - i)
        else
          (if i < d.length then sgn ++ joinDigits (d.take i.toNat) ++ ['.']
              ++ joinDigits (d.drop i.toNat)
            else sgn ++ joinDigits (d.take i.toNat))) ∧
      l.value = (bigIntOfDigits (joinDigits d) : ℚ) * (10 : ℚ) ^ (k - d.length) := by
  have hin : i.toNat ≤ d.length := by omega
  have hipos : 1 ≤ i.toNat := by omega
  obtain ⟨jt1, jt2⟩ := joinDigits_spec (d.take i.toNat)
    (fun x hx => h9 x (List.mem_of_mem_take hx))
  obtain ⟨jd1, jd2⟩ := joinDigits_spec (d.drop i.toNat)
    (fun x hx => h9 x (List.mem_of_mem_drop hx))
  have hjoin : joinDigits (d.take i.toNat) ++ joinDigits (d.drop i.toNat) = joinDigits d := by
    rw [← joinDigits_append, List.take_append_drop]
  have htake_ne : joinDigits (d.take i.toNat) ≠ [] := by
    intro h0
    have := congrArg List.length h0
    rw [jt2, List.length_take] at this
    simp only [List.length_nil] at this
    omega
  have hdroplen : ((joinDigits (d.drop i.toNat)).length : Int) = d.length - i := by
    rw [jd2, List.length_drop]
    omega
  have hdrop_nil : ¬ i < d.length → joinDigits (d.drop i.toNat) = [] := by
    intro h
    have : (joinDigits (d.drop i.toNat)).length = 0 := by
      have := hdroplen
      omega
    exact List.length_eq_zero.1 this
  obtain ⟨a1, a2, a3, a4⟩ := toDigits_spec (k - i).natAbs
  have habs : (k - i).natAbs < 10 ^ 5 := by omega
  have hlen5 := a4 5 (by norm_num) habs
  have htonat : 0 ≤ k - i → (k - i).toNat = (k - i).natAbs := by
    intro h; omega
  by_cases hk : k ≠ i
  · refine ⟨⟨sgn, joinDigits (d.take i.toNat), decide (i < d.length),
      joinDigits (d.drop i.toNat),
      some ('E', (if k - i < 0 then ['-'] else []), Nat.toDigits 10 (k - i).natAbs)⟩,
      ?_, rfl, ?_, ?_⟩
    · apply wellFormed_pack
      · exact hs
      · exact jt1
      · exact jd1
      · by_cases h : i < d.length
        · left; simp [h]
        · right; exact hdrop_nil h
      · exact Or.inl htake_ne
      · intro letter es ds he
        simp only [Option.some.injEq, Prod.mk.injEq] at he
        obtain ⟨rfl, rfl, rfl⟩ := he
        refine ⟨Or.inr rfl, ?_, a1, a3, hlen5⟩
        split
        · exact Or.inr (Or.inr rfl)
        · exact Or.inl rfl
    · rw [if_pos hk]
      unfold DecimalLiteral.text intChars
      by_cases h : i < d.length <;> by_cases h2 : k - i < 0
      · simp [h, h2]
      · simp [h, h2, htonat (not_lt.1 h2)]
      · simp [h, h2]
      · simp [h, h2, htonat (not_lt.1 h2)]
    · unfold DecimalLiteral.value DecimalLiteral.mantissaInteger DecimalLiteral.exponent
      simp only [hjoin, a2, hdroplen]
      congr 2
      by_cases h2 : k - i < 0
      · simp only [h2, if_true]
        have : ((k - i).natAbs : Int) = -(k - i) := by omega
        rw [this]
        ring
      · simp only [h2, if_false]
        have h3 : ¬ (([] : List Char) = ['-']) := by simp
        simp only [h3, if_false]
        have : ((k - i).natAbs : Int) = k - i := by omega
        rw [this]
        ring
  · have hki : k = i := not_not.1 hk
    refine ⟨⟨sgn, joinDigits (d.take i.toNat), decide (i < d.length),
      joinDigits (d.drop i.toNat), none⟩, ?_, rfl, ?_, ?_⟩
    · apply wellFormed_pack
      · exact hs
      · exact jt1
      · exact jd1
      · by_cases h : i < d.length
        · left; simp [h]
        · right; exact hdrop_nil h
      · exact Or.inl htake_ne
      · intro letter es ds he
        exact absurd he (by simp)
    · rw [if_neg hk]
      unfold DecimalLiteral.text
      by_cases h : i < d.length
      · simp [h]
      · simp [h]
    · unfold DecimalLiteral.value DecimalLiteral.mantissaInteger DecimalLiteral.exponent
      simp only [hjoin, hdroplen]
      congr 2
      rw [hki]
      ring

theorem decimalChars_literal (cfg : Format) (minus : Bool) (k : Int) (d : List Nat)
    (hd : d ≠ []) (h9 : ∀ x ∈ d, x ≤ 9) (hk1 : -99998 ≤ k) (hk2 : k ≤ 99999) :
    ∃ l : DecimalLiteral, l.wellFormed = true ∧ l.sign = (if minus then ['-'] else []) ∧
      l.text = decimalChars cfg minus k d ∧
      l.value = (bigIntOfDigits (joinDigits d) : ℚ) * (10 : ℚ) ^ (k - d.length) ∧
      ((((d.length : Int) ≤ k ∧ k < (if cfg.numberOfBits = 16 then (5 : Int)
            else if cfg.numberOfBits = 32 then 9
            else if cfg.numberOfBits = 128 then 36 else 17)) ∨
        (k < 1 ∧ (d.length : Int) - k ≤ (if cfg.numberOfBits = 16 then (5 : Int)
            else if cfg.numberOfBits = 32 then 9
            else if cfg.numberOfBits = 128 then 36 else 17))) → l.expo = none) := by
  have hs : (if minus then ['-'] else ([] : List Char)) = [] ∨
      (if minus then ['-'] else ([] : List Char)) = ['+'] ∨
      (if minus then ['-'] else ([] : List Char)) = ['-'] := by
    cases minus
    · exact Or.inl rfl
    · exact Or.inr (Or.inr rfl)
  obtain ⟨j1, j2⟩ := joinDigits_spec d h9
  have hlen : 1 ≤ d.length := by
    cases d with
    | nil => exact absurd rfl hd
    | cons a t => simp
  have hJne : joinDigits d ≠ [] := by
    intro h0
    have := congrArg List.length h0
    rw [j2] at this
    simp only [List.length_nil] at this
    omega
  unfold decimalChars
  simp only []
  generalize (if cfg.numberOfBits = 16 then (5 : Int)
    else if cfg.numberOfBits = 32 then 9
    else if cfg.numberOfBits = 128 then 36 else 17) = T
  by_cases c1 : (d.length : Int) ≤ k ∧ k < T
  · obtain ⟨p1, p2, p3⟩ := literal_plain_integer (if minus then ['-'] else [])
      (joinDigits d) (k - d.length).toNat hs j1 hJne
    refine ⟨_, p1, rfl, ?_, ?_, fun _ => rfl⟩
    · rw [p2, if_pos c1]
    · rw [p3, Int.toNat_of_nonneg (by omega)]
  · by_cases c2 : k < 1 ∧ (d.length : Int) - k ≤ T
    · obtain ⟨p1, p2, p3⟩ := literal_plain_fraction (if minus then ['-'] else [])
        (joinDigits d) (-k).toNat hs j1
      refine ⟨_, p1, rfl, ?_, ?_, fun _ => rfl⟩
      · rw [p2, if_neg c1, if_pos c2]
      · rw [p3, j2, Int.toNat_of_nonneg (by omega)]
        congr 2
        ring
    · obtain ⟨i, hi, hi1, hi2, hr1, hr2⟩ : ∃ i : Int,
          (if 1 ≤ k ∧ k < (d.length : Int) then k else 1) = i ∧ 1 ≤ i ∧ i ≤ d.length ∧
          -99999 ≤ k - i ∧ k - i ≤ 99999 := by
        by_cases h : 1 ≤ k ∧ k < (d.length : Int)
        · exact ⟨k, if_pos h, h.1, le_of_lt h.2, by omega, by omega⟩
        · exact ⟨1, if_neg h, le_rfl, by omega, by omega, by omega⟩
      obtain ⟨l, q1, q2, q3, q4⟩ := literal_scientific (if minus then ['-'] else []) d k i hs h9
        hi1 hi2 hr1 hr2
      refine ⟨l, q1, q2, ?_, q4, ?_⟩
      · rw [q3, if_neg c1, if_neg c2, hi]
      · intro h
        rcases h with h | h
        · exact absurd h c1
        · exact absurd h c2

/-- C26: `decimalString` writes its digit list as a literal of the same value. For each
of the widths 16, 32, 64 and 128, every sign flag, every non-empty list `d` of digits
`0..9` whose first digit is not zero, and every `k` with `-99998 <= k <= 99999`: the
string is the text of a well-formed decimal literal (an exponent of at most five digits)
whose sign is `-` iff `minus` and whose value is `decFromList(d, k)`; it has no exponent
part whenever `d.length <= k < size` or `k < 1` and `d.length - k <= size`, with `size`
being 5, 9, 17, 36; and `IEEE.parseDecimal` reads the string as a finite value with that
sign and that magnitude (zero when the magnitude is at most `smallestPositiveHalved`). -/
theorem decimalString_literal (size : Nat)
    (hsize : size = 16 ∨ size = 32 ∨ size = 64 ∨ size = 128)
    (minus : Bool) (k : Int) (d : List Nat)
    (hd : d ≠ []) (h9 : ∀ x ∈ d, x ≤ 9) (h0 : d.head? ≠ some 0)
    (hk1 : -99998 ≤ k) (hk2 : k ≤ 99999) :
    (∃ l : DecimalLiteral, l.wellFormed = true ∧
      l.text = (decimalString (switchBitSize size) minus k d).toList ∧
      (l.sign = ['-'] ↔ minus = true) ∧ l.value = (decFromList d k).toRat ∧
      ((((d.length : Int) ≤ k ∧
          k < (if size = 16 then (5 : Int) else if size = 32 then 9
                else if size = 64 then 17 else 36)) ∨
        (k < 1 ∧ (d.length : Int) - k ≤ (if size = 16 then (5 : Int) else if size = 32 then 9
                else if size = 64 then 17 else 36))) → l.expo = none)) ∧
    (IEEE.parseDecimal (switchBitSize size)
        (decimalString (switchBitSize size) minus k d).toList).nan = false ∧
    (IEEE.parseDecimal (switchBitSize size)
        (decimalString (switchBitSize size) minus k d).toList).inf = false ∧
    (IEEE.parseDecimal (switchBitSize size)
        (decimalString (switchBitSize size) minus k d).toList).minus = minus ∧
    (IEEE.parseDecimal (switchBitSize size)
        (decimalString (switchBitSize size) minus k d).toList).val.toRat
      = (if (decFromList d k).toRat ≤ (switchBitSize size).smallestPositiveHalved.toRat then 0
          else (decFromList d k).toRat) := by
  obtain ⟨l, q1, q2, q3, q4, q5⟩ :=
    decimalChars_literal (switchBitSize size) minus k d hd h9 hk1 hk2
  obtain ⟨_, dv⟩ := decFromList_spec d k
  have hN := joinDigits_pos d hd h9 h0
  have hstr : (decimalString (switchBitSize size) minus k d).toList
      = decimalChars (switchBitSize size) minus k d := rfl
  have hval : l.value = (decFromList d k).toRat := by rw [q4, dv]
  have hnz : l.mantissaInteger ≠ 0 := by
    intro hz
    have hv : l.value = 0 := by
      unfold DecimalLiteral.value
      rw [hz]
      simp
    rw [q4] at hv
    have hNq : (0 : ℚ) < (bigIntOfDigits (joinDigits d) : ℚ) := by exact_mod_cast hN
    have : (0 : ℚ) < (bigIntOfDigits (joinDigits d) : ℚ) * (10 : ℚ) ^ (k - (d.length : Int)) := by
      positivity
    linarith
  have hsign : (l.sign = ['-'] ↔ minus = true) := by
    rw [q2]
    cases minus <;> simp
  obtain ⟨_, r1, r2, r3, _, r5⟩ := parseDecimal_literal_value size
    (decimalString (switchBitSize size) minus k d).toList l q1
    (by rw [hstr, ← q3]; exact literal_text_trim l q1) hnz
  refine ⟨⟨l, q1, by rw [hstr, q3], hsign, hval, ?_⟩, r1, r2, ?_, ?_⟩
  · intro h
    apply q5
    obtain ⟨f1, _, _, _⟩ := supported_format size hsize
    rw [f1]
    rcases hsize with rfl | rfl | rfl | rfl <;> simpa using h
  · rw [r3]
    cases minus
    · simp [q2]
    · simp [q2]
  · rw [r5, hval]

theorem decimalString_literal_witness :
    (IEEE.parseDecimal (switchBitSize 16)
        (decimalString (switchBitSize 16) true (-3) [1, 2, 5]).toList).minus = true ∧
    (IEEE.parseDecimal (switchBitSize 16)
        (decimalString (switchBitSize 16) true (-3) [1, 2, 5]).toList).val.toRat
      = (if (decFromList [1, 2, 5] (-3)).toRat ≤ (switchBitSize 16).smallestPositiveHalved.toRat
          then 0 else (decFromList [1, 2, 5] (-3)).toRat) :=
  ⟨(decimalString_literal 16 (by decide) true (-3) [1, 2, 5] (by decide) (by decide)
      (by decide) (by decide) (by decide)).2.2.2.1,
   (decimalString_literal 16 (by decide) true (-3) [1, 2, 5] (by decide) (by decide)
      (by decide) (by decide) (by decide)).2.2.2.2⟩

/-- C26, at the lower end of `|k| < 10^5`: for `k = -99999` and the digit list `[1]` the
string is `1E-100000`, whose exponent has six digits, and `IEEE.parseDecimal` reads it as
NaN. -/
theorem decimalString_exponent_too_long :
    decimalString (switchBitSize 16) false (-99999) [1] = "1E-100000" ∧
    IEEE.parseDecimal (switchBitSize 16)
      (decimalString (switchBitSize 16) false (-99999) [1]).toList
      = IEEE.newNaN (switchBitSize 16) ∧
    (IEEE.newNaN (switchBitSize 16)).nan = true := by
  decide

end Ieee754

namespace Ieee754

/-! ## The digit loop of `decimalOutput` terminates -/

theorem mantissa_fold_ge (M : List Bool) : ∀ (n : Nat) (v0 : Int), 0 ≤ v0 →
    0 ≤ (List.range n).foldl (fun v i => if M[i]? = some true then 2 * v + 1 else 2 * v) v0 ∧
    ((1 ≤ v0 ∨ ∃ i, i < n ∧ M[i]? = some true) →
      1 ≤ (List.range n).foldl (fun v i => if M[i]? = some true then 2 * v + 1 else 2 * v) v0) := by
  intro n
  induction n with
  | zero =>
    intro v0 h0
    refine ⟨by simpa using h0, ?_⟩
    rintro (h | ⟨i, hi, _⟩)
    · simpa using h
    · omega
  | succ n ih =>
    intro v0 h0
    obtain ⟨i1, i2⟩ := ih v0 h0
    rw [List.range_succ, List.foldl_append]
    simp only [List.foldl_cons, List.foldl_nil]
    constructor
    · split <;> omega
    · rintro (h | ⟨i, hi, hb⟩)
      · have := i2 (Or.inl h)
        split <;> omega
      · by_cases hin : i = n
        · subst hin
          rw [hb]
          simp only [if_true]
          omega
        · have := i2 (Or.inr ⟨i, by omega, hb⟩)
          split <;> omega

theorem exists_true_bit (M : List Bool) (h : allZeros M = false) :
    ∃ i, i < M.length ∧ M[i]? = some true := by
  unfold allZeros at h
  have : ¬ ∀ x ∈ M, (x == false) = true := by
    intro hall
    rw [List.all_eq_true.2 hall] at h
    exact absurd h (by decide)
  push_neg at this
  obtain ⟨b, hb, hne⟩ := this
  obtain ⟨i, hi, hget⟩ := List.mem_iff_getElem.1 hb
  refine ⟨i, hi, ?_⟩
  rw [List.getElem?_eq_getElem hi, hget]
  cases b
  · exact absurd rfl hne
  · rfl

theorem halved_spec (f : Fraction) (hd : 0 < f.den) :
    0 < (Fraction.cancel { f with den := shl f.den 1 }).den ∧
    (Fraction.cancel { f with den := shl f.den 1 }).toRat = f.toRat / 2 := by
  have hs : shl f.den 1 = f.den * 2 := by
    rw [shl_of_nonneg _ _ (by norm_num)]
    norm_num
  have hpos : 0 < shl f.den 1 := by rw [hs]; omega
  obtain ⟨c1, c2, _⟩ := Fraction.cancel_spec { f with den := shl f.den 1 } hpos.ne'
  refine ⟨c1, ?_⟩
  rw [c2]
  simp only [Fraction.toRat, hs]
  push_cast
  field_simp

end Ieee754

namespace Ieee754

theorem decimalBounds_spec (cfg : Format) (x : IEEE) (e : Int) (M : List Bool)
    (he : x.exp = some e) (hM : x.mantissa = some M) (hlen : M.length = cfg.mantissaLen)
    (hnz : ¬ (e = 1 - cfg.NaNExp ∧ allZeros M = true)) :
    ∃ (isEven : Bool) (v low high : Fraction),
      x.decimalBounds cfg = .ok (isEven, v, low, high) ∧
      0 < v.den ∧ 0 < low.den ∧ 0 < high.den ∧
      0 < v.toRat ∧ low.toRat < v.toRat ∧ v.toRat < high.toRat := by
  have hV : (1 : Int) ≤ List.foldl (fun v i => if M[i]? = some true then 2 * v + 1 else 2 * v)
      (if decide (e = 1 - cfg.NaNExp) = true then (0 : Int) else 1) (List.range cfg.mantissaLen) := by
    by_cases hden : e = 1 - cfg.NaNExp
    · have hz : allZeros M = false := by
        cases h : allZeros M
        · rfl
        · exact absurd ⟨hden, h⟩ hnz
      obtain ⟨i, hi, hb⟩ := exists_true_bit M hz
      simp only [hden, decide_True, if_true]
      exact (mantissa_fold_ge M cfg.mantissaLen 0 le_rfl).2 (Or.inr ⟨i, by omega, hb⟩)
    · simp only [hden, decide_False, Bool.false_eq_true, if_false]
      exact (mantissa_fold_ge M cfg.mantissaLen 1 (by norm_num)).2 (Or.inl le_rfl)
  unfold IEEE.decimalBounds
  rw [he, hM]
  simp only []
  generalize List.foldl (fun v i => if M[i]? = some true then 2 * v + 1 else 2 * v)
      (if decide (e = 1 - cfg.NaNExp) = true then (0 : Int) else 1) (List.range cfg.mantissaLen) = V
    at hV ⊢
  generalize (if decide (e = 1 - cfg.NaNExp) = true then 1 + e - (cfg.mantissaLen : Int)
    else e - (cfg.mantissaLen : Int)) = E
  have h2 : (0 : ℚ) < (2 : ℚ) ^ E := by positivity
  have hVq : (1 : ℚ) ≤ (V : ℚ) := by exact_mod_cast hV
  obtain ⟨v1, v2⟩ := fractionTimesPower2_spec V E
  obtain ⟨s1, s2⟩ := fractionTimesPower2_spec (V + 1) E
  have hpred : 0 < (if (!decide (e = 1 - cfg.NaNExp) && allZeros (List.drop 1 M)) = true
        then fractionTimesPower2 (V * 2 - 1) (E - 1)
        else fractionTimesPower2 (V - 1) E).den ∧
      (if (!decide (e = 1 - cfg.NaNExp) && allZeros (List.drop 1 M)) = true
        then fractionTimesPower2 (V * 2 - 1) (E - 1)
        else fractionTimesPower2 (V - 1) E).toRat < (V : ℚ) * (2 : ℚ) ^ E := by
    split
    · obtain ⟨p1, p2⟩ := fractionTimesPower2_spec (V * 2 - 1) (E - 1)
      refine ⟨p1, ?_⟩
      rw [p2, zpow_sub_one₀ (by norm_num : (2 : ℚ) ≠ 0)]
      push_cast
      have : ((V : ℚ) * 2 - 1) * ((2 : ℚ) ^ E * 2⁻¹) = (V : ℚ) * 2 ^ E - 2 ^ E / 2 := by ring
      rw [this]
      linarith
    · obtain ⟨p1, p2⟩ := fractionTimesPower2_spec (V - 1) E
      refine ⟨p1, ?_⟩
      rw [p2]
      push_cast
      have : ((V : ℚ) - 1) * (2 : ℚ) ^ E = (V : ℚ) * 2 ^ E - 2 ^ E := by ring
      rw [this]
      linarith
  generalize (if (!decide (e = 1 - cfg.NaNExp) && allZeros (List.drop 1 M)) = true
        then fractionTimesPower2 (V * 2 - 1) (E - 1)
        else fractionTimesPower2 (V - 1) E) = P at hpred ⊢
  obtain ⟨p1, p2⟩ := hpred
  obtain ⟨l1, l2⟩ := halved_spec ((fractionTimesPower2 V E).add P)
    (Fraction.add_den_pos _ _ v1 p1)
  obtain ⟨g1, g2⟩ := halved_spec ((fractionTimesPower2 V E).add (fractionTimesPower2 (V + 1) E))
    (Fraction.add_den_pos _ _ v1 s1)
  rw [Fraction.add_toRat _ _ v1 p1] at l2
  rw [Fraction.add_toRat _ _ v1 s1] at g2
  refine ⟨_, _, _, _, rfl, v1, l1, g1, ?_, ?_, ?_⟩
  · rw [v2]
    have : (0 : ℚ) < (V : ℚ) := by linarith
    positivity
  · rw [l2, v2]
    linarith
  · rw [g2, v2, s2]
    push_cast
    have : ((V : ℚ) + 1) * (2 : ℚ) ^ E = (V : ℚ) * 2 ^ E + 2 ^ E := by ring
    rw [this]
    linarith

end Ieee754

namespace Ieee754

theorem log10Loop_succ (fuel : Nat) (cand : Int) (f : Fraction) :
    log10Loop (fuel + 1) cand f
      = if (fractionTimesPower10 1 cand).lt f then log10Loop fuel (cand + 1) f else some cand :=
  rfl

theorem log10Loop_terminates (f : Fraction) (hf : 0 < f.den) (K : Int)
    (hK : f.toRat ≤ (10 : ℚ) ^ K) :
    ∀ (t : Nat) (cand : Int), K - cand ≤ t →
      ∃ k : Int, f.toRat ≤ (10 : ℚ) ^ k ∧ ∀ fuel, t < fuel → log10Loop fuel cand f = some k := by
  intro t
  induction t with
  | zero =>
    intro cand hc
    obtain ⟨p1, p2⟩ := fractionTimesPower10_spec 1 cand
    have hlt : (fractionTimesPower10 1 cand).lt f = false := by
      cases h : (fractionTimesPower10 1 cand).lt f
      · rfl
      · have h1 := (Fraction.lt_iff _ _ p1 hf).1 h
        rw [p2, Int.cast_one, one_mul] at h1
        have h2 : (10 : ℚ) ^ K ≤ (10 : ℚ) ^ cand :=
          zpow_le_zpow_right₀ (by norm_num) (by simpa using hc)
        linarith
    have hle : f.toRat ≤ (10 : ℚ) ^ cand := by
      have : ¬ (fractionTimesPower10 1 cand).toRat < f.toRat := by
        intro h
        rw [(Fraction.lt_iff _ _ p1 hf).2 h] at hlt
        exact absurd hlt (by decide)
      rw [p2, Int.cast_one, one_mul] at this
      exact not_lt.1 this
    refine ⟨cand, hle, ?_⟩
    intro fuel hfuel
    obtain ⟨m, rfl⟩ : ∃ m, fuel = m + 1 := ⟨fuel - 1, by omega⟩
    rw [log10Loop_succ, hlt]
    rfl
  | succ t ih =>
    intro cand hc
    obtain ⟨p1, p2⟩ := fractionTimesPower10_spec 1 cand
    cases hlt : (fractionTimesPower10 1 cand).lt f
    · have hle : f.toRat ≤ (10 : ℚ) ^ cand := by
        have : ¬ (fractionTimesPower10 1 cand).toRat < f.toRat := by
          intro h
          rw [(Fraction.lt_iff _ _ p1 hf).2 h] at hlt
          exact absurd hlt (by decide)
        rw [p2, Int.cast_one, one_mul] at this
        exact not_lt.1 this
      refine ⟨cand, hle, ?_⟩
      intro fuel hfuel
      obtain ⟨m, rfl⟩ : ∃ m, fuel = m + 1 := ⟨fuel - 1, by omega⟩
      rw [log10Loop_succ, hlt]
      rfl
    · obtain ⟨k, k1, k2⟩ := ih (cand + 1) (by push_cast at hc; omega)
      refine ⟨k, k1, ?_⟩
      intro fuel hfuel
      obtain ⟨m, rfl⟩ : ∃ m, fuel = m + 1 := ⟨fuel - 1, by omega⟩
      rw [log10Loop_succ, hlt]
      exact k2 m (by omega)

theorem floor_spec (q : Fraction) (hd : 0 < q.den) (h0 : 0 ≤ q.toRat) :
    0 ≤ q.floor ∧ (q.floor : ℚ) ≤ q.toRat ∧ q.toRat < (q.floor : ℚ) + 1 := by
  have hn : 0 ≤ q.num := (Fraction.toRat_nonneg_iff q hd).1 h0
  have hfl : q.floor = q.num / q.den := by
    unfold Fraction.floor
    exact Int.tdiv_eq_ediv hn hd.le
  have hdq : (0 : ℚ) < (q.den : ℚ) := by exact_mod_cast hd
  have h1 : q.num / q.den * q.den ≤ q.num := Int.ediv_mul_le _ hd.ne'
  have h2 : q.num < (q.num / q.den + 1) * q.den := Int.lt_ediv_add_one_mul_self _ hd
  rw [hfl]
  refine ⟨Int.ediv_nonneg hn hd.le, ?_, ?_⟩
  · rw [Fraction.toRat, le_div_iff₀ hdq]
    exact_mod_cast h1
  · rw [Fraction.toRat, div_lt_iff₀ hdq]
    exact_mod_cast h2

end Ieee754

namespace Ieee754

theorem digitLoop_step_cases (isEven : Bool) (v low high : Fraction) (k : Int) (fuel : Nat)
    (q0 : Fraction) (d : List Nat) :
    ∃ (c1 c2 c3 X : Bool),
      c1 = ((isEven && (decFromList (d ++ [q0.multTen.floor.toNat]) k).ge low)
              || (decFromList (d ++ [q0.multTen.floor.toNat]) k).gt low) ∧
      c2 = (decide (q0.multTen.floor.toNat < 9) && X) ∧
      digitLoop isEven v low high k (fuel + 1) q0 d
        = (if c1 && !c2 then some (d ++ [q0.multTen.floor.toNat])
           else if c2 && !c1 then some (d ++ [q0.multTen.floor.toNat + 1])
           else if c1 && c2 then
             (if c3 then some (d ++ [q0.multTen.floor.toNat])
              else some (d ++ [q0.multTen.floor.toNat + 1]))
           else digitLoop isEven v low high k fuel (q0.multTen.subInt q0.multTen.floor)
             (d ++ [q0.multTen.floor.toNat])) := by
  refine ⟨_, _,
    (((decFromList (d ++ [q0.multTen.floor.toNat]) k).sub v).abs).lt
      (((decFromList (d ++ [q0.multTen.floor.toNat + 1]) k).sub v).abs),
    ((isEven && (decFromList (d ++ [q0.multTen.floor.toNat + 1]) k).le high)
      || (decFromList (d ++ [q0.multTen.floor.toNat + 1]) k).lt high),
    rfl, rfl, ?_⟩
  have hdl : (d ++ [q0.multTen.floor.toNat]).dropLast = d := List.dropLast_concat
  conv_lhs => unfold digitLoop
  simp only [hdl]

theorem chain_cases (c1 c2 c3 : Bool) (A B : List Nat) (R : Option (List Nat)) :
    ((c1 = true ∨ c2 = true) →
      ∃ r, (if c1 && !c2 then some A else if c2 && !c1 then some B
            else if c1 && c2 then (if c3 then some A else some B) else R) = some r ∧
        (r = A ∨ (r = B ∧ c2 = true))) ∧
    (c1 = false → c2 = false →
      (if c1 && !c2 then some A else if c2 && !c1 then some B
            else if c1 && c2 then (if c3 then some A else some B) else R) = R) := by
  cases c1 <;> cases c2 <;> cases c3 <;> simp

/-- The step of the digit loop: the next digit is at most nine, the remainder stays in
`[0, 1)`, and the digits together with the remainder still make up the value. -/
theorem digit_step (q0 : Fraction) (d : List Nat) (k : Int) (V : ℚ)
    (hq : 0 < q0.den) (h0 : 0 ≤ q0.toRat) (h1 : q0.toRat < 1) (h9 : ∀ y ∈ d, y ≤ 9)
    (hV : ((bigIntOfDigits (joinDigits d) : ℚ) + q0.toRat) * (10 : ℚ) ^ (k - d.length) = V) :
    q0.multTen.floor.toNat ≤ 9 ∧
    0 < (q0.multTen.subInt q0.multTen.floor).den ∧
    0 ≤ (q0.multTen.subInt q0.multTen.floor).toRat ∧
    (q0.multTen.subInt q0.multTen.floor).toRat < 1 ∧
    (∀ y ∈ d ++ [q0.multTen.floor.toNat], y ≤ 9) ∧
    ((bigIntOfDigits (joinDigits (d ++ [q0.multTen.floor.toNat])) : ℚ)
        + (q0.multTen.subInt q0.multTen.floor).toRat)
      * (10 : ℚ) ^ (k - (d ++ [q0.multTen.floor.toNat]).length) = V := by
  have m1 := Fraction.multTen_den_pos q0 hq
  have m2 := Fraction.multTen_toRat q0 hq
  have m0 : 0 ≤ q0.multTen.toRat := by rw [m2]; linarith
  obtain ⟨f0, f1, f2⟩ := floor_spec q0.multTen m1 m0
  have s1 := Fraction.subInt_den_pos q0.multTen q0.multTen.floor m1
  have s2 := Fraction.subInt_toRat q0.multTen q0.multTen.floor m1
  have hf9 : q0.multTen.floor ≤ 9 := by
    have : (q0.multTen.floor : ℚ) < 10 := by rw [m2] at f1; linarith
    have : q0.multTen.floor < 10 := by exact_mod_cast this
    omega
  have hnat : ((q0.multTen.floor.toNat : Nat) : Int) = q0.multTen.floor := Int.toNat_of_nonneg f0
  have hn9 : q0.multTen.floor.toNat ≤ 9 := by omega
  -- the digit as a character
  obtain ⟨t1, t2, t3, t4⟩ := toDigits_spec q0.multTen.floor.toNat
  have hlen : (Nat.toDigits 10 q0.multTen.floor.toNat).length = 1 :=
    le_antisymm (t4 1 le_rfl (by omega)) t3
  have hN : bigIntOfDigits (joinDigits (d ++ [q0.multTen.floor.toNat]))
      = 10 * bigIntOfDigits (joinDigits d) + q0.multTen.floor := by
    have hj : joinDigits [q0.multTen.floor.toNat] = Nat.toDigits 10 q0.multTen.floor.toNat := by
      simp [joinDigits]
    rw [joinDigits_append, hj]
    obtain ⟨c, hc⟩ := List.length_eq_one.1 hlen
    rw [hc] at t2 ⊢
    rw [bigIntOfDigits_snoc]
    have : bigIntOfDigits [c] = 10 * 0 + ((c.toNat : Int) - 48) := rfl
    rw [this] at t2
    omega
  refine ⟨hn9, s1, ?_, ?_, ?_, ?_⟩
  · rw [s2]; linarith
  · rw [s2]; linarith
  · intro y hy
    rcases List.mem_append.1 hy with h | h
    · exact h9 y h
    · simp only [List.mem_singleton] at h
      rw [h]; exact hn9
  · rw [hN, s2, m2, List.length_append, List.length_singleton, ← hV]
    have h10 : (10 : ℚ) ≠ 0 := by norm_num
    have hpow : (10 : ℚ) ^ (k - (d.length : Int))
        = 10 * (10 : ℚ) ^ (k - ((d.length + 1 : Nat) : Int)) := by
      rw [← zpow_one_add₀ h10]
      congr 1
      push_cast
      ring
    rw [hpow]
    push_cast
    ring

theorem digitLoop_terminates (isEven : Bool) (v low high : Fraction) (k : Int)
    (hl : 0 < low.den) :
    ∀ (n : Nat) (q0 : Fraction) (d : List Nat),
      0 < q0.den → 0 ≤ q0.toRat → q0.toRat < 1 → (∀ y ∈ d, y ≤ 9) →
      ((bigIntOfDigits (joinDigits d) : ℚ) + q0.toRat) * (10 : ℚ) ^ (k - d.length) = v.toRat →
      (10 : ℚ) ^ (k - d.length - ((n + 1 : Nat) : Int)) ≤ v.toRat - low.toRat →
      ∃ r, digitLoop isEven v low high k (n + 1) q0 d = some r ∧ ∀ y ∈ r, y ≤ 9 := by
  -- what one turn of the loop gives
  have turn : ∀ (fuel : Nat) (q0 : Fraction) (d : List Nat),
      0 < q0.den → 0 ≤ q0.toRat → q0.toRat < 1 → (∀ y ∈ d, y ≤ 9) →
      ((bigIntOfDigits (joinDigits d) : ℚ) + q0.toRat) * (10 : ℚ) ^ (k - d.length) = v.toRat →
      ((10 : ℚ) ^ (k - d.length - 1) ≤ v.toRat - low.toRat →
        ∃ r, digitLoop isEven v low high k (fuel + 1) q0 d = some r ∧ ∀ y ∈ r, y ≤ 9) ∧
      ((∃ r, digitLoop isEven v low high k (fuel + 1) q0 d = some r ∧ ∀ y ∈ r, y ≤ 9) ∨
        digitLoop isEven v low high k (fuel + 1) q0 d
          = digitLoop isEven v low high k fuel (q0.multTen.subInt q0.multTen.floor)
              (d ++ [q0.multTen.floor.toNat])) := by
    intro fuel q0 d hq h0 h1 h9 hV
    obtain ⟨g1, g2, g3, g4, g5, g6⟩ := digit_step q0 d k v.toRat hq h0 h1 h9 hV
    obtain ⟨c1, c2, c3, X, e1, e2, e3⟩ := digitLoop_step_cases isEven v low high k fuel q0 d
    obtain ⟨ch1, ch2⟩ := chain_cases c1 c2 c3 (d ++ [q0.multTen.floor.toNat])
      (d ++ [q0.multTen.floor.toNat + 1])
      (digitLoop isEven v low high k fuel (q0.multTen.subInt q0.multTen.floor)
        (d ++ [q0.multTen.floor.toNat]))
    have hc2 : c2 = true → q0.multTen.floor.toNat < 9 := by
      intro h
      rw [e2, Bool.and_eq_true, decide_eq_true_eq] at h
      exact h.1
    have hres : (c1 = true ∨ c2 = true) →
        ∃ r, digitLoop isEven v low high k (fuel + 1) q0 d = some r ∧ ∀ y ∈ r, y ≤ 9 := by
      intro h
      obtain ⟨r, hr, hcase⟩ := ch1 h
      refine ⟨r, by rw [e3]; exact hr, ?_⟩
      rcases hcase with rfl | ⟨rfl, hc⟩
      · exact g5
      · intro y hy
        rcases List.mem_append.1 hy with hy | hy
        · exact h9 y hy
        · simp only [List.mem_singleton] at hy
          have := hc2 hc
          omega
    constructor
    · intro hgap
      apply hres
      left
      obtain ⟨dv1, dv2⟩ := decFromList_spec (d ++ [q0.multTen.floor.toNat]) k
      have hgt : (decFromList (d ++ [q0.multTen.floor.toNat]) k).gt low = true := by
        rw [Fraction.gt_iff _ _ dv1 hl, dv2]
        have hlen : (k - ((d ++ [q0.multTen.floor.toNat]).length : Int)) = k - d.length - 1 := by
          simp only [List.length_append, List.length_singleton]
          push_cast
          ring
        rw [hlen] at g6 ⊢
        have hp : (0 : ℚ) < (10 : ℚ) ^ (k - (d.length : Int) - 1) := by positivity
        have : (q0.multTen.subInt q0.multTen.floor).toRat * (10 : ℚ) ^ (k - (d.length : Int) - 1)
            < (10 : ℚ) ^ (k - (d.length : Int) - 1) := by
          have := mul_lt_mul_of_pos_right g4 hp
          linarith
        nlinarith
      rw [e1, hgt]
      simp
    · by_cases h : c1 = true ∨ c2 = true
      · exact Or.inl (hres h)
      · right
        rw [e3]
        push_neg at h
        exact ch2 (by simpa using h.1) (by simpa using h.2)
  intro n
  induction n with
  | zero =>
    intro q0 d hq h0 h1 h9 hV hgap
    exact (turn 0 q0 d hq h0 h1 h9 hV).1 (by simpa using hgap)
  | succ n ih =>
    intro q0 d hq h0 h1 h9 hV hgap
    obtain ⟨g1, g2, g3, g4, g5, g6⟩ := digit_step q0 d k v.toRat hq h0 h1 h9 hV
    rcases (turn (n + 1) q0 d hq h0 h1 h9 hV).2 with h | h
    · exact h
    · rw [h]
      apply ih _ _ g2 g3 g4 g5 g6
      have : k - ((d ++ [q0.multTen.floor.toNat]).length : Int) - ((n + 1 : Nat) : Int)
          = k - (d.length : Int) - ((n + 1 + 1 : Nat) : Int) := by
        simp only [List.length_append, List.length_singleton]
        push_cast
        ring
      rw [this]
      exact hgap

end Ieee754

namespace Ieee754

/-- C25: the digit loop of `decimalOutput` terminates. For every width and every object
whose bit fields are those of a finite number (exponent between `1 - NaNExp` and
`NaNExp - 1`, mantissa of `mantissaLen` bits) other than zero (not both the exponent
`1 - NaNExp` and an all-zero mantissa), there is an iteration budget from which on
`decimalOutput` returns a string: the exponent `k` and the digit list come out of the two
loops, and every digit is at most nine. -/
theorem decimalOutput_terminates (size : Nat) (x : IEEE)
    (hfin : FiniteBits (switchBitSize size) x)
    (hnz : ∀ M, x.mantissa = some M → x.exp = some (1 - (switchBitSize size).NaNExp) →
      allZeros M = false) :
    ∃ F : Nat, ∀ fuel, F ≤ fuel →
      ∃ (k : Int) (d : List Nat),
        x.decimalDigits (switchBitSize size) fuel = .ok (k, d) ∧ (∀ y ∈ d, y ≤ 9) ∧
        x.decimalOutput (switchBitSize size) fuel
          = .ok (decimalString (switchBitSize size) x.minus k d) := by
  obtain ⟨e, M, he, hM, _, _, hlen⟩ := hfin
  have hnz2 : ¬ (e = 1 - (switchBitSize size).NaNExp ∧ allZeros M = true) := by
    rintro ⟨h1, h2⟩
    have := hnz M hM (by rw [he, h1])
    rw [h2] at this
    exact absurd this (by decide)
  obtain ⟨isEven, v, low, high, hb, hvd, hld, hhd, hvpos, hlow, hhigh⟩ :=
    decimalBounds_spec (switchBitSize size) x e M he hM hlen hnz2
  -- the loop of `log10`
  obtain ⟨K, hK⟩ := pow_unbounded_of_one_lt high.toRat (by norm_num : (1 : ℚ) < 10)
  have hK2 : high.toRat ≤ (10 : ℚ) ^ (K : Int) := by
    rw [zpow_natCast]; exact hK.le
  obtain ⟨k, k1, k2⟩ := log10Loop_terminates high hhd K hK2
    ((K : Int) - log10Seed high).toNat (log10Seed high) (by omega)
  -- the start of the digit loop
  obtain ⟨t1, t2⟩ := fractionTimesPower10_spec 1 (-k)
  have hq0d := Fraction.mult_den_pos v (fractionTimesPower10 1 (-k)) hvd t1
  have hq0 := Fraction.mult_toRat v (fractionTimesPower10 1 (-k)) hvd t1
  rw [t2, Int.cast_one, one_mul] at hq0
  have h10 : (10 : ℚ) ≠ 0 := by norm_num
  have hkpos : (0 : ℚ) < (10 : ℚ) ^ k := by positivity
  have hq0nn : 0 ≤ (v.mult (fractionTimesPower10 1 (-k))).toRat := by
    rw [hq0]; positivity
  have hq0lt : (v.mult (fractionTimesPower10 1 (-k))).toRat < 1 := by
    rw [hq0, zpow_neg, ← div_eq_mul_inv, div_lt_one hkpos]
    linarith
  have hstart : ((bigIntOfDigits (joinDigits ([] : List Nat)) : ℚ)
      + (v.mult (fractionTimesPower10 1 (-k))).toRat)
      * (10 : ℚ) ^ (k - (([] : List Nat).length : Int)) = v.toRat := by
    rw [hq0]
    simp only [joinDigits, List.map_nil, List.flatten_nil, bigIntOfDigits, List.foldl_nil,
      Int.cast_zero, zero_add, List.length_nil, Nat.cast_zero, sub_zero]
    rw [mul_assoc, ← zpow_add₀ h10]
    simp
  -- how many digits are enough
  have hgap : 0 < v.toRat - low.toRat := by linarith
  obtain ⟨n, hn⟩ := pow_unbounded_of_one_lt ((10 : ℚ) ^ (k - 1) / (v.toRat - low.toRat))
    (by norm_num : (1 : ℚ) < 10)
  have hn2 : (10 : ℚ) ^ (k - 1 - (n : Int)) < v.toRat - low.toRat := by
    rw [zpow_sub₀ h10, zpow_natCast, div_lt_iff₀ (by positivity)]
    rw [div_lt_iff₀ hgap] at hn
    linarith
  refine ⟨max (((K : Int) - log10Seed high).toNat + 1) (n + 1), ?_⟩
  intro fuel hfuel
  have hf1 : ((K : Int) - log10Seed high).toNat < fuel := by
    have := le_max_left (((K : Int) - log10Seed high).toNat + 1) (n + 1)
    omega
  have hf2 : n + 1 ≤ fuel := le_trans (le_max_right _ _) hfuel
  obtain ⟨m, rfl⟩ : ∃ m, fuel = m + 1 := ⟨fuel - 1, by omega⟩
  have hlog : high.log10 (m + 1) = some k := k2 (m + 1) hf1
  have hgap2 : (10 : ℚ) ^ (k - (([] : List Nat).length : Int) - ((m + 1 : Nat) : Int))
      ≤ v.toRat - low.toRat := by
    have hmono : (10 : ℚ) ^ (k - (([] : List Nat).length : Int) - ((m + 1 : Nat) : Int))
        ≤ (10 : ℚ) ^ (k - 1 - (n : Int)) := by
      apply zpow_le_zpow_right₀ (by norm_num)
      simp only [List.length_nil]
      push_cast
      have : (n : Int) ≤ m := by omega
      linarith
    linarith
  obtain ⟨r, hr, hr9⟩ := digitLoop_terminates isEven v low high k hld m _ []
    hq0d hq0nn hq0lt (by simp) hstart hgap2
  have hdig : x.decimalDigits (switchBitSize size) (m + 1) = .ok (k, r) := by
    unfold IEEE.decimalDigits
    rw [hb]
    simp only [hlog, hr]
  refine ⟨k, r, hdig, hr9, ?_⟩
  unfold IEEE.decimalOutput
  rw [hdig]

theorem decimalOutput_terminates_witness :
    ∃ F : Nat, ∀ fuel, F ≤ fuel →
      ∃ (k : Int) (d : List Nat),
        one16.decimalDigits (switchBitSize 16) fuel = .ok (k, d) ∧ (∀ y ∈ d, y ≤ 9) ∧
        one16.decimalOutput (switchBitSize 16) fuel
          = .ok (decimalString (switchBitSize 16) one16.minus k d) :=
  decimalOutput_terminates 16 one16 ⟨0, List.replicate 10 false, rfl, rfl, by decide, by decide, rfl⟩
    (fun M _ h => absurd h (by decide))

end Ieee754
